import Mathlib

/-! Healthcare Management System: storage engine.

A shallow embedding of the index classes of the repository
(`AvailList.h`, `PrimaryIndex.h`, `SecondaryIndex.h`) and of the table classes
(`DoctorManagementSystem.h`, `AppointmentManagementSystem.h`), and theorems
about them.

Conventions of the embedding

* `std::string` is `String`; `a < b` on `std::string` is the lexicographic
  order on the characters (`strLt`).
* `int` is `Int`. `std::stoi` and `std::to_string` are modelled below.
* `std::vector<T>` is `List T`; `std::map<string,int>` is a list of pairs kept
  in ascending key order.
* A call that has no defined result (an uncaught `std::stoi` exception, an
  out-of-range `operator[]`, a signed overflow, a loop that never ends) is
  `none`.
* The file mirrors written by the `update...File` members are not part of the
  in-memory state and are left out; `printAllDoctors`, which reads the mirror
  of the primary index, reads the text that `updatePrimaryIndexFile` writes
  for the index in memory. For the statements on the files of the free list
  and of the secondary index, `updateAvailListFile` and
  `updateSecondaryIndexAndLabelIdList` are the text that these members write,
  and the members that load are functions of the text they read; the loader
  of the free list, whose loop writes the file that it reads, takes the file
  in blocks of the size of the stream buffer.
* A record file is the list of its bytes, one character a byte; the size of a
  string is its number of characters. The console output of the members that
  change a table is left out, except that a `stoi` in a message can throw; the
  members that print return the text they write.
-/

/-! ## Strings and integers -/

/-- The order `operator<` of `std::string`: lexicographic on the characters. -/
def strLt (a b : String) : Prop := a.data < b.data

instance strLt.decidable : DecidableRel strLt := fun a b =>
  inferInstanceAs (Decidable (a.data < b.data))

/-- The white space that `std::stoi` (through `strtol`) skips. -/
def isspace (c : Char) : Bool :=
  c = ' ' || c = '\t' || c = '\n' || c = '\x0b' || c = '\x0c' || c = '\r'

/-- Value of a decimal digit character. -/
def digitVal (c : Char) : Nat := c.toNat - 48

/-- Value of the longest run of decimal digits that starts `cs`. -/
def stoiDigits (cs : List Char) : Nat :=
  (cs.takeWhile Char.isDigit).foldl (fun a c => 10 * a + digitVal c) 0

/-- The value when it fits a 32-bit `int` (`std::out_of_range` otherwise). -/
def inIntRange (v : Int) : Option Int :=
  if -2147483648 ≤ v ∧ v ≤ 2147483647 then some v else none

/-- The sign-free part of `std::stoi`: at least one digit is needed
(`std::invalid_argument` otherwise); what follows the digits is ignored. -/
def stoiBody (neg : Bool) (ds : List Char) : Option Int :=
  if (ds.takeWhile Char.isDigit).isEmpty then none
  else inIntRange (if neg then -(stoiDigits ds : Int) else (stoiDigits ds : Int))

/-- Model of `std::stoi(s)` in base 10: leading white space is skipped, one
optional sign is read, then the digits. `none` stands for the exception. -/
def stoi (s : String) : Option Int :=
  match s.data.dropWhile isspace with
  | [] => none
  | c :: ds =>
    if c = '-' then stoiBody true ds
    else if c = '+' then stoiBody false ds
    else stoiBody false (c :: ds)

/-- Model of `std::to_string(int)`: decimal digits, `-` for a negative value. -/
def to_string (v : Int) : String :=
  match v with
  | Int.ofNat n => String.mk (Nat.toDigits 10 n)
  | Int.negSucc n => String.mk ('-' :: Nat.toDigits 10 (n + 1))

/-! ## AvailList.h -/

/-- A node of the free list (`AvailListNode`); the `next` pointer is the list
structure itself. -/
structure AvailListNode where
  offset : Int
  size : Int
deriving DecidableEq, Repr

/-- The free list from `header` on. A node pointer is the position of the node
in this list; `nullptr` is `none`. -/
abbrev AvailList := List AvailListNode

namespace AvailList

/-- Walk of `AvailList::bestFit` from the node at position `pos`:
`while (curr != nullptr && curr->size < newSize) curr = curr->next;`. -/
def bestFitFrom : List AvailListNode → Nat → Int → Option Nat
  | [], _, _ => none
  | curr :: rest, pos, newSize =>
    if curr.size < newSize then bestFitFrom rest (pos + 1) newSize else some pos

/-- `AvailList::bestFit(newSize)`: the first node whose size is not below
`newSize`, as a position, or `none` for `nullptr`. -/
def bestFit (l : AvailList) (newSize : Int) : Option Nat :=
  bestFitFrom l 0 newSize

/-- The free list is ascending by size. -/
def SortedBySize (l : AvailList) : Prop :=
  l.Pairwise (fun a b => a.size ≤ b.size)

instance SortedBySize.decidable (l : AvailList) : Decidable (SortedBySize l) :=
  inferInstanceAs (Decidable (List.Pairwise (fun (a b : AvailListNode) => a.size ≤ b.size) l))

end AvailList

/-! ## PrimaryIndex.h -/

/-- An entry of the primary index (`PrimaryIndexNode`). -/
structure PrimaryIndexNode where
  primaryKey : String
  offset : Int
deriving DecidableEq, Repr

/-- The vector `primaryIndex` of the class `PrimaryIndex`. -/
abbrev PrimaryIndex := List PrimaryIndexNode

namespace PrimaryIndex

/-- `PrimaryIndexNode::operator<`: the string order of the keys. -/
def nodeLt (a b : PrimaryIndexNode) : Prop := strLt a.primaryKey b.primaryKey

instance nodeLt.decidable : DecidableRel nodeLt := fun a b =>
  inferInstanceAs (Decidable (strLt a.primaryKey b.primaryKey))

/-- `PrimaryIndex::getNewId`: `"01"` for the empty index, else
`stoi(primaryIndex.back().primaryKey) + 1`, with a `0` in front below 10.
`none` when `stoi` throws or the `int` addition overflows. -/
def getNewId (idx : PrimaryIndex) : Option String :=
  match idx.getLast? with
  | none => some "01"
  | some back =>
    match stoi back.primaryKey with
    | none => none
    | some v =>
      if v + 1 ≤ 2147483647 then
        let newId := v + 1
        some (if newId < 10 then "0" ++ to_string newId else to_string newId)
      else none

/-- `PrimaryIndex::sortPrimaryIndex`: `std::sort` with `operator<`. The result
is ordered so that no entry is below an earlier one; entries with equal keys,
whose order `std::sort` leaves open, keep their order here. -/
def sortPrimaryIndex (idx : PrimaryIndex) : PrimaryIndex :=
  idx.insertionSort (fun a b => ¬ nodeLt b a)

/-- `PrimaryIndex::addPrimaryNode`: `emplace_back`, then sort. -/
def addPrimaryNode (idx : PrimaryIndex) (primaryKey : String) (offset : Int) : PrimaryIndex :=
  sortPrimaryIndex (idx ++ [⟨primaryKey, offset⟩])

/-- The binary search loop of `PrimaryIndex::removePrimaryNode` with the loop
variables `left` and `right`; `fuel` bounds the number of iterations. The
operands of `/` are not negative under the loop guard. -/
def removeSearch (idx : PrimaryIndex) (primaryKey : String) : Nat → Int → Int → Option PrimaryIndex
  | 0, _, _ => none
  | fuel + 1, left, right =>
    if left ≤ right then
      let mid := left + (right - left) / 2
      if mid < 0 then none
      else
        match idx[mid.toNat]? with
        | none => none
        | some nd =>
          if nd.primaryKey = primaryKey then
            some (sortPrimaryIndex (idx.eraseIdx mid.toNat))
          else if strLt nd.primaryKey primaryKey then
            removeSearch idx primaryKey fuel (mid + 1) right
          else
            removeSearch idx primaryKey fuel left (mid - 1)
    else some idx

/-- `PrimaryIndex::removePrimaryNode`: binary search from `left = 0`,
`right = size - 1`; the entry found is erased and the vector sorted again; the
index is unchanged when the search ends without a hit. -/
def removePrimaryNode (idx : PrimaryIndex) (primaryKey : String) : Option PrimaryIndex :=
  removeSearch idx primaryKey (idx.length + 1) 0 ((idx.length : Int) - 1)

/-- The keys of the index, in index order. -/
def keys (idx : PrimaryIndex) : List String := idx.map (fun e => e.primaryKey)

/-- A request to the index as the table classes issue them: `add off` is
`addPrimaryNode(getNewId(), off)`, `remove k` is `removePrimaryNode(k)`. -/
inductive Op where
  | add (offset : Int)
  | remove (primaryKey : String)
deriving DecidableEq, Repr

/-- One request on the index together with the log of the keys assigned so
far (latest last). -/
def step (st : PrimaryIndex × List String) (op : Op) : Option (PrimaryIndex × List String) :=
  match op with
  | Op.add offset =>
    match getNewId st.1 with
    | none => none
    | some k => some (addPrimaryNode st.1 k offset, st.2 ++ [k])
  | Op.remove k =>
    match removePrimaryNode st.1 k with
    | none => none
    | some idx => some (idx, st.2)

/-- A sequence of requests, from left to right. -/
def run : List Op → PrimaryIndex × List String → Option (PrimaryIndex × List String)
  | [], st => some st
  | op :: ops, st =>
    match step st op with
    | none => none
    | some st1 => run ops st1

end PrimaryIndex

/-! ## SecondaryIndex.h -/

/-- A node of the label list (`PrimaryKeyNode`): a primary key and the index
of the next node as a string; `"-1"` ends a list and `"##"` marks a free node. -/
structure PrimaryKeyNode where
  primaryKey : String
  nextIndex : String
deriving DecidableEq, Repr

/-- The in-memory state of the class `SecondaryIndex`. -/
structure SecondaryIndex where
  secondaryIndexMap : List (String × Int)
  primaryKeyList : List PrimaryKeyNode
deriving DecidableEq, Repr

namespace SecondaryIndex

/-- `secondaryIndexMap.find(key)`: the head stored for `key`, `none` for `end()`. -/
def mapFind : List (String × Int) → String → Option Int
  | [], _ => none
  | (k, v) :: rest, key => if k = key then some v else mapFind rest key

/-- `secondaryIndexMap[key] = v`: assigns to the entry of `key`, which is
inserted at its place in key order when `key` is new. -/
def mapAssign : List (String × Int) → String → Int → List (String × Int)
  | [], key, v => [(key, v)]
  | (k, w) :: rest, key, v =>
    if k = key then (k, v) :: rest
    else if strLt key k then (key, v) :: (k, w) :: rest
    else (k, w) :: mapAssign rest key v

/-- The index right after construction: no key, no node. -/
def empty : SecondaryIndex := ⟨[], []⟩

/-- `primaryKeyList[i]` for an `int` index; `none` outside the vector. -/
def nodeAt (l : List PrimaryKeyNode) (i : Int) : Option PrimaryKeyNode :=
  if i < 0 then none else l[i.toNat]?

/-- The scan of `getFreeLabelIndex`: first node from position `index` on whose
`nextIndex` is `"##"`. -/
def firstFree : List PrimaryKeyNode → Nat → Option Nat
  | [], _ => none
  | nd :: rest, index =>
    if nd.nextIndex = "##" then some index else firstFree rest (index + 1)

/-- `SecondaryIndex::getFreeLabelIndex`: the first free node, or a new node
`("##", "##")` at the end of the vector. -/
def getFreeLabelIndex (s : SecondaryIndex) : SecondaryIndex × Nat :=
  match firstFree s.primaryKeyList 0 with
  | some index => (s, index)
  | none =>
    (⟨s.secondaryIndexMap, s.primaryKeyList ++ [⟨"##", "##"⟩]⟩, s.primaryKeyList.length)

/-- `SecondaryIndex::releaseLabelId`: inside the vector the node becomes
`("##", "##")`. -/
def releaseLabelId (l : List PrimaryKeyNode) (index : Int) : List PrimaryKeyNode :=
  if 0 ≤ index ∧ index < (l.length : Int) then l.set index.toNat ⟨"##", "##"⟩ else l

/-- Assignment to `primaryKeyList[i].nextIndex` (`i` inside the vector). -/
def setNextIndex (l : List PrimaryKeyNode) (i : Nat) (next : String) : List PrimaryKeyNode :=
  match l[i]? with
  | some nd => l.set i ⟨nd.primaryKey, next⟩
  | none => l

/-- The loop of `addPrimaryKeyToSecondaryNode` that walks to the last node:
`while (primaryKeyList[currentIndex].nextIndex != "-1") currentIndex = stoi(...)`. -/
def lastNodeFrom (l : List PrimaryKeyNode) : Nat → Int → Option Nat
  | 0, _ => none
  | fuel + 1, currentIndex =>
    match nodeAt l currentIndex with
    | none => none
    | some nd =>
      if nd.nextIndex ≠ "-1" then
        match stoi nd.nextIndex with
        | none => none
        | some next => lastNodeFrom l fuel next
      else some currentIndex.toNat

/-- `SecondaryIndex::addPrimaryKeyToSecondaryNode`. A walk of more steps than
there are nodes never ends, so the number of nodes is fuel enough. -/
def addPrimaryKeyToSecondaryNode (s : SecondaryIndex) (secondaryKey primaryKey : String) :
    Option SecondaryIndex :=
  let s1 := (getFreeLabelIndex s).1
  let freeLabelId := (getFreeLabelIndex s).2
  match mapFind s1.secondaryIndexMap secondaryKey with
  | none =>
    some ⟨mapAssign s1.secondaryIndexMap secondaryKey freeLabelId,
          s1.primaryKeyList.set freeLabelId ⟨primaryKey, "-1"⟩⟩
  | some currentIndex =>
    if currentIndex = -1 then
      some ⟨mapAssign s1.secondaryIndexMap secondaryKey freeLabelId,
            s1.primaryKeyList.set freeLabelId ⟨primaryKey, "-1"⟩⟩
    else
      match lastNodeFrom s1.primaryKeyList s1.primaryKeyList.length currentIndex with
      | none => none
      | some last =>
        some ⟨s1.secondaryIndexMap,
              (setNextIndex s1.primaryKeyList last (to_string freeLabelId)).set freeLabelId
                ⟨primaryKey, "-1"⟩⟩

/-- The loop of `removePrimaryKeyFromSecondaryNode`. `prev` is the index of
the node whose `nextIndex` field `prevPtr` points to, `currentIndex` the loop
variable. The state is returned as it is when the loop is left. -/
def removeLoop (secondaryKey primaryKey : String) (m : List (String × Int))
    (l : List PrimaryKeyNode) : Nat → Int → Int → Option SecondaryIndex
  | 0, _, _ => none
  | fuel + 1, prev, currentIndex =>
    if currentIndex = -1 then some ⟨m, l⟩
    else
      match nodeAt l currentIndex with
      | none => none
      | some nd =>
        if nd.primaryKey = primaryKey then
          if some currentIndex = mapFind m secondaryKey then
            match stoi nd.nextIndex with
            | none => none
            | some head =>
              some ⟨mapAssign m secondaryKey head,
                    releaseLabelId (setNextIndex l prev.toNat nd.nextIndex) currentIndex⟩
          else
            some ⟨m, releaseLabelId (setNextIndex l prev.toNat nd.nextIndex) currentIndex⟩
        else
          match stoi nd.nextIndex with
          | none => none
          | some next => removeLoop secondaryKey primaryKey m l fuel currentIndex next

/-- `SecondaryIndex::removePrimaryKeyFromSecondaryNode`. For an unknown key the
call returns at once. `prevPtr` starts at the `nextIndex` field of the head
node; with head `-1` that address is formed but never used, the loop body is
not entered. -/
def removePrimaryKeyFromSecondaryNode (s : SecondaryIndex) (secondaryKey primaryKey : String) :
    Option SecondaryIndex :=
  match mapFind s.secondaryIndexMap secondaryKey with
  | none => some s
  | some head =>
    removeLoop secondaryKey primaryKey s.secondaryIndexMap s.primaryKeyList
      (s.primaryKeyList.length + 1) head head

/-- The loop of `getPrimaryKeysBySecondaryKey`: collects the primary keys from
node `index` on until the index `-1` is read. -/
def collectFrom (l : List PrimaryKeyNode) : Nat → Int → Option (List String)
  | 0, _ => none
  | fuel + 1, index =>
    if index = -1 then some []
    else
      match nodeAt l index with
      | none => none
      | some nd =>
        match stoi nd.nextIndex with
        | none => none
        | some next => (collectFrom l fuel next).map (fun r => nd.primaryKey :: r)

/-- `int index = secondaryIndexMap[secondaryKey]`: `operator[]` of `std::map`
inserts the key with the value `0` when it is absent. -/
def mapIndex (m : List (String × Int)) (key : String) : List (String × Int) × Int :=
  match mapFind m key with
  | some v => (m, v)
  | none => (mapAssign m key 0, 0)

/-- `SecondaryIndex::getPrimaryKeysBySecondaryKey`: the state after the call
and the vector returned. -/
def getPrimaryKeysBySecondaryKey (s : SecondaryIndex) (secondaryKey : String) :
    Option (SecondaryIndex × List String) :=
  (collectFrom s.primaryKeyList (s.primaryKeyList.length + 1)
      (mapIndex s.secondaryIndexMap secondaryKey).2).map
    (fun r => (⟨(mapIndex s.secondaryIndexMap secondaryKey).1, s.primaryKeyList⟩, r))

end SecondaryIndex

/-! ## Auxiliary notions for the primary index -/

/-- The string that `getNewId` builds from the number `newId`:
`(newId < 10) ? "0" + to_string(newId) : to_string(newId)`. -/
def idString (n : Int) : String := if n < 10 then "0" ++ to_string n else to_string n

namespace PrimaryIndex

/-- The index is ordered by `operator<`: no entry is below an earlier one. -/
def SortedByKey (idx : PrimaryIndex) : Prop :=
  idx.Pairwise (fun a b => ¬ nodeLt b a)

instance SortedByKey.decidable (idx : PrimaryIndex) : Decidable (SortedByKey idx) :=
  inferInstanceAs (Decidable (List.Pairwise (fun (a b : PrimaryIndexNode) => ¬ nodeLt b a) idx))

/-- The largest numeric value among the keys of a non-empty index. -/
def maxNumericKey : PrimaryIndex → Option Int
  | [] => none
  | [e] => stoi e.primaryKey
  | e :: rest =>
    match stoi e.primaryKey, maxNumericKey rest with
    | some a, some b => some (max a b)
    | _, _ => none

/-- A decimal string padded on the left with `0` to at least two characters. -/
def leftPad2 (s : String) : String := if s.length < 2 then "0" ++ s else s

/-- The specification side of `getNewId`: `"01"` for the empty index, else the
decimal string of the largest numeric key plus one, padded to two digits. -/
def newIdSpec (idx : PrimaryIndex) : Option String :=
  match idx with
  | [] => some "01"
  | e :: rest =>
    match maxNumericKey (e :: rest) with
    | none => none
    | some v => some (leftPad2 (to_string (v + 1)))

/-- The invariant of the index along requests: it is ordered by `operator<`
and every key is an id string that `getNewId` builds. -/
def KeysWellBuilt (idx : PrimaryIndex) : Prop :=
  SortedByKey idx ∧
    ∀ e ∈ idx, ∃ n : Nat, 1 ≤ n ∧ n ≤ 2147483647 ∧ e.primaryKey = idString (n : Int)

end PrimaryIndex

/-! ## Well-formed secondary indexes -/

namespace SecondaryIndex

/-- The positions `c` are the nodes of the list that starts at index `h`:
every node is inside the vector, its `nextIndex` is read by `stoi` as the
index of the node that follows, and the last node ends the list with the
string `"-1"`. The empty list is the head `-1`. -/
def Chain (l : List PrimaryKeyNode) : Int → List Nat → Prop
  | h, [] => h = -1
  | h, i :: rest =>
    h = (i : Int) ∧ ∃ nd, l[i]? = some nd ∧ ∃ next, stoi nd.nextIndex = some next ∧
      (next = -1 → nd.nextIndex = "-1") ∧ Chain l next rest

/-- The primary key stored in node `i`. -/
def keyAt (l : List PrimaryKeyNode) (i : Nat) : String :=
  match l[i]? with
  | some nd => nd.primaryKey
  | none => ""

/-- The state `s` is well formed with the node lists `ch`: each secondary key
of the map heads the list `ch k`, no node occurs twice in a list, and no node
belongs to the lists of two keys. -/
structure WellFormedWith (s : SecondaryIndex) (ch : String → List Nat) : Prop where
  chain : ∀ k h, mapFind s.secondaryIndexMap k = some h → Chain s.primaryKeyList h (ch k)
  absent : ∀ k, mapFind s.secondaryIndexMap k = none → ch k = []
  nodup : ∀ k, (ch k).Nodup
  disjoint : ∀ k k1, k ≠ k1 → ∀ i, i ∈ ch k → i ∉ ch k1

/-- A well-formed secondary index. -/
def WellFormed (s : SecondaryIndex) : Prop := ∃ ch, WellFormedWith s ch

end SecondaryIndex

/-! ## Sequences of requests to the secondary index -/

namespace SecondaryIndex

/-- A request to the secondary index. -/
inductive Op where
  | add (secondaryKey primaryKey : String)
  | remove (secondaryKey primaryKey : String)
deriving DecidableEq, Repr

/-- One request: `addPrimaryKeyToSecondaryNode` or
`removePrimaryKeyFromSecondaryNode`. -/
def step (s : SecondaryIndex) : Op → Option SecondaryIndex
  | Op.add sk pk => addPrimaryKeyToSecondaryNode s sk pk
  | Op.remove sk pk => removePrimaryKeyFromSecondaryNode s sk pk

/-- A sequence of requests, from left to right. -/
def run : List Op → SecondaryIndex → Option SecondaryIndex
  | [], s => some s
  | op :: ops, s =>
    match step s op with
    | none => none
    | some s1 => run ops s1

/-- The specification side of one request: under each secondary key the
primary keys that are active, in the order they were added. An addition puts
the key at the end, a removal takes it out. -/
def activeStep (a : String → List String) : Op → String → List String
  | Op.add sk pk => Function.update a sk (a sk ++ [pk])
  | Op.remove sk pk => Function.update a sk ((a sk).erase pk)

/-- The active primary keys after the requests `ops`, from the active keys `a`. -/
def activeAfter : List Op → (String → List String) → String → List String
  | [], a => a
  | op :: ops, a => activeAfter ops (activeStep a op)

/-- The primary keys added under each secondary key and not removed since, in
the order they were added, after the requests `ops` on the empty index. -/
def active (ops : List Op) : String → List String :=
  activeAfter ops (fun _ => [])

/-- A pair (secondary key, primary key) is added only while it is absent and
removed only while it is present. -/
def Admissible : List Op → (String → List String) → Prop
  | [], _ => True
  | Op.add sk pk :: ops, a => pk ∉ a sk ∧ Admissible ops (activeStep a (Op.add sk pk))
  | Op.remove sk pk :: ops, a => pk ∈ a sk ∧ Admissible ops (activeStep a (Op.remove sk pk))

/-- The secondary keys that occur in an addition of `ops`. -/
def addedKeys : List Op → List String
  | [] => []
  | Op.add sk _ :: ops => sk :: addedKeys ops
  | Op.remove _ _ :: ops => addedKeys ops

end SecondaryIndex

/-! ## PrimaryIndex.h: lookup; AvailList.h: insertion and removal -/

namespace PrimaryIndex

/-- The loop of `PrimaryIndex::binarySearchPrimaryIndex` with the loop variables
`left` and `right`; `fuel` bounds the number of iterations. The result `-1`
stands for a key that was not found. -/
def searchLoop (idx : PrimaryIndex) (primaryKey : String) : Nat → Int → Int → Option Int
  | 0, _, _ => none
  | fuel + 1, left, right =>
    if left ≤ right then
      let mid := left + (right - left) / 2
      if mid < 0 then none
      else
        match idx[mid.toNat]? with
        | none => none
        | some nd =>
          if nd.primaryKey = primaryKey then some nd.offset
          else if strLt primaryKey nd.primaryKey then
            searchLoop idx primaryKey fuel left (mid - 1)
          else
            searchLoop idx primaryKey fuel (mid + 1) right
    else some (-1)

/-- `PrimaryIndex::binarySearchPrimaryIndex`: binary search from `left = 0`,
`right = size - 1`. -/
def binarySearchPrimaryIndex (idx : PrimaryIndex) (primaryKey : String) : Option Int :=
  searchLoop idx primaryKey (idx.length + 1) 0 ((idx.length : Int) - 1)

end PrimaryIndex

namespace AvailList

/-- The walk of `AvailList::insert` over a list that is not empty:
`while (curr != nullptr && curr->size < newNode->size)` moves on; the new node
is linked in before `curr` (at the head when `prev` is still `nullptr`, at the
end when `curr` is `nullptr`). -/
def insertWalk : List AvailListNode → AvailListNode → List AvailListNode
  | [], newNode => [newNode]
  | curr :: rest, newNode =>
    if curr.size < newNode.size then curr :: insertWalk rest newNode
    else newNode :: curr :: rest

/-- `AvailList::insert(newNode)`: the new node becomes the head of an empty
list, else it is linked in where the walk stops. -/
def insert (l : AvailList) (newNode : AvailListNode) : AvailList :=
  match l with
  | [] => [newNode]
  | header :: rest => insertWalk (header :: rest) newNode

/-- The walk of `AvailList::remove` from the node at position `pos`:
`while (curr != nullptr && curr != nodeToRemove)` moves on; the node found is
spliced out. -/
def removeWalk : List AvailListNode → Nat → Nat → List AvailListNode
  | [], _, _ => []
  | curr :: rest, pos, nodeToRemove =>
    if pos = nodeToRemove then rest else curr :: removeWalk rest (pos + 1) nodeToRemove

/-- `AvailList::remove(nodeToRemove)`: nothing happens for an empty list or a
null pointer; the head is unlinked when it is the node; else the walk looks
for the node. A pointer to a node outside the list is a position outside the
list. -/
def remove (l : AvailList) (nodeToRemove : Option Nat) : AvailList :=
  match l, nodeToRemove with
  | [], _ => []
  | header :: rest, none => header :: rest
  | header :: rest, some n =>
    if n = 0 then rest else header :: removeWalk rest 1 n

end AvailList

/-! ## Record files

A record file is the list of its bytes. A stream position is a byte index;
a seek to a negative position fails and the stream performs no further
operation. -/

/-- Bytes `bs` written at position `pos`: they replace what is there and
extend the file at its end, the gap after the old end being filled with zero
bytes. A write of no byte does nothing. -/
def writeAt (f : List Char) (pos : Nat) : List Char → List Char
  | [] => f
  | b :: bs =>
    f.take pos ++ List.replicate (pos - f.length) '\x00' ++ (b :: bs) ++ f.drop (pos + (bs.length + 1))

/-- `getline(file, line)` at position `pos`: the bytes up to the next line
terminator or the end of the file. -/
def readLine (f : List Char) (pos : Nat) : String :=
  String.mk ((f.drop pos).takeWhile (fun c => c != '\n'))

/-- The line read at `pos` ended at a line terminator; when it ended at the
end of the file instead, `eofbit` is set and later output on the stream is
dropped. -/
def lineTerminated (f : List Char) (pos : Nat) : Bool :=
  (f.drop pos).contains '\n'

/-- `getline(recordStream, field, '|')` on the rest `cs` of a line: the field
and what follows its delimiter. -/
def splitField (cs : List Char) : String × List Char :=
  (String.mk (cs.takeWhile (fun c => c != '|')), (cs.dropWhile (fun c => c != '|')).drop 1)

/-- The five fields that the table classes read from a record line:
status, length field, id, and the two data fields (name and address of a
doctor, date and doctor id of an appointment). -/
structure ParsedRecord where
  status : String
  recordLen : String
  record_id : String
  second : String
  third : String
deriving DecidableEq, Repr

/-- Five calls `getline(recordStream, field, '|')` on a line; a field that is
missing is empty. -/
def parseRecord (line : String) : ParsedRecord :=
  let f1 := splitField line.data
  let f2 := splitField f1.2
  let f3 := splitField f2.2
  let f4 := splitField f3.2
  let f5 := splitField f4.2
  ⟨f1.1, f2.1, f3.1, f4.1, f5.1⟩

/-- The bytes `"|" + id + "|" + second + "|" + third + "|"`. -/
def payload (id second third : String) : List Char :=
  '|' :: id.data ++ '|' :: second.data ++ '|' :: third.data ++ ['|']

/-- The record that a fresh append writes:
`" |"`, a `0` when the size is below 10, `to_string(size)`, the payload and
the line terminator. -/
def freshRecord (size : Int) (id second third : String) : List Char :=
  [' ', '|'] ++ (if size < 10 then ['0'] else []) ++ (to_string size).data ++
    payload id second third ++ ['\n']

/-- The bytes that the reuse of a free slot of `size` bytes writes behind the
length field: the payload, padded with `-` when the slot is larger, and of it
the first `size` bytes (`file.write(newRecord.c_str(), size)`). -/
def reusedBytes (size : Int) (id second third : String) : List Char :=
  let newRecord := payload id second third
  let padding := size - (newRecord.length : Int)
  let padded := if padding ≥ 0 then newRecord ++ List.replicate padding.toNat '-' else newRecord
  (padded ++ ['\n']).take size.toNat

/-! ## DoctorManagementSystem.h -/

/-- The class `Doctor`. -/
structure Doctor where
  id : String
  name : String
  address : String
deriving DecidableEq, Repr

/-- The state of the class `DoctorManagementSystem` together with the record
file `doctors.txt`; `none` is a file that cannot be opened. -/
structure DoctorManagementSystem where
  doctorPrimaryIndex : PrimaryIndex
  doctorSecondaryIndex : SecondaryIndex
  doctorAvailList : AvailList
  doctorsFile : Option (List Char)
deriving DecidableEq, Repr

namespace DoctorManagementSystem

/-- The empty doctor table: empty indexes, empty free list, empty file. -/
def empty : DoctorManagementSystem := ⟨[], SecondaryIndex.empty, [], some []⟩

/-- The end of `addDoctor`: the message with `stoi(doctor.id)`, then the
updates of the primary and of the secondary index. -/
def recordAdded (t : DoctorManagementSystem) (doctor : Doctor) (file : List Char) (offset : Int)
    (avail : AvailList) : Option (DoctorManagementSystem × Doctor) :=
  match stoi doctor.id with
  | none => none
  | some _ =>
    match SecondaryIndex.addPrimaryKeyToSecondaryNode t.doctorSecondaryIndex doctor.name
        doctor.id with
    | none => none
    | some secondary =>
      some (⟨PrimaryIndex.addPrimaryNode t.doctorPrimaryIndex doctor.id offset, secondary, avail,
        some file⟩, doctor)

/-- `DoctorManagementSystem::addDoctor`: the state after the call and the
doctor with the id that was assigned. -/
def addDoctor (t : DoctorManagementSystem) (doctor : Doctor) :
    Option (DoctorManagementSystem × Doctor) :=
  match PrimaryIndex.getNewId t.doctorPrimaryIndex with
  | none => none
  | some newId =>
    match t.doctorsFile with
    | none => some (t, ⟨newId, doctor.name, doctor.address⟩)
    | some file =>
      let lengthIndicator : Int :=
        (newId.length : Int) + (doctor.name.length : Int) + (doctor.address.length : Int) + 4
      match AvailList.bestFit t.doctorAvailList lengthIndicator with
      | some pos =>
        match t.doctorAvailList[pos]? with
        | none => none
        | some node =>
          recordAdded t ⟨newId, doctor.name, doctor.address⟩
            (if node.offset < 0 then file
             else writeAt (writeAt file node.offset.toNat [' ']) (node.offset.toNat + 4)
               (reusedBytes node.size newId doctor.name doctor.address))
            node.offset (AvailList.remove t.doctorAvailList (some pos))
      | none =>
        recordAdded t ⟨newId, doctor.name, doctor.address⟩
          (file ++ freshRecord lengthIndicator newId doctor.name doctor.address)
          (file.length : Int) t.doctorAvailList

/-- `DoctorManagementSystem::deleteDoctor`. -/
def deleteDoctor (t : DoctorManagementSystem) (id : String) : Option DoctorManagementSystem :=
  match PrimaryIndex.binarySearchPrimaryIndex t.doctorPrimaryIndex id with
  | none => none
  | some offset =>
    if offset = -1 then some t
    else
      match t.doctorsFile with
      | none => some t
      | some file =>
        let file1 := if offset < 0 then file else writeAt file offset.toNat ['*']
        let line := if offset < 0 then "" else readLine file1 offset.toNat
        let record := parseRecord line
        match stoi record.recordLen with
        | none => none
        | some lengthIndicator =>
          match PrimaryIndex.removePrimaryNode t.doctorPrimaryIndex id with
          | none => none
          | some primary =>
            match SecondaryIndex.removePrimaryKeyFromSecondaryNode t.doctorSecondaryIndex
                record.second id with
            | none => none
            | some secondary =>
              match stoi id with
              | none => none
              | some _ =>
                some ⟨primary, secondary,
                  AvailList.insert t.doctorAvailList ⟨offset, lengthIndicator⟩, some file1⟩

/-- `DoctorManagementSystem::updateDoctorName`. -/
def updateDoctorName (t : DoctorManagementSystem) (id newName : String) :
    Option DoctorManagementSystem :=
  match PrimaryIndex.binarySearchPrimaryIndex t.doctorPrimaryIndex id with
  | none => none
  | some offset =>
    if offset = -1 then some t
    else
      match t.doctorsFile with
      | none => some t
      | some file =>
        let line := if offset < 0 then "" else readLine file offset.toNat
        let record := parseRecord line
        let newSize : Int :=
          (newName.length : Int) + (record.record_id.length : Int) + (record.third.length : Int) + 4
        match stoi record.recordLen with
        | none => none
        | some recordLen =>
          if newSize ≤ recordLen then
            match SecondaryIndex.removePrimaryKeyFromSecondaryNode t.doctorSecondaryIndex
                record.second id with
            | none => none
            | some secondary1 =>
              match SecondaryIndex.addPrimaryKeyToSecondaryNode secondary1 newName id with
              | none => none
              | some secondary2 =>
                some ⟨t.doctorPrimaryIndex, secondary2, t.doctorAvailList,
                  some (if lineTerminated file offset.toNat then
                    writeAt file (offset.toNat + 8)
                      (newName.data ++ '|' :: record.third.data ++
                        '|' :: List.replicate (recordLen - newSize).toNat '-')
                    else file)⟩
          else
            match deleteDoctor t record.record_id with
            | none => none
            | some t1 =>
              match PrimaryIndex.getNewId t1.doctorPrimaryIndex with
              | none => none
              | some newId =>
                match addDoctor t1 ⟨newId, newName, record.third⟩ with
                | none => none
                | some r => some r.1

end DoctorManagementSystem

/-! ## AppointmentManagementSystem.h -/

/-- The class `Appointment`. -/
structure Appointment where
  id : String
  date : String
  doctorID : String
deriving DecidableEq, Repr

/-- The state of the class `AppointmentManagementSystem` together with the
record file `appointments.txt`; `none` is a file that cannot be opened. The
doctor primary index, which the class holds by reference, is an argument of
the operations. -/
structure AppointmentManagementSystem where
  appointmentPrimaryIndex : PrimaryIndex
  appointmentAvailList : AvailList
  appointmentSecondaryIndex : SecondaryIndex
  appointmentsFile : Option (List Char)
deriving DecidableEq, Repr

namespace AppointmentManagementSystem

/-- The empty appointment table. -/
def empty : AppointmentManagementSystem := ⟨[], [], SecondaryIndex.empty, some []⟩

/-- The end of `addAppointment`: the message with `stoi(appointment.id)`,
then the updates of the primary and of the secondary index. -/
def recordAdded (t : AppointmentManagementSystem) (appointment : Appointment) (file : List Char)
    (offset : Int) (avail : AvailList) : Option (AppointmentManagementSystem × Appointment) :=
  match stoi appointment.id with
  | none => none
  | some _ =>
    match SecondaryIndex.addPrimaryKeyToSecondaryNode t.appointmentSecondaryIndex
        appointment.doctorID appointment.id with
    | none => none
    | some secondary =>
      some (⟨PrimaryIndex.addPrimaryNode t.appointmentPrimaryIndex appointment.id offset, avail,
        secondary, some file⟩, appointment)

/-- `AppointmentManagementSystem::addAppointment`: the state after the call
and the appointment with the id it has then. -/
def addAppointment (doctorPrimaryIndex : PrimaryIndex) (t : AppointmentManagementSystem)
    (appointment : Appointment) : Option (AppointmentManagementSystem × Appointment) :=
  match PrimaryIndex.binarySearchPrimaryIndex doctorPrimaryIndex appointment.doctorID with
  | none => none
  | some found =>
    if found = -1 then some (t, appointment)
    else
      match PrimaryIndex.getNewId t.appointmentPrimaryIndex with
      | none => none
      | some newId =>
        match t.appointmentsFile with
        | none => some (t, ⟨newId, appointment.date, appointment.doctorID⟩)
        | some file =>
          let recordSize : Int :=
            (newId.length : Int) + (appointment.date.length : Int) +
              (appointment.doctorID.length : Int) + 4
          match AvailList.bestFit t.appointmentAvailList recordSize with
          | some pos =>
            match t.appointmentAvailList[pos]? with
            | none => none
            | some availableNode =>
              if availableNode.size -
                  ((payload newId appointment.date appointment.doctorID).length : Int) ≥ 0 then
                recordAdded t ⟨newId, appointment.date, appointment.doctorID⟩
                  (if availableNode.offset < 0 then file
                   else writeAt (writeAt file availableNode.offset.toNat [' '])
                     (availableNode.offset.toNat + 4)
                     (reusedBytes availableNode.size newId appointment.date appointment.doctorID))
                  availableNode.offset (AvailList.remove t.appointmentAvailList (some pos))
              else
                some (⟨t.appointmentPrimaryIndex, t.appointmentAvailList,
                  t.appointmentSecondaryIndex,
                  some (if availableNode.offset < 0 then file
                    else writeAt file availableNode.offset.toNat [' '])⟩,
                  ⟨newId, appointment.date, appointment.doctorID⟩)
          | none =>
            recordAdded t ⟨newId, appointment.date, appointment.doctorID⟩
              (file ++ freshRecord recordSize newId appointment.date appointment.doctorID)
              (file.length : Int) t.appointmentAvailList

/-- `AppointmentManagementSystem::deleteAppointment`. -/
def deleteAppointment (t : AppointmentManagementSystem) (id : String) :
    Option AppointmentManagementSystem :=
  match PrimaryIndex.binarySearchPrimaryIndex t.appointmentPrimaryIndex id with
  | none => none
  | some offset =>
    if offset = -1 then some t
    else
      match t.appointmentsFile with
      | none => some t
      | some file =>
        let file1 := if offset < 0 then file else writeAt file offset.toNat ['*']
        let line := if offset < 0 then "" else readLine file1 offset.toNat
        let record := parseRecord line
        match stoi record.recordLen with
        | none => none
        | some lengthIndicator =>
          match stoi id with
          | none => none
          | some _ =>
            match PrimaryIndex.removePrimaryNode t.appointmentPrimaryIndex id with
            | none => none
            | some primary =>
              match SecondaryIndex.removePrimaryKeyFromSecondaryNode t.appointmentSecondaryIndex
                  record.third id with
              | none => none
              | some secondary =>
                some ⟨primary, AvailList.insert t.appointmentAvailList ⟨offset, lengthIndicator⟩,
                  secondary, some file1⟩

/-- `AppointmentManagementSystem::updateAppointmentDate`. -/
def updateAppointmentDate (doctorPrimaryIndex : PrimaryIndex) (t : AppointmentManagementSystem)
    (appointmentID newDate : String) : Option AppointmentManagementSystem :=
  match PrimaryIndex.binarySearchPrimaryIndex t.appointmentPrimaryIndex appointmentID with
  | none => none
  | some offset =>
    if offset = -1 then some t
    else
      match t.appointmentsFile with
      | none => some t
      | some file =>
        let line := if offset < 0 then "" else readLine file offset.toNat
        let record := parseRecord line
        let newSize : Int :=
          (newDate.length : Int) + (record.record_id.length : Int) + (record.third.length : Int) + 4
        match stoi record.recordLen with
        | none => none
        | some recordLen =>
          if newSize ≤ recordLen then
            some ⟨t.appointmentPrimaryIndex, t.appointmentAvailList, t.appointmentSecondaryIndex,
              some (if lineTerminated file offset.toNat then
                writeAt file
                  (offset.toNat + record.status.length + 1 + record.recordLen.length + 1 +
                    record.record_id.length + 1)
                  (newDate.data ++ '|' :: List.replicate (recordLen - newSize).toNat '-')
                else file)⟩
          else
            match deleteAppointment t record.record_id with
            | none => none
            | some t1 =>
              match PrimaryIndex.getNewId t1.appointmentPrimaryIndex with
              | none => none
              | some newId =>
                match addAppointment doctorPrimaryIndex t1 ⟨newId, newDate, record.third⟩ with
                | none => none
                | some r => some r.1

end AppointmentManagementSystem

/-! ## The members that print

A member that prints returns the text it writes to `cout`; `none` stands
for an uncaught exception of `stoi`. Messages on `cerr` are not part of the
text. -/

/-- The loop `for (char ch : name) if (ch != '-') temp += ch;`: the string
without its characters `-`. -/
def removeDashes (s : String) : String :=
  String.mk (s.data.filter (fun ch => ch != '-'))

/-- The lines that the loop `while (getline(file, line))` reads from a file:
a line ends at a line terminator or at the end of the file, and nothing is
read behind the last line terminator. -/
def getLines : List Char → List (List Char)
  | [] => []
  | c :: cs =>
    if c = '\n' then [] :: getLines cs
    else
      match getLines cs with
      | [] => [[c]]
      | l :: ls => (c :: l) :: ls

/-- One call `getline(stream, field, '|')` on a string stream: `some cs` is a
stream in the good state with the characters `cs` left, `none` a stream that
has met its end. On a stream that has met its end the variable keeps the value
`prev` it had; a field without delimiter runs to the end of the stream. -/
def getlineField (st : Option (List Char)) (prev : String) : Option (List Char) × String :=
  match st with
  | none => (none, prev)
  | some cs =>
    if cs.contains '|' then
      (some ((cs.dropWhile (fun c => c != '|')).drop 1),
        String.mk (cs.takeWhile (fun c => c != '|')))
    else (none, String.mk cs)

namespace PrimaryIndex

end PrimaryIndex

namespace DoctorManagementSystem

/-- `DoctorManagementSystem::searchDoctorsByName`: the lookup in the
secondary index, which can change the map of the index. -/
def searchDoctorsByName (t : DoctorManagementSystem) (name : String) :
    Option (DoctorManagementSystem × List String) :=
  match SecondaryIndex.getPrimaryKeysBySecondaryKey t.doctorSecondaryIndex name with
  | none => none
  | some r => some (⟨t.doctorPrimaryIndex, r.1, t.doctorAvailList, t.doctorsFile⟩, r.2)

/-- The text that the end of `printDoctorById` writes for the fields of a
record, by `choice`. -/
def printDoctor (record_id name address : String) (choice : Int) : Option String :=
  if choice = 0 then
    match stoi record_id with
    | none => none
    | some v => some ("ID: " ++ to_string v ++ " | Name: " ++ name ++ " | Address: " ++ address
        ++ "\n")
  else if choice = 1 then
    match stoi record_id with
    | none => none
    | some v => some ("ID: " ++ to_string v ++ "\n")
  else if choice = 2 then some ("Name: " ++ name ++ "\n")
  else if choice = 3 then some ("Address: " ++ address ++ "\n")
  else
    match stoi record_id with
    | none => none
    | some v => some ("Doctor's info:\n" ++ "  ID: " ++ to_string v ++ "\n" ++ "  Name: " ++ name
        ++ "\n" ++ "  Address: " ++ address ++ "\n")

/-- `DoctorManagementSystem::printDoctorById`. -/
def printDoctorById (t : DoctorManagementSystem) (id : String) (choice : Int) : Option String :=
  match PrimaryIndex.binarySearchPrimaryIndex t.doctorPrimaryIndex id with
  | none => none
  | some offset =>
    if offset = -1 then some ("Doctor not found. The ID \"" ++ id ++ "\" is invalid.\n")
    else
      match t.doctorsFile with
      | none => some "Error opening file.\n"
      | some file =>
        let line := if offset < 0 then "" else readLine file offset.toNat
        if line.data.isEmpty then
          some ("Error: Empty record at offset " ++ to_string offset ++ ".\n")
        else
          let record := parseRecord line
          printDoctor record.record_id (removeDashes record.second) record.third choice

/-- A request to the doctor table. -/
inductive Op where
  | add (name address : String)
  | delete (id : String)
  | update (id newName : String)
deriving DecidableEq, Repr

/-- One request: `addDoctor`, `deleteDoctor` or `updateDoctorName`. -/
def step (t : DoctorManagementSystem) : Op → Option DoctorManagementSystem
  | Op.add name address =>
    match addDoctor t ⟨"", name, address⟩ with
    | none => none
    | some r => some r.1
  | Op.delete id => deleteDoctor t id
  | Op.update id newName => updateDoctorName t id newName

/-- A sequence of requests, from left to right. -/
def run : List Op → DoctorManagementSystem → Option DoctorManagementSystem
  | [], t => some t
  | op :: ops, t =>
    match step t op with
    | none => none
    | some t1 => run ops t1

end DoctorManagementSystem

namespace AppointmentManagementSystem

/-- The text that the end of `printAppointmentById` writes for the fields of
a record, by `choice`. -/
def printAppointment (appointmentID date doctorID : String) (choice : Int) : Option String :=
  if choice = 0 then
    match stoi appointmentID, stoi doctorID with
    | some v, some w =>
      some ("Appointment ID: " ++ to_string v ++ " | Date: " ++ date ++ " | Doctor ID: "
        ++ to_string w ++ "\n")
    | _, _ => none
  else if choice = 1 then
    match stoi appointmentID with
    | none => none
    | some v => some ("Appointment ID: " ++ to_string v ++ "\n")
  else if choice = 2 then some ("Date: " ++ date ++ "\n")
  else if choice = 3 then
    match stoi doctorID with
    | none => none
    | some w => some ("Doctor ID: " ++ to_string w ++ "\n")
  else
    match stoi doctorID with
    | none => none
    | some w =>
      some ("Appointment Details:\n" ++ "  ID: " ++ appointmentID ++ "\n" ++ "  Date: " ++ date
        ++ "\n" ++ "  Doctor ID: " ++ to_string w ++ "\n")

/-- `AppointmentManagementSystem::printAppointmentById`. -/
def printAppointmentById (t : AppointmentManagementSystem) (id : String) (choice : Int) :
    Option String :=
  match PrimaryIndex.binarySearchPrimaryIndex t.appointmentPrimaryIndex id with
  | none => none
  | some offset =>
    if offset = -1 then some ("Appointment not found. The ID \"" ++ id ++ "\" is invalid.\n")
    else
      match t.appointmentsFile with
      | none => some "Error opening file: appointments.txt\n"
      | some file =>
        let line := if offset < 0 then "" else readLine file offset.toNat
        if line.data.isEmpty then
          some ("Error: Empty record at offset " ++ to_string offset ++ ".\n")
        else
          let record := parseRecord line
          printAppointment record.record_id (removeDashes record.second) record.third choice

/-- A request to the appointment table; an addition and an update come with
the primary index that the doctor table has at that moment. -/
inductive Op where
  | add (doctorPrimaryIndex : PrimaryIndex) (date doctorID : String)
  | delete (id : String)
  | update (doctorPrimaryIndex : PrimaryIndex) (appointmentID newDate : String)
deriving DecidableEq, Repr

/-- One request: `addAppointment`, `deleteAppointment` or
`updateAppointmentDate`. -/
def step (t : AppointmentManagementSystem) : Op → Option AppointmentManagementSystem
  | Op.add doctorPrimaryIndex date doctorID =>
    match addAppointment doctorPrimaryIndex t ⟨"", date, doctorID⟩ with
    | none => none
    | some r => some r.1
  | Op.delete id => deleteAppointment t id
  | Op.update doctorPrimaryIndex appointmentID newDate =>
    updateAppointmentDate doctorPrimaryIndex t appointmentID newDate

/-- A sequence of requests, from left to right. -/
def run : List Op → AppointmentManagementSystem → Option AppointmentManagementSystem
  | [], t => some t
  | op :: ops, t =>
    match step t op with
    | none => none
    | some t1 => run ops t1

end AppointmentManagementSystem

/-! ## The layout of a record file

Notions for the statements on the record files: the lines of a file, the
shape of a line that holds a slot, and the entries that the lines stand
for. -/

/-- The bytes of the file whose lines are `ls`, each followed by the line
terminator. -/
def encodeLines (ls : List (List Char)) : List Char :=
  ls.flatMap (fun l => l ++ ['\n'])

/-- The bytes of a record line: the status byte, `|`, the length field, `|`,
the id, `|`, the two data fields, each followed by `|`, and the rest of the
line. -/
def recordLine (st : Char) (len id second third rest : List Char) : List Char :=
  st :: '|' :: (len ++ '|' :: (id ++ '|' :: (second ++ '|' :: (third ++ '|' :: rest))))

/-- The line `l` holds a slot: a status byte (blank for an active record, `*`
for a deleted one), `|`, a length field of at least two digits, `|`, and three
fields without delimiter, each followed by `|`; what follows them is padding
or what an earlier record left. The value of the length field plus the four
bytes before the id delimiter is at most the length of the line. -/
def IsSlot (l : List Char) : Prop :=
  ∃ (st : Char) (len id second third rest : List Char),
    l = recordLine st len id second third rest ∧
    (st = ' ' ∨ st = '*') ∧ 2 ≤ len.length ∧ (∀ c ∈ len, c.isDigit = true) ∧
    '|' ∉ id ∧ '|' ∉ second ∧ '|' ∉ third ∧ '\n' ∉ l ∧
    ∃ v, stoi (String.mk len) = some v ∧ v + 4 ≤ (l.length : Int)

/-- The index entries that the lines `ls`, the first of which starts at byte
`o`, stand for: for each line with a blank status byte its id field and the
offset of the line, in file order. -/
def activeEntries : Nat → List (List Char) → List PrimaryIndexNode
  | _, [] => []
  | o, l :: ls =>
    if l.head? = some ' ' then
      ⟨(parseRecord (String.mk l)).record_id, (o : Int)⟩ :: activeEntries (o + (l.length + 1)) ls
    else activeEntries (o + (l.length + 1)) ls

/-- The free slots that the lines `ls`, the first of which starts at byte `o`,
stand for: for each line with the status byte `*` the offset of the line and
the value of its length field, in file order. -/
def freeEntries : Nat → List (List Char) → List AvailListNode
  | _, [] => []
  | o, l :: ls =>
    if l.head? = some '*' then
      ⟨(o : Int), (stoi (parseRecord (String.mk l)).recordLen).getD 0⟩
        :: freeEntries (o + (l.length + 1)) ls
    else freeEntries (o + (l.length + 1)) ls

/-- The primary index, the free list and the record file of a table fit the
lines `ls`: the file is made of the lines, each line holds a slot, the primary
index holds exactly the entries of the active lines and the free list exactly
the deleted lines, each once. -/
structure TableInv (primary : PrimaryIndex) (avail : AvailList) (file : List Char)
    (ls : List (List Char)) : Prop where
  file_eq : file = encodeLines ls
  slots : ∀ l ∈ ls, IsSlot l
  primary_perm : primary.Perm (activeEntries 0 ls)
  avail_perm : avail.Perm (freeEntries 0 ls)

/-- A field that a request may carry: without delimiter and without line
terminator. -/
def CleanField (s : String) : Prop := '|' ∉ s.data ∧ '\n' ∉ s.data

instance CleanField.decidable (s : String) : Decidable (CleanField s) :=
  inferInstanceAs (Decidable ('|' ∉ s.data ∧ '\n' ∉ s.data))

namespace DoctorManagementSystem

/-- The requests of the statements on additions and deletions: an addition
with clean fields whose sizes fit an `int`, or a deletion. -/
def Op.AddOrDelete : Op → Prop
  | Op.add name address =>
    CleanField name ∧ CleanField address ∧ name.length + address.length ≤ 2147483000
  | Op.delete _ => True
  | Op.update _ _ => False

instance Op.AddOrDelete.decidable (op : Op) : Decidable (Op.AddOrDelete op) := by
  cases op <;> unfold Op.AddOrDelete <;> infer_instance

end DoctorManagementSystem

namespace AppointmentManagementSystem

/-- The requests of the statements on additions and deletions: an addition
with clean fields whose sizes fit an `int`, or a deletion. -/
def Op.AddOrDelete : Op → Prop
  | Op.add _ date doctorID =>
    CleanField date ∧ CleanField doctorID ∧ date.length + doctorID.length ≤ 2147483000
  | Op.delete _ => True
  | Op.update _ _ _ => False

instance Op.AddOrDelete.decidable (op : Op) : Decidable (Op.AddOrDelete op) := by
  cases op <;> unfold Op.AddOrDelete <;> infer_instance

end AppointmentManagementSystem

/-! ## Notions for the statements on offsets -/

/-- The offsets of the entries of the primary index followed by the offsets
of the nodes of the free list. -/
def tableOffsets (primary : PrimaryIndex) (avail : AvailList) : List Int :=
  primary.map (fun e => e.offset) ++ avail.map (fun n => n.offset)

/-- The slots of a table are told apart by their offsets: no offset occurs
twice among the entries of the primary index and the nodes of the free list,
the record file is open, and every offset is a position inside the file. -/
def DistinctSlots (primary : PrimaryIndex) (avail : AvailList) (file : Option (List Char)) :
    Prop :=
  (tableOffsets primary avail).Nodup ∧
    ∃ f, file = some f ∧ ∀ o ∈ tableOffsets primary avail, 0 ≤ o ∧ o < (f.length : Int)

/-! ## The files of the free list and of the secondary index

The members `updateAvailListFile` and `updateSecondaryIndexAndLabelIdList`
return the text they write, and the members that load take the text of the
files they read. The loader of the free list reads a file that its own loop
writes, so it is given block by block, as the stream buffer is filled. -/

/-- One call `getline(stream, field, delim)` on a string stream, as
`getlineField` for the delimiter `delim`. -/
def getlineUntil (delim : Char) (st : Option (List Char)) (prev : String) :
    Option (List Char) × String :=
  match st with
  | none => (none, prev)
  | some cs =>
    if cs.contains delim then
      (some ((cs.dropWhile (fun c => c != delim)).drop 1),
        String.mk (cs.takeWhile (fun c => c != delim)))
    else (none, String.mk cs)

/-- The characters that `<< setw(2) << setfill('0') << s` writes: `s` with
`0` in front up to the width 2. -/
def setw2 (s : String) : String :=
  String.mk (List.replicate (2 - s.length) '0' ++ s.data)

namespace AvailList

/-- The text that `AvailList::updateAvailListFile` writes: a line
`offset|size` for each node, from the header on. -/
def updateAvailListFile (l : AvailList) : List Char :=
  l.flatMap (fun curr =>
    (to_string curr.offset).data ++ '|' :: (to_string curr.size).data ++ ['\n'])

/-- The node that the loop of `loadAvailListInMemory` builds from a line:
two calls `getline(stream, ., '|')`, then `stoi` of both fields; `none` when
a `stoi` throws. -/
def parseNode (line : List Char) : Option AvailListNode :=
  let r1 := getlineField (some line) ""
  let r2 := getlineField r1.1 ""
  match stoi r1.2, stoi r2.2 with
  | some offset, some size => some ⟨offset, size⟩
  | _, _ => none

/-- How the loop of `loadAvailListInMemory` ends: it is left with the list
`l` in memory, or a `stoi` throws while the list in memory is `l`. -/
inductive LoadEnd where
  | finished (l : AvailList)
  | thrown (l : AvailList)
deriving DecidableEq, Repr

/-- The body of the loop of `loadAvailListInMemory` for the lines `lines`, one
after the other: the node of each line is inserted into the list. -/
def loadLines : List (List Char) → AvailList → LoadEnd
  | [], l => LoadEnd.finished l
  | line :: rest, l =>
    match parseNode line with
    | none => LoadEnd.thrown l
    | some newNode => loadLines rest (insert l newNode)

/-- The lines of the characters `cs` that end at a line terminator, and the
characters behind the last line terminator. -/
def splitLines : List Char → List (List Char) × List Char
  | [] => ([], [])
  | c :: cs =>
    match splitLines cs with
    | (lines, rest) =>
      if c = '\n' then ([] :: lines, rest)
      else
        match lines with
        | [] => ([], c :: rest)
        | l :: ls => ((c :: l) :: ls, rest)

/-- The loop `while (getline(availListFile, line))` of
`loadAvailListInMemory`, block by block. The stream fills its buffer with at
most `bufferSize` bytes at a time, read at the position `pos` that the stream
has reached in the file as the file is at that moment. `file` is the text of
the file at that moment: every `insert` of the loop calls
`updateAvailListFile`, which writes the list in memory to the very file that
the loop reads. `pending` holds the characters of a line whose line
terminator has not been read yet. A block without bytes is the end of the
file: a pending line is still handled, then the loop ends. `fuel` bounds the
number of blocks. -/
def loadBlocks (bufferSize : Nat) :
    Nat → List Char → Nat → List Char → AvailList → Option LoadEnd
  | 0, _, _, _, _ => none
  | fuel + 1, file, pos, pending, l =>
    if ((file.drop pos).take bufferSize).isEmpty then
      if pending.isEmpty then some (LoadEnd.finished l)
      else some (loadLines [pending] l)
    else
      match loadLines (splitLines (pending ++ (file.drop pos).take bufferSize)).1 l with
      | LoadEnd.thrown l1 => some (LoadEnd.thrown l1)
      | LoadEnd.finished l1 =>
        loadBlocks bufferSize fuel
          (if (splitLines (pending ++ (file.drop pos).take bufferSize)).1.isEmpty then file
           else updateAvailListFile l1)
          (pos + ((file.drop pos).take bufferSize).length)
          (splitLines (pending ++ (file.drop pos).take bufferSize)).2 l1

/-- `AvailList::loadAvailListInMemory` for a file with the text `text` and a
stream buffer of `bufferSize` bytes (8191 with libstdc++): nothing is done
for an empty file; else the loop runs from the start of the file. `none`
stands for the exception of `stoi`, which nothing catches. -/
def loadAvailListInMemory (bufferSize : Nat) (text : List Char) (l : AvailList) :
    Option AvailList :=
  if text.isEmpty then some l
  else
    match loadBlocks bufferSize (text.length + 2) text 0 [] l with
    | some (LoadEnd.finished l1) => some l1
    | _ => none

end AvailList

namespace SecondaryIndex

/-- The text that `updateSecondaryIndexAndLabelIdList` writes to the file of
the secondary index: a line `key|head` for each entry of the map, in key
order, the head with the width 2. -/
def secondaryIndexText (m : List (String × Int)) : List Char :=
  m.flatMap (fun entry => entry.1.data ++ '|' :: (setw2 (to_string entry.2)).data ++ ['\n'])

/-- The text that `updateSecondaryIndexAndLabelIdList` writes to the file of
the label list from the record number `recNo` on: a line
`recNo|primaryKey,nextIndex` for each node, each of the three with the width
2. -/
def labelIdListText : Nat → List PrimaryKeyNode → List Char
  | _, [] => []
  | recNo, node :: rest =>
    (setw2 (to_string (recNo : Int))).data ++ '|' :: (setw2 node.primaryKey).data ++
      ',' :: (setw2 node.nextIndex).data ++ '\n' :: labelIdListText (recNo + 1) rest

/-- `SecondaryIndex::updateSecondaryIndexAndLabelIdList`: the texts of the
file of the secondary index and of the file of the label list. -/
def updateSecondaryIndexAndLabelIdList (s : SecondaryIndex) : List Char × List Char :=
  (secondaryIndexText s.secondaryIndexMap, labelIdListText 0 s.primaryKeyList)

/-- The first loop of `loadSecondaryIndexAndLabelIdList` over the lines of
the file of the secondary index: `secondaryIndexMap[secondaryKey] =
stoi(headIndex)` for each line; `none` when `stoi` throws. -/
def loadMapLoop : List (List Char) → List (String × Int) → Option (List (String × Int))
  | [], m => some m
  | line :: rest, m =>
    let r1 := getlineField (some line) ""
    let r2 := getlineField r1.1 ""
    match stoi r2.2 with
    | none => none
    | some head => loadMapLoop rest (mapAssign m r1.2 head)

/-- The variables `recNoStr`, `id` and `nextPtrStr`, which are declared
before the second loop of `loadSecondaryIndexAndLabelIdList`, and the node
list built so far. -/
structure LabelLoadState where
  recNoStr : String
  id : String
  nextPtrStr : String
  primaryKeyList : List PrimaryKeyNode
deriving DecidableEq, Repr

/-- The body of the second loop for one line of the file of the label list:
the record number up to `|`, the primary key up to `,`, the next pointer up
to the end of the line; a node is appended. -/
def loadLabelLine (st : LabelLoadState) (line : List Char) : LabelLoadState :=
  let r1 := getlineField (some line) st.recNoStr
  let r2 := getlineUntil ',' r1.1 st.id
  let r3 := getlineUntil '\n' r2.1 st.nextPtrStr
  ⟨r1.2, r2.2, r3.2, st.primaryKeyList ++ [⟨r2.2, r3.2⟩]⟩

/-- `SecondaryIndex::loadSecondaryIndexAndLabelIdList` on the texts of the
two files: the entries of the first file are assigned to the map, the node
list is cleared and filled from the second file. -/
def loadSecondaryIndexAndLabelIdList (secondaryIndexFile labelIdListFile : List Char)
    (s : SecondaryIndex) : Option SecondaryIndex :=
  match loadMapLoop (getLines secondaryIndexFile) s.secondaryIndexMap with
  | none => none
  | some m =>
    some ⟨m, ((getLines labelIdListFile).foldl loadLabelLine ⟨"", "", "", []⟩).primaryKeyList⟩

end SecondaryIndex

namespace SecondaryIndex

/-- A next pointer as the class stores it: `##` for a free node, `-1` for the
end of a list, or the decimal digits of an index. -/
def IsPointer (x : String) : Prop :=
  x = "##" ∨ x = "-1" ∨ (x.data ≠ [] ∧ ∀ c ∈ x.data, c.isDigit = true)

instance IsPointer.decidable (x : String) : Decidable (IsPointer x) :=
  inferInstanceAs (Decidable (x = "##" ∨ x = "-1" ∨ (x.data ≠ [] ∧ ∀ c ∈ x.data, c.isDigit = true)))

end SecondaryIndex

/-! # Theorems -/
/-! ## Lemmas on the string model -/

theorem digitChar_props (k : Nat) (h : k < 10) :
    (Nat.digitChar k).isDigit = true ∧ digitVal (Nat.digitChar k) = k ∧
      isspace (Nat.digitChar k) = false ∧ Nat.digitChar k ≠ '-' ∧ Nat.digitChar k ≠ '+' := by
  interval_cases k <;> decide

theorem toDigitsCore_spec (fuel : Nat) : ∀ (n : Nat) (ds : List Char), n < fuel →
    (∃ c rest, Nat.toDigitsCore 10 fuel n ds = c :: rest ∧ c.isDigit = true ∧
        isspace c = false ∧ c ≠ '-' ∧ c ≠ '+' ∧
        ((∀ d ∈ ds, d.isDigit = true) → ∀ d ∈ rest, d.isDigit = true)) ∧
    List.foldl (fun a c => 10 * a + digitVal c) 0 (Nat.toDigitsCore 10 fuel n ds)
        = List.foldl (fun a c => 10 * a + digitVal c) n ds := by
  induction fuel with
  | zero => intro n ds h; omega
  | succ fuel ih =>
    intro n ds h
    have hd := digitChar_props (n % 10) (Nat.mod_lt _ (by decide))
    unfold Nat.toDigitsCore
    by_cases h0 : n / 10 = 0
    · simp only [h0, if_true]
      refine ⟨⟨_, _, rfl, hd.1, hd.2.2.1, hd.2.2.2.1, hd.2.2.2.2, fun hds => hds⟩, ?_⟩
      simp only [List.foldl_cons, hd.2.1]
      congr 1
      omega
    · simp only [h0, if_false]
      have hlt : n / 10 < fuel := by omega
      obtain ⟨⟨c, rest, e, h1, h2, h3, h4, h5⟩, h6⟩ := ih (n / 10) (Nat.digitChar (n % 10) :: ds) hlt
      refine ⟨⟨c, rest, e, h1, h2, h3, h4, ?_⟩, ?_⟩
      · intro hds
        apply h5
        intro d hdm
        rcases List.mem_cons.1 hdm with rfl | hdm
        · exact hd.1
        · exact hds d hdm
      · rw [h6]
        simp only [List.foldl_cons, hd.2.1]
        congr 1
        omega

theorem takeWhile_all {α : Type} (p : α → Bool) (l : List α) (h : ∀ x ∈ l, p x = true) :
    l.takeWhile p = l := by
  induction l with
  | nil => rfl
  | cons a t ih =>
    simp only [List.takeWhile_cons, h a (List.mem_cons_self _ _), if_true]
    rw [ih (fun x hx => h x (List.mem_cons_of_mem _ hx))]

theorem stoi_to_string (n : Nat) (h : n ≤ 2147483647) : stoi (to_string (n : Int)) = some (n : Int) := by
  obtain ⟨⟨c, rest, e, h1, h2, h3, h4, h5⟩, h6⟩ := toDigitsCore_spec (n + 1) n [] (Nat.lt_succ_self n)
  have hall : ∀ d ∈ c :: rest, d.isDigit = true := by
    intro d hd
    rcases List.mem_cons.1 hd with rfl | hd
    · exact h1
    · exact h5 (by simp) d hd
  have e2 : to_string (n : Int) = String.mk (c :: rest) := by
    show String.mk (Nat.toDigits 10 n) = _
    rw [Nat.toDigits, e]
  have hfold : stoiDigits (c :: rest) = n := by
    unfold stoiDigits
    rw [takeWhile_all _ _ hall, ← e, h6]
    rfl
  rw [e2]
  unfold stoi
  simp only [List.dropWhile_cons, h2, h3, h4, if_false, Bool.false_eq_true]
  unfold stoiBody
  rw [takeWhile_all _ _ hall, hfold]
  simp only [List.isEmpty_cons, Bool.false_eq_true, if_false]
  unfold inIntRange
  rw [if_pos]
  constructor <;> omega

theorem stoi_minus_one : stoi "-1" = some (-1) := by decide

theorem stoi_free : stoi "##" = none := by decide

theorem to_string_ne_minus_one (n : Nat) (h : n ≤ 2147483647) : to_string (n : Int) ≠ "-1" := by
  intro e
  have := stoi_to_string n h
  rw [e, stoi_minus_one] at this
  injection this with this
  omega

/-! ## The free list -/

namespace AvailList

theorem bestFitFrom_some (l : List AvailListNode) (pos : Nat) (n : Int) (i : Nat)
    (h : bestFitFrom l pos n = some i) :
    pos ≤ i ∧ ∃ hi : i - pos < l.length, n ≤ (l.get ⟨i - pos, hi⟩).size ∧
      ∀ j, j < i - pos → ∀ hj : j < l.length, (l.get ⟨j, hj⟩).size < n := by
  induction l generalizing pos with
  | nil => simp [bestFitFrom] at h
  | cons c rest ih =>
    unfold bestFitFrom at h
    split_ifs at h with hc
    · obtain ⟨h1, h2, h3, h4⟩ := ih (pos + 1) h
      have e : i - pos = (i - (pos + 1)) + 1 := by omega
      refine ⟨by omega, ?_⟩
      rw [e]
      refine ⟨by simpa using h2, by simpa using h3, ?_⟩
      intro j hj hjl
      cases j with
      | zero => simpa using hc
      | succ j => simpa using h4 j (by omega) (by simpa using hjl)
    · injection h with h
      subst h
      simp
      omega

theorem bestFitFrom_none (l : List AvailListNode) (pos : Nat) (n : Int) :
    bestFitFrom l pos n = none ↔ ∀ d ∈ l, d.size < n := by
  induction l generalizing pos with
  | nil => simp [bestFitFrom]
  | cons c rest ih =>
    unfold bestFitFrom
    split_ifs with hc
    · simp [ih, hc]
    · simp [hc]

end AvailList

/-- C1: on a free list that is ascending by size, `bestFit(n)` returns a node
of the list whose size is at least `n` and at most the size of every node of
the list with size at least `n`; it returns `nullptr` exactly when no node of
the list has size at least `n`. -/
theorem AvailList.bestFit_smallest_sufficient (l : AvailList) (n : Int)
    (hs : AvailList.SortedBySize l) :
    (∀ i, AvailList.bestFit l n = some i → ∃ hi : i < l.length,
      n ≤ (l.get ⟨i, hi⟩).size ∧ ∀ d ∈ l, n ≤ d.size → (l.get ⟨i, hi⟩).size ≤ d.size) ∧
    (AvailList.bestFit l n = none ↔ ∀ d ∈ l, d.size < n) := by
  refine ⟨?_, AvailList.bestFitFrom_none l 0 n⟩
  intro i hi
  obtain ⟨_, h2, h3, h4⟩ := AvailList.bestFitFrom_some l 0 n i hi
  simp only [Nat.sub_zero] at h2 h3 h4
  refine ⟨h2, h3, ?_⟩
  intro d hd hnd
  obtain ⟨⟨j, hj⟩, rfl⟩ := List.mem_iff_get.1 hd
  rcases Nat.lt_trichotomy j i with hlt | heq | hgt
  · exact absurd (h4 j hlt hj) (not_lt.2 hnd)
  · subst heq
    exact le_refl _
  · exact List.pairwise_iff_get.1 hs ⟨i, h2⟩ ⟨j, hj⟩ hgt

theorem AvailList.bestFit_smallest_sufficient_witness :
    AvailList.SortedBySize [⟨40, 5⟩, ⟨0, 8⟩, ⟨90, 8⟩, ⟨20, 12⟩] ∧
      (∀ i, AvailList.bestFit [⟨40, 5⟩, ⟨0, 8⟩, ⟨90, 8⟩, ⟨20, 12⟩] 6 = some i →
        ∃ hi : i < ([⟨40, 5⟩, ⟨0, 8⟩, ⟨90, 8⟩, ⟨20, 12⟩] : AvailList).length,
          6 ≤ (([⟨40, 5⟩, ⟨0, 8⟩, ⟨90, 8⟩, ⟨20, 12⟩] : AvailList).get ⟨i, hi⟩).size ∧
          ∀ d ∈ ([⟨40, 5⟩, ⟨0, 8⟩, ⟨90, 8⟩, ⟨20, 12⟩] : AvailList), 6 ≤ d.size →
            (([⟨40, 5⟩, ⟨0, 8⟩, ⟨90, 8⟩, ⟨20, 12⟩] : AvailList).get ⟨i, hi⟩).size ≤ d.size) ∧
      (AvailList.bestFit [⟨40, 5⟩, ⟨0, 8⟩, ⟨90, 8⟩, ⟨20, 12⟩] 6 = none ↔
        ∀ d ∈ ([⟨40, 5⟩, ⟨0, 8⟩, ⟨90, 8⟩, ⟨20, 12⟩] : AvailList), d.size < 6) :=
  ⟨by decide, AvailList.bestFit_smallest_sufficient _ 6 (by decide)⟩

/-! ## Lemmas on the primary index -/

theorem idString_two_digits (a : Nat) (h : a ≤ 99) :
    idString (a : Int) = String.mk [Nat.digitChar (a / 10), Nat.digitChar (a % 10)] := by
  interval_cases a <;> decide

theorem digitChar_lt : ∀ x < 10, ∀ y < 10, x < y → Nat.digitChar x < Nat.digitChar y := by
  decide

theorem strLt_pair (c1 c2 d1 d2 : Char) (h : c1 < d1 ∨ (c1 = d1 ∧ c2 < d2)) :
    strLt (String.mk [c1, c2]) (String.mk [d1, d2]) := by
  unfold strLt
  rcases h with h | ⟨h1, h2⟩
  · exact List.Lex.rel h
  · subst h1
    exact List.Lex.cons (List.Lex.rel h2)

/-- On ids of at most two digits the string order is the numeric order. -/
theorem idString_mono (a b : Nat) (ha : a ≤ 99) (hb : b ≤ 99) (h : a < b) :
    strLt (idString (a : Int)) (idString (b : Int)) := by
  rw [idString_two_digits a ha, idString_two_digits b hb]
  apply strLt_pair
  by_cases h1 : a / 10 < b / 10
  · exact Or.inl (digitChar_lt _ (by omega) _ (by omega) h1)
  · refine Or.inr ⟨?_, digitChar_lt _ (by omega) _ (by omega) (by omega)⟩
    have : a / 10 = b / 10 := by omega
    rw [this]

theorem stoi_idString (n : Nat) (h : n ≤ 2147483647) : stoi (idString (n : Int)) = some (n : Int) := by
  by_cases h10 : n < 10
  · interval_cases n <;> decide
  · unfold idString
    rw [if_neg (by omega)]
    exact stoi_to_string n h

namespace PrimaryIndex

theorem not_strLt_iff (a b : String) : ¬ strLt b a ↔ a.data ≤ b.data := by
  unfold strLt
  exact not_lt

instance sortTotal : IsTotal PrimaryIndexNode (fun a b => ¬ nodeLt b a) :=
  ⟨fun a b => by
    simp only [nodeLt, not_strLt_iff]
    exact le_total _ _⟩

instance sortTrans : IsTrans PrimaryIndexNode (fun a b => ¬ nodeLt b a) :=
  ⟨fun a b c => by
    simp only [nodeLt, not_strLt_iff]
    exact le_trans⟩

theorem sortPrimaryIndex_sorted (idx : PrimaryIndex) : SortedByKey (sortPrimaryIndex idx) :=
  List.sorted_insertionSort _ idx

theorem sortPrimaryIndex_perm (idx : PrimaryIndex) : (sortPrimaryIndex idx).Perm idx :=
  List.perm_insertionSort _ idx

theorem removeSearch_shape (idx : PrimaryIndex) (k : String) : ∀ (fuel : Nat) (left right : Int)
    (res : PrimaryIndex), removeSearch idx k fuel left right = some res →
    res = idx ∨ ∃ i, res = sortPrimaryIndex (idx.eraseIdx i) := by
  intro fuel
  induction fuel with
  | zero => intro left right res h; simp [removeSearch] at h
  | succ fuel ih =>
    intro left right res h
    unfold removeSearch at h
    dsimp only at h
    by_cases h1 : left ≤ right
    · rw [if_pos h1] at h
      by_cases h2 : left + (right - left) / 2 < 0
      · rw [if_pos h2] at h
        exact absurd h (by simp)
      · rw [if_neg h2] at h
        cases hnd : idx[(left + (right - left) / 2).toNat]? with
        | none => simp [hnd] at h
        | some nd =>
          simp only [hnd] at h
          by_cases h3 : nd.primaryKey = k
          · rw [if_pos h3] at h
            injection h with h
            exact Or.inr ⟨_, h.symm⟩
          · rw [if_neg h3] at h
            by_cases h4 : strLt nd.primaryKey k
            · rw [if_pos h4] at h
              exact ih _ _ _ h
            · rw [if_neg h4] at h
              exact ih _ _ _ h
    · rw [if_neg h1] at h
      injection h with h
      exact Or.inl h.symm

theorem getNewId_of_back (idx : PrimaryIndex) (back : PrimaryIndexNode) (n : Nat)
    (hb : idx.getLast? = some back) (hn : back.primaryKey = idString (n : Int))
    (h31 : n ≤ 2147483647) (k : String) (hk : getNewId idx = some k) :
    n + 1 ≤ 2147483647 ∧ k = idString ((n + 1 : Nat) : Int) := by
  unfold getNewId at hk
  simp only [hb, hn, stoi_idString n h31] at hk
  by_cases h1 : (n : Int) + 1 ≤ 2147483647
  · rw [if_pos h1] at hk
    injection hk with hk
    refine ⟨by omega, ?_⟩
    rw [← hk]
    unfold idString
    push_cast
    rfl
  · rw [if_neg h1] at hk
    exact absurd hk (by simp)

theorem keysWellBuilt_step (st st1 : PrimaryIndex × List String) (op : Op)
    (hinv : KeysWellBuilt st.1) (h : step st op = some st1) : KeysWellBuilt st1.1 := by
  cases op with
  | add offset =>
    unfold step at h
    simp only at h
    cases hk : getNewId st.1 with
    | none => simp [hk] at h
    | some k =>
      simp only [hk] at h
      injection h with h
      subst h
      refine ⟨sortPrimaryIndex_sorted _, ?_⟩
      intro e he
      have he2 : e ∈ st.1 ++ [⟨k, offset⟩] := (sortPrimaryIndex_perm _).subset he
      rcases List.mem_append.1 he2 with he3 | he3
      · exact hinv.2 e he3
      · rw [List.mem_singleton] at he3
        subst he3
        cases hb : st.1.getLast? with
        | none =>
          unfold getNewId at hk
          simp only [hb] at hk
          injection hk with hk
          refine ⟨1, le_refl _, by decide, ?_⟩
          rw [← hk]
          show "01" = idString ((1 : Nat) : Int)
          decide
        | some back =>
          obtain ⟨n, hn1, hn2, hn3⟩ := hinv.2 back (List.mem_of_getLast?_eq_some hb)
          obtain ⟨h1, h2⟩ := getNewId_of_back st.1 back n hb hn3 hn2 k hk
          exact ⟨n + 1, by omega, h1, h2⟩
  | remove key =>
    unfold step at h
    simp only at h
    cases hr : removePrimaryNode st.1 key with
    | none => simp [hr] at h
    | some idx =>
      simp only [hr] at h
      injection h with h
      subst h
      rcases removeSearch_shape _ _ _ _ _ _ hr with e | ⟨i, e⟩
      · simp only [e]
        exact hinv
      · simp only [e]
        refine ⟨sortPrimaryIndex_sorted _, ?_⟩
        intro x hx
        exact hinv.2 x ((List.eraseIdx_sublist _ _).subset ((sortPrimaryIndex_perm _).subset hx))

theorem keysWellBuilt_run : ∀ (ops : List Op) (st st1 : PrimaryIndex × List String),
    KeysWellBuilt st.1 → run ops st = some st1 → KeysWellBuilt st1.1 := by
  intro ops
  induction ops with
  | nil =>
    intro st st1 hinv h
    simp only [run] at h
    injection h with h
    subst h
    exact hinv
  | cons op ops ih =>
    intro st st1 hinv h
    simp only [run] at h
    cases hs : step st op with
    | none => simp [hs] at h
    | some st2 =>
      simp only [hs] at h
      exact ih st2 st1 (keysWellBuilt_step st st2 op hinv hs) h

theorem sorted_le_last (idx : PrimaryIndex) (hs : SortedByKey idx) (back : PrimaryIndexNode)
    (hb : idx.getLast? = some back) : ∀ e ∈ idx, ¬ strLt back.primaryKey e.primaryKey := by
  intro e he
  have hsplit : idx.dropLast ++ [back] = idx := List.dropLast_append_getLast? back hb
  rw [← hsplit] at he hs
  rcases List.mem_append.1 he with h1 | h1
  · exact (List.pairwise_append.1 hs).2.2 e h1 back (by simp)
  · rw [List.mem_singleton] at h1
    subst h1
    unfold strLt
    exact lt_irrefl _

end PrimaryIndex

namespace PrimaryIndex

theorem removeSearch_total (idx : PrimaryIndex) (k : String) : ∀ (fuel : Nat) (left right : Int),
    0 ≤ left → right < (idx.length : Int) → (right - left + 1).toNat < fuel →
    ∃ res, removeSearch idx k fuel left right = some res := by
  intro fuel
  induction fuel with
  | zero => intro left right _ _ hf; omega
  | succ fuel ih =>
    intro left right hl hr hf
    unfold removeSearch
    dsimp only
    by_cases h1 : left ≤ right
    · rw [if_pos h1]
      have hmid1 : left ≤ left + (right - left) / 2 := by omega
      have hmid2 : left + (right - left) / 2 ≤ right := by omega
      rw [if_neg (by omega)]
      have hlt : (left + (right - left) / 2).toNat < idx.length := by omega
      rw [List.getElem?_eq_getElem hlt]
      dsimp only
      by_cases h3 : idx[(left + (right - left) / 2).toNat].primaryKey = k
      · rw [if_pos h3]
        exact ⟨_, rfl⟩
      · rw [if_neg h3]
        by_cases h4 : strLt idx[(left + (right - left) / 2).toNat].primaryKey k
        · rw [if_pos h4]
          exact ih _ _ (by omega) hr (by omega)
        · rw [if_neg h4]
          exact ih _ _ hl (by omega) (by omega)
    · rw [if_neg h1]
      exact ⟨_, rfl⟩

/-- The binary search of `removePrimaryNode` ends on every index: the call
always returns. -/
theorem removePrimaryNode_total (idx : PrimaryIndex) (k : String) :
    ∃ res, removePrimaryNode idx k = some res :=
  removeSearch_total idx k _ _ _ (le_refl _) (by omega) (by omega)

end PrimaryIndex

namespace PrimaryIndex

theorem getNewId_eq (idx : PrimaryIndex) (back : PrimaryIndexNode) (n : Nat)
    (hb : idx.getLast? = some back) (hn : back.primaryKey = idString (n : Int))
    (h31 : n + 1 ≤ 2147483647) : getNewId idx = some (idString ((n + 1 : Nat) : Int)) := by
  unfold getNewId
  simp only [hb, hn, stoi_idString n (by omega)]
  rw [if_pos (by omega)]
  unfold idString
  push_cast
  rfl

end PrimaryIndex

/-! ## The claims on the primary index -/

/-- C2, evaluated on the code: after 100 calls `addPrimaryNode(getNewId(), offset)`
on the empty index the keys are `01` to `100`; `sort` puts `100` before `11`,
the last entry is `99`, and `getNewId` returns `100`, a key of the index. -/
theorem PrimaryIndex.getNewId_returns_present_key :
    (PrimaryIndex.run ((List.range 100).map (fun i => PrimaryIndex.Op.add (20 * i))) ([], [])).bind
        (fun st => (PrimaryIndex.getNewId st.1).map
          (fun k => (k, decide (k ∈ PrimaryIndex.keys st.1))))
      = some ("100", true) := by
  decide

/-- C3, evaluated on the code: on the index with the keys `99` and `100`, which
`addPrimaryNode` keeps as `100, 99`, `getNewId` returns `100`; the largest
numeric key plus one is `101`. -/
theorem PrimaryIndex.getNewId_not_max_plus_one :
    PrimaryIndex.addPrimaryNode (PrimaryIndex.addPrimaryNode [] "99" 0) "100" 20
        = [⟨"100", 20⟩, ⟨"99", 0⟩] ∧
      PrimaryIndex.getNewId [⟨"100", 20⟩, ⟨"99", 0⟩] = some "100" ∧
      PrimaryIndex.newIdSpec [⟨"100", 20⟩, ⟨"99", 0⟩] = some "101" := by
  decide

/-- C4 as stated fails: add, add, delete of `02`, add assigns the keys `01`,
`02` and again `02`; the third key is not above the second, and the key that
the delete released is assigned again. -/
theorem PrimaryIndex.released_key_assigned_again :
    PrimaryIndex.run [PrimaryIndex.Op.add 0, PrimaryIndex.Op.add 20,
        PrimaryIndex.Op.remove "02", PrimaryIndex.Op.add 40] ([], [])
      = some ([⟨"01", 0⟩, ⟨"02", 40⟩], ["01", "02", "02"]) := by
  decide

/-- C4 as amended: in every state reached from the empty index by additions
(each with the key of `getNewId`) and deletions in which every key of the
index has a numeric value of at most 99, `getNewId` returns a key whose numeric
value is above the numeric value of every key that is in the index. -/
theorem PrimaryIndex.new_key_above_present_keys (ops : List PrimaryIndex.Op)
    (idx : PrimaryIndex) (log : List String)
    (hrun : PrimaryIndex.run ops ([], []) = some (idx, log))
    (hw : ∀ k ∈ PrimaryIndex.keys idx, ∃ v, stoi k = some v ∧ v ≤ 99) :
    ∃ k v, PrimaryIndex.getNewId idx = some k ∧ stoi k = some v ∧
      ∀ k1 ∈ PrimaryIndex.keys idx, ∃ v1, stoi k1 = some v1 ∧ v1 < v := by
  have hinv : PrimaryIndex.KeysWellBuilt idx :=
    PrimaryIndex.keysWellBuilt_run ops ([], []) (idx, log)
      ⟨List.Pairwise.nil, fun e he => by simp at he⟩ hrun
  have hnum : ∀ e ∈ idx, ∃ m : Nat, m ≤ 99 ∧ e.primaryKey = idString (m : Int) := by
    intro e he
    obtain ⟨m, _, hm2, hm3⟩ := hinv.2 e he
    obtain ⟨v, hv, hv99⟩ := hw e.primaryKey (List.mem_map.2 ⟨e, he, rfl⟩)
    rw [hm3, stoi_idString m hm2] at hv
    injection hv with hv
    exact ⟨m, by omega, hm3⟩
  cases hb : idx.getLast? with
  | none =>
    have hnil : idx = [] := List.getLast?_eq_none_iff.1 hb
    subst hnil
    exact ⟨"01", 1, by decide, by decide, fun k1 hk1 => by simp [PrimaryIndex.keys] at hk1⟩
  | some back =>
    obtain ⟨n, hn99, hn⟩ := hnum back (List.mem_of_getLast?_eq_some hb)
    refine ⟨_, ((n + 1 : Nat) : Int), PrimaryIndex.getNewId_eq idx back n hb hn (by omega),
      stoi_idString (n + 1) (by omega), ?_⟩
    intro k1 hk1
    obtain ⟨e, he, hek⟩ := List.mem_map.1 hk1
    obtain ⟨m, hm99, hm⟩ := hnum e he
    have hle := PrimaryIndex.sorted_le_last idx hinv.1 back hb e he
    rw [hn, hm] at hle
    have hmn : m ≤ n := by
      by_contra hlt
      exact hle (idString_mono n m hn99 hm99 (by omega))
    refine ⟨(m : Int), ?_, by push_cast; omega⟩
    rw [← hek, hm]
    exact stoi_idString m (by omega)

theorem PrimaryIndex.new_key_above_present_keys_witness :
    PrimaryIndex.run [PrimaryIndex.Op.add 0, PrimaryIndex.Op.add 20,
        PrimaryIndex.Op.remove "02", PrimaryIndex.Op.add 40] ([], [])
      = some ([⟨"01", 0⟩, ⟨"02", 40⟩], ["01", "02", "02"]) ∧
    (∀ k ∈ PrimaryIndex.keys [⟨"01", 0⟩, ⟨"02", 40⟩], ∃ v, stoi k = some v ∧ v ≤ 99) ∧
    ∃ k v, PrimaryIndex.getNewId [⟨"01", 0⟩, ⟨"02", 40⟩] = some k ∧ stoi k = some v ∧
      ∀ k1 ∈ PrimaryIndex.keys [⟨"01", 0⟩, ⟨"02", 40⟩], ∃ v1, stoi k1 = some v1 ∧ v1 < v :=
  have hw : ∀ k ∈ PrimaryIndex.keys [⟨"01", 0⟩, ⟨"02", 40⟩], ∃ v, stoi k = some v ∧ v ≤ 99 := by
    intro k hk
    simp only [PrimaryIndex.keys, List.map_cons, List.map_nil, List.mem_cons, List.mem_singleton,
      List.not_mem_nil, or_false] at hk
    rcases hk with rfl | rfl
    · exact ⟨1, by decide, by decide⟩
    · exact ⟨2, by decide, by decide⟩
  ⟨by decide, hw,
    PrimaryIndex.new_key_above_present_keys
      [PrimaryIndex.Op.add 0, PrimaryIndex.Op.add 20, PrimaryIndex.Op.remove "02",
        PrimaryIndex.Op.add 40] [⟨"01", 0⟩, ⟨"02", 40⟩] ["01", "02", "02"] (by decide) hw⟩

/-! ## Lemmas on the secondary index -/

namespace SecondaryIndex

theorem nodeAt_natCast (l : List PrimaryKeyNode) (i : Nat) : nodeAt l (i : Int) = l[i]? := by
  unfold nodeAt
  simp

theorem mapFind_mapAssign_same (m : List (String × Int)) (k : String) (v : Int) :
    mapFind (mapAssign m k v) k = some v := by
  induction m with
  | nil => simp [mapAssign, mapFind]
  | cons e rest ih =>
    obtain ⟨k1, w⟩ := e
    unfold mapAssign
    by_cases h1 : k1 = k
    · simp [h1, mapFind]
    · by_cases h2 : strLt k k1
      · simp [h1, h2, mapFind]
      · simp [h1, h2, mapFind, ih]

theorem mapFind_mapAssign_other (m : List (String × Int)) (k k2 : String) (v : Int) (hne : k2 ≠ k) :
    mapFind (mapAssign m k v) k2 = mapFind m k2 := by
  induction m with
  | nil => simp [mapAssign, mapFind, Ne.symm hne]
  | cons e rest ih =>
    obtain ⟨k1, w⟩ := e
    unfold mapAssign
    by_cases h1 : k1 = k
    · subst h1
      simp [mapFind, Ne.symm hne]
    · by_cases h2 : strLt k k1
      · simp [h1, h2, mapFind, Ne.symm hne]
      · simp [h1, h2, mapFind, ih]

theorem chain_lt {l : List PrimaryKeyNode} : ∀ {c : List Nat} {h : Int}, Chain l h c →
    ∀ i ∈ c, i < l.length := by
  intro c
  induction c with
  | nil => intro h _ i hi; simp at hi
  | cons j rest ih =>
    intro h hc i hi
    obtain ⟨_, nd, hnd, next, _, _, hrest⟩ := hc
    rcases List.mem_cons.1 hi with rfl | hi
    · exact (List.getElem?_eq_some.1 hnd).1
    · exact ih hrest i hi

theorem chain_stoi {l : List PrimaryKeyNode} : ∀ {c : List Nat} {h : Int}, Chain l h c →
    ∀ i ∈ c, ∃ nd, l[i]? = some nd ∧ (stoi nd.nextIndex).isSome := by
  intro c
  induction c with
  | nil => intro h _ i hi; simp at hi
  | cons j rest ih =>
    intro h hc i hi
    obtain ⟨_, nd, hnd, next, hs, _, hrest⟩ := hc
    rcases List.mem_cons.1 hi with rfl | hi
    · exact ⟨nd, hnd, by simp [hs]⟩
    · exact ih hrest i hi

theorem chain_set_frame {l : List PrimaryKeyNode} (j : Nat) (x : PrimaryKeyNode) :
    ∀ {c : List Nat} {h : Int}, Chain l h c → j ∉ c → Chain (l.set j x) h c := by
  intro c
  induction c with
  | nil => intro h hc _; exact hc
  | cons i rest ih =>
    intro h hc hj
    obtain ⟨hh, nd, hnd, next, hs, hm, hrest⟩ := hc
    have hji : j ≠ i := fun e => hj (e ▸ List.mem_cons_self _ _)
    refine ⟨hh, nd, ?_, next, hs, hm, ih hrest (fun hm => hj (List.mem_cons_of_mem _ hm))⟩
    rw [List.getElem?_set_ne hji]
    exact hnd

theorem chain_append_frame {l : List PrimaryKeyNode} (x : List PrimaryKeyNode) :
    ∀ {c : List Nat} {h : Int}, Chain l h c → Chain (l ++ x) h c := by
  intro c
  induction c with
  | nil => intro h hc; exact hc
  | cons i rest ih =>
    intro h hc
    obtain ⟨hh, nd, hnd, next, hs, hm, hrest⟩ := hc
    refine ⟨hh, nd, ?_, next, hs, hm, ih hrest⟩
    rw [List.getElem?_append_left (List.getElem?_eq_some.1 hnd).1]
    exact hnd

theorem chain_head_nil {l : List PrimaryKeyNode} {h : Int} {c : List Nat} (hc : Chain l h c) :
    h = -1 ↔ c = [] := by
  cases c with
  | nil => simpa [Chain] using hc
  | cons i rest =>
    obtain ⟨hh, _⟩ := hc
    constructor
    · intro e; omega
    · intro e; simp at e

theorem collectFrom_chain {l : List PrimaryKeyNode} : ∀ {c : List Nat} {h : Int} (fuel : Nat),
    Chain l h c → c.length < fuel → collectFrom l fuel h = some (c.map (keyAt l)) := by
  intro c
  induction c with
  | nil =>
    intro h fuel hc hf
    cases fuel with
    | zero => simp at hf
    | succ fuel =>
      have : h = -1 := hc
      simp [collectFrom, this]
  | cons i rest ih =>
    intro h fuel hc hf
    obtain ⟨hh, nd, hnd, next, hs, hm, hrest⟩ := hc
    cases fuel with
    | zero => simp at hf
    | succ fuel =>
      have hne : ¬ ((i : Int) = -1) := by omega
      have hk : keyAt l i = nd.primaryKey := by simp [keyAt, hnd]
      subst hh
      unfold collectFrom
      rw [if_neg hne, nodeAt_natCast, hnd]
      simp only [hs]
      rw [ih fuel hrest (by simpa using hf)]
      simp [hk]

theorem lastNodeFrom_chain {l : List PrimaryKeyNode} : ∀ {c : List Nat} {h : Int} (fuel : Nat)
    (hne : c ≠ []), Chain l h c → c.length ≤ fuel → lastNodeFrom l fuel h = some (c.getLast hne) := by
  intro c
  induction c with
  | nil => intro h fuel hne; exact absurd rfl hne
  | cons i rest ih =>
    intro h fuel hne hc hf
    obtain ⟨hh, nd, hnd, next, hs, hm, hrest⟩ := hc
    cases fuel with
    | zero => simp at hf
    | succ fuel =>
      subst hh
      unfold lastNodeFrom
      rw [nodeAt_natCast, hnd]
      cases rest with
      | nil =>
        have hn : next = -1 := hrest
        have : nd.nextIndex = "-1" := hm hn
        simp [this]
      | cons j rest2 =>
        have hj : next = (j : Int) := hrest.1
        have hx : nd.nextIndex ≠ "-1" := by
          intro e
          rw [e, stoi_minus_one] at hs
          injection hs with hs
          omega
        simp only [hx, ne_eq, not_false_eq_true, if_true, hs]
        rw [ih fuel (by simp) hrest (by simpa using hf)]
        simp [List.getLast_cons]

end SecondaryIndex

namespace SecondaryIndex

theorem firstFree_some : ∀ (l : List PrimaryKeyNode) (k i : Nat), firstFree l k = some i →
    k ≤ i ∧ (∃ nd, l[i - k]? = some nd ∧ nd.nextIndex = "##") ∧
      ∀ j, j < i - k → ∀ nd, l[j]? = some nd → nd.nextIndex ≠ "##" := by
  intro l
  induction l with
  | nil => intro k i h; simp [firstFree] at h
  | cons a rest ih =>
    intro k i h
    unfold firstFree at h
    by_cases ha : a.nextIndex = "##"
    · rw [if_pos ha] at h
      injection h with h
      subst h
      refine ⟨le_refl _, ⟨a, by simp, ha⟩, ?_⟩
      intro j hj
      omega
    · rw [if_neg ha] at h
      obtain ⟨h1, ⟨nd, h2, h3⟩, h4⟩ := ih (k + 1) i h
      have e : i - k = (i - (k + 1)) + 1 := by omega
      refine ⟨by omega, ⟨nd, ?_, h3⟩, ?_⟩
      · rw [e]
        simpa using h2
      · intro j hj nd2 hnd2
        cases j with
        | zero =>
          simp at hnd2
          subst hnd2
          exact ha
        | succ j =>
          exact h4 j (by omega) nd2 (by simpa using hnd2)

theorem firstFree_none : ∀ (l : List PrimaryKeyNode) (k : Nat), firstFree l k = none →
    ∀ nd ∈ l, nd.nextIndex ≠ "##" := by
  intro l
  induction l with
  | nil => intro k _ nd hnd; simp at hnd
  | cons a rest ih =>
    intro k h nd hnd
    unfold firstFree at h
    by_cases ha : a.nextIndex = "##"
    · rw [if_pos ha] at h
      exact absurd h (by simp)
    · rw [if_neg ha] at h
      rcases List.mem_cons.1 hnd with rfl | hnd
      · exact ha
      · exact ih (k + 1) h nd hnd

/-- What `getFreeLabelIndex` guarantees: the map is kept, the index returned is
inside the new vector and holds a free node, and every list of the old vector
is a list of the new vector that does not pass through the index returned. -/
theorem getFreeLabelIndex_spec (s : SecondaryIndex) :
    (getFreeLabelIndex s).1.secondaryIndexMap = s.secondaryIndexMap ∧
    (getFreeLabelIndex s).2 < (getFreeLabelIndex s).1.primaryKeyList.length ∧
    (getFreeLabelIndex s).2 ≤ s.primaryKeyList.length ∧
    (getFreeLabelIndex s).1.primaryKeyList.length ≤ s.primaryKeyList.length + 1 ∧
    (∀ i, keyAt (getFreeLabelIndex s).1.primaryKeyList i ≠ keyAt s.primaryKeyList i →
        i = (getFreeLabelIndex s).2) ∧
    ∀ h c, Chain s.primaryKeyList h c →
      Chain (getFreeLabelIndex s).1.primaryKeyList h c ∧ (getFreeLabelIndex s).2 ∉ c := by
  unfold getFreeLabelIndex
  cases hf : firstFree s.primaryKeyList 0 with
  | some f =>
    obtain ⟨_, ⟨nd, hnd, hfree⟩, _⟩ := firstFree_some _ _ _ hf
    simp only [Nat.sub_zero] at hnd
    refine ⟨rfl, (List.getElem?_eq_some.1 hnd).1, le_of_lt (List.getElem?_eq_some.1 hnd).1,
      Nat.le_succ _, fun i hi => absurd rfl hi, ?_⟩
    intro h c hc
    refine ⟨hc, ?_⟩
    intro hm
    obtain ⟨nd2, hnd2, hs⟩ := chain_stoi hc f hm
    rw [hnd] at hnd2
    injection hnd2 with hnd2
    subst hnd2
    rw [hfree, stoi_free] at hs
    simp at hs
  | none =>
    refine ⟨rfl, by simp, le_refl _, by simp, ?_, ?_⟩
    · intro i hi
      by_contra hne
      apply hi
      have hne2 : i ≠ s.primaryKeyList.length := hne
      show keyAt (s.primaryKeyList ++ [⟨"##", "##"⟩]) i = keyAt s.primaryKeyList i
      unfold keyAt
      by_cases hlt : i < s.primaryKeyList.length
      · rw [List.getElem?_append_left hlt]
      · have h1 : s.primaryKeyList.length < i := by omega
        rw [List.getElem?_eq_none (by simp; omega), List.getElem?_eq_none (by omega)]
    · intro h c hc
      refine ⟨chain_append_frame _ hc, ?_⟩
      intro hm
      exact absurd (chain_lt hc _ hm) (lt_irrefl _)

theorem setNextIndex_length (l : List PrimaryKeyNode) (i : Nat) (x : String) :
    (setNextIndex l i x).length = l.length := by
  unfold setNextIndex
  cases l[i]? <;> simp

theorem setNextIndex_getElem?_ne (l : List PrimaryKeyNode) (i j : Nat) (x : String) (h : i ≠ j) :
    (setNextIndex l i x)[j]? = l[j]? := by
  unfold setNextIndex
  cases l[i]? with
  | none => rfl
  | some nd => simp [List.getElem?_set_ne h]

theorem setNextIndex_getElem?_eq (l : List PrimaryKeyNode) (i : Nat) (x : String)
    (nd : PrimaryKeyNode) (h : l[i]? = some nd) :
    (setNextIndex l i x)[i]? = some ⟨nd.primaryKey, x⟩ := by
  unfold setNextIndex
  rw [h]
  simp [(List.getElem?_eq_some.1 h).1]

theorem keyAt_setNextIndex (l : List PrimaryKeyNode) (i j : Nat) (x : String) :
    keyAt (setNextIndex l i x) j = keyAt l j := by
  unfold keyAt
  by_cases h : i = j
  · subst h
    cases hnd : l[i]? with
    | none => simp [setNextIndex, hnd]
    | some nd => rw [setNextIndex_getElem?_eq l i x nd hnd]
  · rw [setNextIndex_getElem?_ne l i j x h]

theorem keyAt_set_ne (l : List PrimaryKeyNode) (i j : Nat) (x : PrimaryKeyNode) (h : i ≠ j) :
    keyAt (l.set i x) j = keyAt l j := by
  unfold keyAt
  rw [List.getElem?_set_ne h]

theorem keyAt_set_eq (l : List PrimaryKeyNode) (i : Nat) (x : PrimaryKeyNode) (h : i < l.length) :
    keyAt (l.set i x) i = x.primaryKey := by
  unfold keyAt
  simp [h]

theorem chain_setNextIndex_frame {l : List PrimaryKeyNode} (j : Nat) (x : String)
    {c : List Nat} {h : Int} (hc : Chain l h c) (hj : j ∉ c) : Chain (setNextIndex l j x) h c := by
  unfold setNextIndex
  cases l[j]? with
  | none => exact hc
  | some nd => exact chain_set_frame j _ hc hj

theorem nodup_length_le {c : List Nat} {n : Nat} (hn : c.Nodup) (hb : ∀ i ∈ c, i < n) :
    c.length ≤ n := by
  have hsub : c ⊆ List.range n := fun i hi => List.mem_range.2 (hb i hi)
  have := (List.subperm_of_subset hn hsub).length_le
  simpa using this

theorem chain_snoc {l : List PrimaryKeyNode} (f : Nat) (p : String) (hf : f ≤ 2147483647)
    (hfl : f < l.length) : ∀ {c : List Nat} {h : Int} (hne : c ≠ []), Chain l h c → c.Nodup →
    f ∉ c → Chain ((setNextIndex l (c.getLast hne) (to_string (f : Int))).set f ⟨p, "-1"⟩) h
      (c ++ [f]) := by
  intro c
  induction c with
  | nil => intro h hne; exact absurd rfl hne
  | cons i rest ih =>
    intro h hne hc hnd hfc
    obtain ⟨hh, nd, hnd1, next, hs, hm, hrest⟩ := hc
    have hfi : f ≠ i := fun e => hfc (e ▸ List.mem_cons_self _ _)
    have hfr : f ∉ rest := fun hm => hfc (List.mem_cons_of_mem _ hm)
    have hir : i ∉ rest := (List.nodup_cons.1 hnd).1
    cases rest with
    | nil =>
      simp only [List.getLast_singleton, List.nil_append] at *
      refine ⟨hh, ⟨nd.primaryKey, to_string (f : Int)⟩, ?_, (f : Int), stoi_to_string f hf,
        fun e => by omega, rfl, ⟨p, "-1"⟩, ?_, -1, stoi_minus_one, fun _ => rfl, rfl⟩
      · rw [List.getElem?_set_ne hfi]
        exact setNextIndex_getElem?_eq l i _ nd hnd1
      · rw [List.getElem?_set_self (by rw [setNextIndex_length]; exact hfl)]
    | cons j rest2 =>
      have hlast : (i :: j :: rest2).getLast hne = (j :: rest2).getLast (by simp) := by
        simp [List.getLast_cons]
      have hil : i ≠ (j :: rest2).getLast (by simp) := by
        intro e
        exact hir (e ▸ List.getLast_mem _)
      rw [hlast]
      refine ⟨hh, nd, ?_, next, hs, hm, ih (by simp) hrest (List.nodup_cons.1 hnd).2 hfr⟩
      rw [List.getElem?_set_ne hfi, setNextIndex_getElem?_ne _ _ _ _ (Ne.symm hil)]
      exact hnd1

theorem chain_singleton {l : List PrimaryKeyNode} (f : Nat) (p : String) (hfl : f < l.length) :
    Chain (l.set f ⟨p, "-1"⟩) (f : Int) [f] :=
  ⟨rfl, ⟨p, "-1"⟩, by rw [List.getElem?_set_self hfl], -1, stoi_minus_one, fun _ => rfl, rfl⟩

end SecondaryIndex

namespace SecondaryIndex

theorem update_snoc_nodup (ch : String → List Nat) (sk : String) (f : Nat)
    (hnd : ∀ k, (ch k).Nodup) (hf : ∀ k, f ∉ ch k) :
    ∀ k, (Function.update ch sk (ch sk ++ [f]) k).Nodup := by
  intro k
  by_cases hk : k = sk
  · subst hk
    rw [Function.update_same]
    exact List.Nodup.append (hnd k) (List.nodup_singleton f)
      (by intro a ha hb; rw [List.mem_singleton] at hb; subst hb; exact hf k ha)
  · rw [Function.update_noteq hk]
    exact hnd k

theorem update_snoc_disjoint (ch : String → List Nat) (sk : String) (f : Nat)
    (hdj : ∀ k k1, k ≠ k1 → ∀ i, i ∈ ch k → i ∉ ch k1) (hf : ∀ k, f ∉ ch k) :
    ∀ k k1, k ≠ k1 → ∀ i, i ∈ Function.update ch sk (ch sk ++ [f]) k →
      i ∉ Function.update ch sk (ch sk ++ [f]) k1 := by
  intro k k1 hne i hi
  by_cases hk : k = sk
  · subst hk
    rw [Function.update_same] at hi
    rw [Function.update_noteq (Ne.symm hne)]
    rcases List.mem_append.1 hi with hi | hi
    · exact hdj k k1 hne i hi
    · rw [List.mem_singleton] at hi
      subst hi
      exact hf k1
  · rw [Function.update_noteq hk] at hi
    by_cases hk1 : k1 = sk
    · subst hk1
      rw [Function.update_same]
      intro hm
      rcases List.mem_append.1 hm with hm | hm
      · exact hdj k k1 hne i hi hm
      · rw [List.mem_singleton] at hm
        subst hm
        exact hf k hi
    · rw [Function.update_noteq hk1]
      exact hdj k k1 hne i hi

/-- The state that `addPrimaryKeyToSecondaryNode` builds when the list of the
key is empty (key unseen, or head `-1`) is well formed. -/
theorem wf_add_first (m : List (String × Int)) (l : List PrimaryKeyNode) (ch : String → List Nat)
    (sk p : String) (f : Nat) (hfl : f < l.length)
    (hchain : ∀ k h, mapFind m k = some h → Chain l h (ch k))
    (habs : ∀ k, mapFind m k = none → ch k = [])
    (hnd : ∀ k, (ch k).Nodup)
    (hdj : ∀ k k1, k ≠ k1 → ∀ i, i ∈ ch k → i ∉ ch k1)
    (hf : ∀ k, f ∉ ch k) (hsk : ch sk = []) :
    WellFormedWith ⟨mapAssign m sk f, l.set f ⟨p, "-1"⟩⟩ (Function.update ch sk (ch sk ++ [f])) := by
  refine ⟨?_, ?_, update_snoc_nodup ch sk f hnd hf, update_snoc_disjoint ch sk f hdj hf⟩
  · intro k h hk
    by_cases hks : k = sk
    · subst hks
      rw [mapFind_mapAssign_same] at hk
      injection hk with hk
      subst hk
      rw [Function.update_same, hsk]
      exact chain_singleton f p hfl
    · rw [mapFind_mapAssign_other _ _ _ _ hks] at hk
      rw [Function.update_noteq hks]
      exact chain_set_frame f _ (hchain k h hk) (hf k)
  · intro k hk
    by_cases hks : k = sk
    · subst hks
      rw [mapFind_mapAssign_same] at hk
      exact absurd hk (by simp)
    · rw [mapFind_mapAssign_other _ _ _ _ hks] at hk
      rw [Function.update_noteq hks]
      exact habs k hk

/-- The state that `addPrimaryKeyToSecondaryNode` builds when the list of the
key has a last node is well formed. -/
theorem wf_add_last (m : List (String × Int)) (l : List PrimaryKeyNode) (ch : String → List Nat)
    (sk p : String) (f : Nat) (hfl : f < l.length) (hf31 : f ≤ 2147483647)
    (hchain : ∀ k h, mapFind m k = some h → Chain l h (ch k))
    (habs : ∀ k, mapFind m k = none → ch k = [])
    (hnd : ∀ k, (ch k).Nodup)
    (hdj : ∀ k k1, k ≠ k1 → ∀ i, i ∈ ch k → i ∉ ch k1)
    (hf : ∀ k, f ∉ ch k) (hne : ch sk ≠ []) :
    WellFormedWith ⟨m, (setNextIndex l ((ch sk).getLast hne) (to_string (f : Int))).set f ⟨p, "-1"⟩⟩
      (Function.update ch sk (ch sk ++ [f])) := by
  refine ⟨?_, ?_, update_snoc_nodup ch sk f hnd hf, update_snoc_disjoint ch sk f hdj hf⟩
  · intro k h hk
    by_cases hks : k = sk
    · subst hks
      rw [Function.update_same]
      exact chain_snoc f p hf31 hfl hne (hchain k h hk) (hnd k) (hf k)
    · rw [Function.update_noteq hks]
      have hlast : (ch sk).getLast hne ∉ ch k :=
        hdj sk k (Ne.symm hks) _ (List.getLast_mem hne)
      exact chain_set_frame f _ (chain_setNextIndex_frame _ _ (hchain k h hk) hlast) (hf k)
  · intro k hk
    by_cases hks : k = sk
    · subst hks
      exact absurd (habs k hk) hne
    · rw [Function.update_noteq hks]
      exact habs k hk

/-- The effect of `addPrimaryKeyToSecondaryNode` on a well-formed index: the
call returns, the new node `f` is put at the end of the list of the key, and
all lists keep their primary keys. -/
theorem add_spec (s : SecondaryIndex) (ch : String → List Nat) (hw : WellFormedWith s ch)
    (hlen : s.primaryKeyList.length ≤ 2147483647) (sk p : String) :
    ∃ s1 f, addPrimaryKeyToSecondaryNode s sk p = some s1 ∧
      WellFormedWith s1 (Function.update ch sk (ch sk ++ [f])) ∧
      (∃ h, mapFind s1.secondaryIndexMap sk = some h) ∧
      (∀ k, k ≠ sk → mapFind s1.secondaryIndexMap k = mapFind s.secondaryIndexMap k) ∧
      keyAt s1.primaryKeyList f = p ∧
      (∀ k i, i ∈ ch k → keyAt s1.primaryKeyList i = keyAt s.primaryKeyList i) ∧
      s1.primaryKeyList.length ≤ s.primaryKeyList.length + 1 := by
  obtain ⟨hm, hfl, hfle, hlen1, hkey, hfr⟩ := getFreeLabelIndex_spec s
  have hchain : ∀ k h, mapFind (getFreeLabelIndex s).1.secondaryIndexMap k = some h →
      Chain (getFreeLabelIndex s).1.primaryKeyList h (ch k) := by
    intro k h hk
    rw [hm] at hk
    exact (hfr h _ (hw.chain k h hk)).1
  have habs : ∀ k, mapFind (getFreeLabelIndex s).1.secondaryIndexMap k = none → ch k = [] := by
    intro k hk
    rw [hm] at hk
    exact hw.absent k hk
  have hf : ∀ k, (getFreeLabelIndex s).2 ∉ ch k := by
    intro k
    cases hk : mapFind s.secondaryIndexMap k with
    | none => rw [hw.absent k hk]; simp
    | some h => exact (hfr h _ (hw.chain k h hk)).2
  have hkeep : ∀ k i, i ∈ ch k → keyAt (getFreeLabelIndex s).1.primaryKeyList i
      = keyAt s.primaryKeyList i := by
    intro k i hi
    by_contra hne
    exact hf k (hkey i hne ▸ hi)
  have hf31 : (getFreeLabelIndex s).2 ≤ 2147483647 := le_trans hfle hlen
  have hfirst : ch sk = [] → ∃ s1 f,
      some (SecondaryIndex.mk
        (mapAssign (getFreeLabelIndex s).1.secondaryIndexMap sk ((getFreeLabelIndex s).2 : Int))
        ((getFreeLabelIndex s).1.primaryKeyList.set (getFreeLabelIndex s).2 ⟨p, "-1"⟩)) = some s1 ∧
      WellFormedWith s1 (Function.update ch sk (ch sk ++ [f])) ∧
      (∃ h, mapFind s1.secondaryIndexMap sk = some h) ∧
      (∀ k, k ≠ sk → mapFind s1.secondaryIndexMap k = mapFind s.secondaryIndexMap k) ∧
      keyAt s1.primaryKeyList f = p ∧
      (∀ k i, i ∈ ch k → keyAt s1.primaryKeyList i = keyAt s.primaryKeyList i) ∧
      s1.primaryKeyList.length ≤ s.primaryKeyList.length + 1 := by
    intro hsk
    refine ⟨_, (getFreeLabelIndex s).2, rfl,
      wf_add_first _ _ ch sk p _ hfl hchain habs hw.nodup hw.disjoint hf hsk,
      ⟨_, mapFind_mapAssign_same _ _ _⟩, ?_, keyAt_set_eq _ _ _ hfl, ?_, ?_⟩
    · intro k hk
      rw [mapFind_mapAssign_other _ _ _ _ hk, hm]
    · intro k i hi
      have hif : (getFreeLabelIndex s).2 ≠ i := fun e => hf k (e ▸ hi)
      show keyAt (List.set _ _ _) i = _
      rw [keyAt_set_ne _ _ _ _ hif]
      exact hkeep k i hi
    · show (List.set _ _ _).length ≤ _
      rw [List.length_set]
      exact hlen1
  unfold addPrimaryKeyToSecondaryNode
  dsimp only
  cases hfind : mapFind (getFreeLabelIndex s).1.secondaryIndexMap sk with
  | none => exact hfirst (habs sk hfind)
  | some h =>
    have hc := hchain sk h hfind
    by_cases hh : h = -1
    · simp only [hh, if_true]
      exact hfirst ((chain_head_nil hc).1 hh)
    · simp only [hh, if_false]
      have hne : ch sk ≠ [] := fun e => hh ((chain_head_nil hc).2 e)
      have hcl : (ch sk).length ≤ (getFreeLabelIndex s).1.primaryKeyList.length :=
        nodup_length_le (hw.nodup sk) (chain_lt hc)
      rw [lastNodeFrom_chain _ hne hc hcl]
      refine ⟨_, (getFreeLabelIndex s).2, rfl,
        wf_add_last _ _ ch sk p _ hfl hf31 hchain habs hw.nodup hw.disjoint hf hne,
        ⟨h, hfind⟩, ?_, ?_, ?_, ?_⟩
      · intro k _
        rw [hm]
      · show keyAt (List.set _ _ _) _ = _
        exact keyAt_set_eq _ _ _ (by rw [setNextIndex_length]; exact hfl)
      · intro k i hi
        have hif : (getFreeLabelIndex s).2 ≠ i := fun e => hf k (e ▸ hi)
        show keyAt (List.set _ _ _) i = _
        rw [keyAt_set_ne _ _ _ _ hif, keyAt_setNextIndex]
        exact hkeep k i hi
      · show (List.set _ _ _).length ≤ _
        rw [List.length_set, setNextIndex_length]
        exact hlen1

/-- On a well-formed index the lookup of a key of the map returns the primary
keys of the nodes of its list, in list order, and leaves the state as it is. -/
theorem get_spec (s : SecondaryIndex) (ch : String → List Nat) (hw : WellFormedWith s ch)
    (sk : String) (h : Int) (hk : mapFind s.secondaryIndexMap sk = some h) :
    getPrimaryKeysBySecondaryKey s sk = some (s, (ch sk).map (keyAt s.primaryKeyList)) := by
  have hc := hw.chain sk h hk
  have hcl : (ch sk).length ≤ s.primaryKeyList.length :=
    nodup_length_le (hw.nodup sk) (chain_lt hc)
  unfold getPrimaryKeysBySecondaryKey mapIndex
  simp only [hk]
  rw [collectFrom_chain _ hc (Nat.lt_succ_of_le hcl)]
  rfl

end SecondaryIndex

namespace SecondaryIndex

theorem releaseLabelId_natCast (l : List PrimaryKeyNode) (i : Nat) (h : i < l.length) :
    releaseLabelId l (i : Int) = l.set i ⟨"##", "##"⟩ := by
  unfold releaseLabelId
  rw [if_pos ⟨by omega, by omega⟩]
  simp

theorem keyAt_eq_of_getElem? {l : List PrimaryKeyNode} {i : Nat} {nd : PrimaryKeyNode}
    (h : l[i]? = some nd) : keyAt l i = nd.primaryKey := by
  simp [keyAt, h]

theorem removeLoop_absent (sk p : String) (m : List (String × Int)) (l : List PrimaryKeyNode) :
    ∀ {c : List Nat} {cur : Int} (fuel : Nat) (prev : Int), Chain l cur c →
      (∀ i ∈ c, keyAt l i ≠ p) → c.length < fuel →
      removeLoop sk p m l fuel prev cur = some ⟨m, l⟩ := by
  intro c
  induction c with
  | nil =>
    intro cur fuel prev hc _ hf
    cases fuel with
    | zero => simp at hf
    | succ fuel =>
      have : cur = -1 := hc
      simp [removeLoop, this]
  | cons i rest ih =>
    intro cur fuel prev hc hk hf
    obtain ⟨hh, nd, hnd, next, hs, hm, hrest⟩ := hc
    cases fuel with
    | zero => simp at hf
    | succ fuel =>
      subst hh
      have hne : ¬ ((i : Int) = -1) := by omega
      have hkey : ¬ (nd.primaryKey = p) := by
        rw [← keyAt_eq_of_getElem? hnd]
        exact hk i (List.mem_cons_self _ _)
      unfold removeLoop
      rw [if_neg hne, nodeAt_natCast, hnd]
      simp only [hkey, if_false, hs]
      exact ih fuel _ hrest (fun j hj => hk j (List.mem_cons_of_mem _ hj)) (by simpa using hf)

theorem removeLoop_found (sk p : String) (m : List (String × Int)) (l : List PrimaryKeyNode)
    (i : Nat) (post : List Nat) (hhead : mapFind m sk ≠ some (i : Int)) :
    ∀ {pre : List Nat} {cur : Int} (fuel : Nat) (prev : Int), Chain l cur (pre ++ i :: post) →
      (∀ j ∈ pre, keyAt l j ≠ p) → keyAt l i = p → pre.length < fuel →
      ∃ nd, l[i]? = some nd ∧ removeLoop sk p m l fuel prev cur =
        some ⟨m, releaseLabelId (setNextIndex l (pre.getLast?.getD prev.toNat) nd.nextIndex) i⟩ := by
  intro pre
  induction pre with
  | nil =>
    intro cur fuel prev hc _ hi hf
    obtain ⟨hh, nd, hnd, next, hs, hm, hrest⟩ := hc
    cases fuel with
    | zero => simp at hf
    | succ fuel =>
      subst hh
      refine ⟨nd, hnd, ?_⟩
      have hne : ¬ ((i : Int) = -1) := by omega
      have hkey : nd.primaryKey = p := by rw [← keyAt_eq_of_getElem? hnd]; exact hi
      have hh2 : ¬ (some (i : Int) = mapFind m sk) := fun e => hhead e.symm
      unfold removeLoop
      rw [if_neg hne, nodeAt_natCast, hnd]
      simp only [hkey, if_true, hh2, if_false]
      rfl
  | cons j pre2 ih =>
    intro cur fuel prev hc hk hi hf
    obtain ⟨hh, nd, hnd, next, hs, hm, hrest⟩ := hc
    cases fuel with
    | zero => simp at hf
    | succ fuel =>
      subst hh
      have hne : ¬ ((j : Int) = -1) := by omega
      have hkey : ¬ (nd.primaryKey = p) := by
        rw [← keyAt_eq_of_getElem? hnd]
        exact hk j (List.mem_cons_self _ _)
      obtain ⟨ndi, hndi, hrun⟩ := ih fuel (j : Int) hrest
        (fun x hx => hk x (List.mem_cons_of_mem _ hx)) hi (by simpa using hf)
      refine ⟨ndi, hndi, ?_⟩
      unfold removeLoop
      rw [if_neg hne, nodeAt_natCast, hnd]
      simp only [hkey, if_false, hs]
      rw [hrun]
      have e : (j :: pre2).getLast?.getD prev.toNat = pre2.getLast?.getD (j : Int).toNat := by
        cases pre2 with
        | nil => simp
        | cons k pre3 =>
          rw [List.getLast?_cons_cons, List.getLast?_eq_getLast _ (List.cons_ne_nil k pre3)]
          rfl
      rw [e]

theorem chain_unlink {l : List PrimaryKeyNode} (i : Nat) (post : List Nat) (nd : PrimaryKeyNode)
    (hnd : l[i]? = some nd) : ∀ {pre : List Nat} {h : Int} (hne : pre ≠ []),
    Chain l h (pre ++ i :: post) → (pre ++ i :: post).Nodup →
    Chain ((setNextIndex l (pre.getLast hne) nd.nextIndex).set i ⟨"##", "##"⟩) h (pre ++ post) := by
  intro pre
  induction pre with
  | nil => intro h hne; exact absurd rfl hne
  | cons j pre2 ih =>
    intro h hne hc hnodup
    obtain ⟨hh, ndj, hndj, next, hs, hm, hrest⟩ := hc
    have hj : j ∉ pre2 ++ i :: post := (List.nodup_cons.1 hnodup).1
    have hnodup2 : (pre2 ++ i :: post).Nodup := (List.nodup_cons.1 hnodup).2
    have hji : j ≠ i := fun e => hj (by simp [e])
    cases pre2 with
    | nil =>
      obtain ⟨hh2, ndi, hndi, next2, hs2, hm2, hrest2⟩ := hrest
      rw [hnd] at hndi
      injection hndi with hndi
      subst hndi
      have hip : i ∉ post := (List.nodup_cons.1 hnodup2).1
      have hjp : j ∉ post := fun hm => hj (by simp [hm])
      refine ⟨hh, ⟨ndj.primaryKey, nd.nextIndex⟩, ?_, next2, hs2, hm2, ?_⟩
      · rw [List.getElem?_set_ne (Ne.symm hji)]
        exact setNextIndex_getElem?_eq l j _ ndj hndj
      · exact chain_set_frame i _ (chain_setNextIndex_frame j _ hrest2 hjp) hip
    | cons k pre3 =>
      have hlast : (j :: k :: pre3).getLast hne = (k :: pre3).getLast (by simp) := by
        simp [List.getLast_cons]
      have hjl : j ≠ (k :: pre3).getLast (by simp) := by
        intro e
        apply hj
        rw [e]
        exact List.mem_append_left _ (List.getLast_mem _)
      rw [hlast]
      refine ⟨hh, ndj, ?_, next, hs, hm, ih (by simp) hrest hnodup2⟩
      rw [List.getElem?_set_ne (Ne.symm hji), setNextIndex_getElem?_ne _ _ _ _ (Ne.symm hjl)]
      exact hndj

theorem split_first (l : List PrimaryKeyNode) (p : String) : ∀ (c : List Nat),
    p ∈ c.map (keyAt l) → ∃ pre i post, c = pre ++ i :: post ∧ keyAt l i = p ∧
      ∀ j ∈ pre, keyAt l j ≠ p := by
  intro c
  induction c with
  | nil => intro h; simp at h
  | cons a rest ih =>
    intro h
    by_cases ha : keyAt l a = p
    · exact ⟨[], a, rest, rfl, ha, by simp⟩
    · have hr : p ∈ rest.map (keyAt l) := by
        rcases List.mem_cons.1 h with e | e
        · exact absurd e.symm ha
        · exact e
      obtain ⟨pre, i, post, e, hi, hpre⟩ := ih hr
      refine ⟨a :: pre, i, post, by rw [e]; rfl, hi, ?_⟩
      intro j hj
      rcases List.mem_cons.1 hj with rfl | hj
      · exact ha
      · exact hpre j hj

theorem erase_split (k : Nat → String) (p : String) (pre : List Nat) (i : Nat) (post : List Nat)
    (hi : k i = p) (hpre : ∀ j ∈ pre, k j ≠ p) :
    ((pre ++ i :: post).map k).erase p = (pre ++ post).map k := by
  have hnot : p ∉ pre.map k := by
    intro hm
    obtain ⟨j, hj, e⟩ := List.mem_map.1 hm
    exact hpre j hj e
  rw [List.map_append, List.map_append, List.erase_append_right _ hnot, List.map_cons, hi,
    List.erase_cons_head]

theorem update_sub_nodup (ch : String → List Nat) (sk : String) (c : List Nat)
    (hnd : ∀ k, (ch k).Nodup) (hc : c.Nodup) :
    ∀ k, (Function.update ch sk c k).Nodup := by
  intro k
  by_cases hk : k = sk
  · subst hk
    rw [Function.update_same]
    exact hc
  · rw [Function.update_noteq hk]
    exact hnd k

theorem update_sub_disjoint (ch : String → List Nat) (sk : String) (c : List Nat)
    (hdj : ∀ k k1, k ≠ k1 → ∀ i, i ∈ ch k → i ∉ ch k1) (hsub : ∀ i ∈ c, i ∈ ch sk) :
    ∀ k k1, k ≠ k1 → ∀ i, i ∈ Function.update ch sk c k → i ∉ Function.update ch sk c k1 := by
  intro k k1 hne i hi
  by_cases hk : k = sk
  · subst hk
    rw [Function.update_same] at hi
    rw [Function.update_noteq (Ne.symm hne)]
    exact hdj k k1 hne i (hsub i hi)
  · rw [Function.update_noteq hk] at hi
    by_cases hk1 : k1 = sk
    · subst hk1
      rw [Function.update_same]
      intro hm
      exact hdj k k1 hne i hi (hsub i hm)
    · rw [Function.update_noteq hk1]
      exact hdj k k1 hne i hi

end SecondaryIndex

namespace SecondaryIndex

/-- Well-formedness after a node of the list of `sk` was unlinked: the other
lists do not pass through the two nodes that were written. -/
theorem wf_remove (s : SecondaryIndex) (ch : String → List Nat) (hw : WellFormedWith s ch)
    (sk : String) (m1 : List (String × Int)) (x i : Nat) (y : String) (c1 : List Nat) (h1 : Int)
    (hx : x ∈ ch sk) (hi : i ∈ ch sk) (hsub : ∀ a ∈ c1, a ∈ ch sk) (hc1 : c1.Nodup)
    (hother : ∀ k, k ≠ sk → mapFind m1 k = mapFind s.secondaryIndexMap k)
    (hsk : mapFind m1 sk = some h1)
    (hchain : Chain ((setNextIndex s.primaryKeyList x y).set i ⟨"##", "##"⟩) h1 c1) :
    WellFormedWith ⟨m1, (setNextIndex s.primaryKeyList x y).set i ⟨"##", "##"⟩⟩
      (Function.update ch sk c1) := by
  refine ⟨?_, ?_, update_sub_nodup ch sk c1 hw.nodup hc1,
    update_sub_disjoint ch sk c1 hw.disjoint hsub⟩
  · intro k h hk
    by_cases hks : k = sk
    · subst hks
      rw [hsk] at hk
      injection hk with hk
      subst hk
      rw [Function.update_same]
      exact hchain
    · rw [hother k hks] at hk
      rw [Function.update_noteq hks]
      exact chain_set_frame i _
        (chain_setNextIndex_frame x y (hw.chain k h hk) (hw.disjoint sk k (Ne.symm hks) x hx))
        (hw.disjoint sk k (Ne.symm hks) i hi)
  · intro k hk
    by_cases hks : k = sk
    · subst hks
      rw [hsk] at hk
      exact absurd hk (by simp)
    · rw [hother k hks] at hk
      rw [Function.update_noteq hks]
      exact hw.absent k hk

/-- The effect of `removePrimaryKeyFromSecondaryNode` on a well-formed index
when node `i` is the first node of the list of `sk` that holds `p`: the call
returns, the node is taken out of the list and freed, and no other primary
key changes. -/
theorem remove_spec (s : SecondaryIndex) (ch : String → List Nat) (hw : WellFormedWith s ch)
    (sk p : String) (pre : List Nat) (i : Nat) (post : List Nat)
    (hsplit : ch sk = pre ++ i :: post) (hi : keyAt s.primaryKeyList i = p)
    (hpre : ∀ j ∈ pre, keyAt s.primaryKeyList j ≠ p) :
    ∃ s1, removePrimaryKeyFromSecondaryNode s sk p = some s1 ∧
      WellFormedWith s1 (Function.update ch sk (pre ++ post)) ∧
      (∃ h, mapFind s1.secondaryIndexMap sk = some h) ∧
      (∀ k, k ≠ sk → mapFind s1.secondaryIndexMap k = mapFind s.secondaryIndexMap k) ∧
      s1.primaryKeyList[i]? = some ⟨"##", "##"⟩ ∧
      (∀ j, j ≠ i → keyAt s1.primaryKeyList j = keyAt s.primaryKeyList j) ∧
      s1.primaryKeyList.length = s.primaryKeyList.length := by
  cases hfind : mapFind s.secondaryIndexMap sk with
  | none =>
    have := hw.absent sk hfind
    rw [hsplit] at this
    exact absurd this (by simp)
  | some h0 =>
    have hc : Chain s.primaryKeyList h0 (pre ++ i :: post) := hsplit ▸ hw.chain sk h0 hfind
    have hnodup : (pre ++ i :: post).Nodup := hsplit ▸ hw.nodup sk
    have himem : i ∈ ch sk := by rw [hsplit]; simp
    have hil : i < s.primaryKeyList.length := chain_lt hc i (by simp)
    have hclen : (pre ++ i :: post).length ≤ s.primaryKeyList.length :=
      nodup_length_le hnodup (chain_lt hc)
    have hsub : ∀ a ∈ pre ++ post, a ∈ ch sk := by
      intro a ha
      rw [hsplit]
      rcases List.mem_append.1 ha with ha | ha
      · exact List.mem_append_left _ ha
      · exact List.mem_append_right _ (List.mem_cons_of_mem _ ha)
    have hnodup1 : (pre ++ post).Nodup :=
      hnodup.sublist (List.Sublist.append_left (List.sublist_cons_self i post) pre)
    have hfacts : ∀ (x : Nat) (y : String),
        ((setNextIndex s.primaryKeyList x y).set i ⟨"##", "##"⟩)[i]? = some ⟨"##", "##"⟩ ∧
        (∀ j, j ≠ i → keyAt ((setNextIndex s.primaryKeyList x y).set i ⟨"##", "##"⟩) j
          = keyAt s.primaryKeyList j) ∧
        ((setNextIndex s.primaryKeyList x y).set i ⟨"##", "##"⟩).length
          = s.primaryKeyList.length := by
      intro x y
      refine ⟨?_, ?_, ?_⟩
      · rw [List.getElem?_set_self (by rw [setNextIndex_length]; exact hil)]
      · intro j hj
        rw [keyAt_set_ne _ _ _ _ (Ne.symm hj), keyAt_setNextIndex]
      · rw [List.length_set, setNextIndex_length]
    unfold removePrimaryKeyFromSecondaryNode
    simp only [hfind]
    cases pre with
    | nil =>
      obtain ⟨hh, nd, hnd, next, hs, hm, hrest⟩ := hc
      subst hh
      have hne : ¬ ((i : Int) = -1) := by omega
      have hkey : nd.primaryKey = p := by rw [← keyAt_eq_of_getElem? hnd]; exact hi
      have hip : i ∉ post := (List.nodup_cons.1 hnodup).1
      unfold removeLoop
      rw [if_neg hne, nodeAt_natCast, hnd]
      simp only [hkey, if_true, hfind, hs, Int.toNat_ofNat]
      rw [releaseLabelId_natCast _ _ (by rw [setNextIndex_length]; exact hil)]
      obtain ⟨f1, f2, f3⟩ := hfacts i nd.nextIndex
      refine ⟨_, rfl, ?_, ⟨next, mapFind_mapAssign_same _ _ _⟩,
        fun k hk => mapFind_mapAssign_other _ _ _ _ hk, f1, f2, f3⟩
      exact wf_remove s ch hw sk _ i i nd.nextIndex _ next himem himem hsub hnodup1
        (fun k hk => mapFind_mapAssign_other _ _ _ _ hk) (mapFind_mapAssign_same _ _ _)
        (chain_set_frame i _ (chain_setNextIndex_frame i _ hrest hip) hip)
    | cons j pre2 =>
      have hh : h0 = (j : Int) := hc.1
      have hji : j ≠ i := by
        intro e
        have := (List.nodup_cons.1 hnodup).1
        exact this (by simp [e])
      have hhead : mapFind s.secondaryIndexMap sk ≠ some (i : Int) := by
        rw [hfind, hh]
        intro e
        injection e with e
        exact hji (by omega)
      obtain ⟨nd, hnd, hrun⟩ := removeLoop_found sk p s.secondaryIndexMap s.primaryKeyList i post
        hhead (s.primaryKeyList.length + 1) h0 hc hpre hi
        (by simp at hclen; simp; omega)
      rw [hrun, List.getLast?_eq_getLast _ (List.cons_ne_nil j pre2), Option.getD_some,
        releaseLabelId_natCast _ _ (by rw [setNextIndex_length]; exact hil)]
      obtain ⟨f1, f2, f3⟩ := hfacts ((j :: pre2).getLast (List.cons_ne_nil j pre2)) nd.nextIndex
      refine ⟨_, rfl, ?_, ⟨h0, hfind⟩, fun k _ => rfl, f1, f2, f3⟩
      have hlast : (j :: pre2).getLast (List.cons_ne_nil j pre2) ∈ ch sk := by
        rw [hsplit]
        exact List.mem_append_left _ (List.getLast_mem _)
      exact wf_remove s ch hw sk _ _ i nd.nextIndex _ h0 hlast himem hsub hnodup1
        (fun k _ => rfl) hfind (chain_unlink i post nd hnd (List.cons_ne_nil j pre2) hc hnodup)

/-- When the key is in the map and no node of its list holds `p`, the removal
returns and changes nothing. -/
theorem remove_absent (s : SecondaryIndex) (ch : String → List Nat) (hw : WellFormedWith s ch)
    (sk p : String) (h : Int) (hk : mapFind s.secondaryIndexMap sk = some h)
    (hp : p ∉ (ch sk).map (keyAt s.primaryKeyList)) :
    removePrimaryKeyFromSecondaryNode s sk p = some s := by
  have hc := hw.chain sk h hk
  have hcl : (ch sk).length ≤ s.primaryKeyList.length :=
    nodup_length_le (hw.nodup sk) (chain_lt hc)
  unfold removePrimaryKeyFromSecondaryNode
  simp only [hk]
  rw [removeLoop_absent sk p _ _ _ h hc
    (fun i hi e => hp (List.mem_map.2 ⟨i, hi, e⟩)) (Nat.lt_succ_of_le hcl)]

end SecondaryIndex

namespace SecondaryIndex

/-- The simulation between a state and the active keys `a`: the state is well
formed and the list of every secondary key holds the keys `a` gives it. -/
theorem sim_step (s : SecondaryIndex) (ch : String → List Nat) (a : String → List String)
    (hw : WellFormedWith s ch) (hkeys : ∀ k, (ch k).map (keyAt s.primaryKeyList) = a k)
    (hlen : s.primaryKeyList.length ≤ 2147483647) (op : Op) (hadm : Admissible [op] a) :
    ∃ s1 ch1, step s op = some s1 ∧ WellFormedWith s1 ch1 ∧
      (∀ k, (ch1 k).map (keyAt s1.primaryKeyList) = activeStep a op k) ∧
      s1.primaryKeyList.length ≤ s.primaryKeyList.length + 1 ∧
      (∀ k, (mapFind s.secondaryIndexMap k).isSome → (mapFind s1.secondaryIndexMap k).isSome) ∧
      (∀ k, k ∈ addedKeys [op] → (mapFind s1.secondaryIndexMap k).isSome) := by
  cases op with
  | add sk pk =>
    obtain ⟨s1, f, hrun, hw1, ⟨h1, hsk⟩, hother, hkf, hkeep, hlen1⟩ := add_spec s ch hw hlen sk pk
    refine ⟨s1, _, hrun, hw1, ?_, hlen1, ?_, ?_⟩
    · intro k
      have hmap : ∀ k1, (ch k1).map (keyAt s1.primaryKeyList) = a k1 := by
        intro k1
        rw [← hkeys k1]
        exact List.map_congr_left (fun i hi => hkeep k1 i hi)
      by_cases hk : k = sk
      · subst hk
        simp only [activeStep, Function.update_same, List.map_append, List.map_cons, List.map_nil,
          hkf, hmap]
      · simp only [activeStep, Function.update_noteq hk, hmap]
    · intro k hk
      by_cases hks : k = sk
      · subst hks
        simp [hsk]
      · rw [hother k hks]
        exact hk
    · intro k hk
      simp only [addedKeys, List.mem_singleton] at hk
      subst hk
      simp [hsk]
  | remove sk pk =>
    have hin : pk ∈ (ch sk).map (keyAt s.primaryKeyList) := by
      rw [hkeys sk]
      exact hadm.1
    obtain ⟨pre, i, post, hsplit, hi, hpre⟩ := split_first s.primaryKeyList pk (ch sk) hin
    obtain ⟨s1, hrun, hw1, ⟨h1, hsk⟩, hother, _, hkeep, hlen1⟩ :=
      remove_spec s ch hw sk pk pre i post hsplit hi hpre
    have hnodup : (pre ++ i :: post).Nodup := hsplit ▸ hw.nodup sk
    refine ⟨s1, _, hrun, hw1, ?_, by omega, ?_, ?_⟩
    · intro k
      by_cases hk : k = sk
      · subst hk
        simp only [activeStep, Function.update_same]
        rw [← hkeys k, hsplit, erase_split _ pk pre i post hi hpre]
        apply List.map_congr_left
        intro j hj
        apply hkeep
        intro e
        subst e
        have := List.nodup_middle.1 hnodup
        exact (List.nodup_cons.1 this).1 hj
      · simp only [activeStep, Function.update_noteq hk]
        rw [← hkeys k]
        apply List.map_congr_left
        intro j hj
        apply hkeep
        intro e
        subst e
        exact hw.disjoint k sk hk j hj (by rw [hsplit]; simp)
    · intro k hk
      by_cases hks : k = sk
      · subst hks
        simp [hsk]
      · rw [hother k hks]
        exact hk
    · intro k hk
      simp [addedKeys] at hk

theorem activeStep_nodup (a : String → List String) (hnd : ∀ k, (a k).Nodup) (op : Op)
    (hadm : Admissible [op] a) : ∀ k, (activeStep a op k).Nodup := by
  intro k
  cases op with
  | add sk pk =>
    by_cases hk : k = sk
    · subst hk
      simp only [activeStep, Function.update_same]
      exact List.Nodup.append (hnd k) (List.nodup_singleton pk)
        (by intro x hx hy; rw [List.mem_singleton] at hy; subst hy; exact hadm.1 hx)
    · simp only [activeStep, Function.update_noteq hk]
      exact hnd k
  | remove sk pk =>
    by_cases hk : k = sk
    · subst hk
      simp only [activeStep, Function.update_same]
      exact (hnd k).erase pk
    · simp only [activeStep, Function.update_noteq hk]
      exact hnd k

theorem activeStep_mem (a : String → List String) (op : Op) (k pk : String)
    (h : pk ∈ activeStep a op k) : pk ∈ a k ∨ op = Op.add k pk := by
  cases op with
  | add sk p =>
    by_cases hk : k = sk
    · subst hk
      simp only [activeStep, Function.update_same, List.mem_append, List.mem_singleton] at h
      rcases h with h | h
      · exact Or.inl h
      · subst h
        exact Or.inr rfl
    · simp only [activeStep, Function.update_noteq hk] at h
      exact Or.inl h
  | remove sk p =>
    by_cases hk : k = sk
    · subst hk
      simp only [activeStep, Function.update_same] at h
      exact Or.inl (List.mem_of_mem_erase h)
    · simp only [activeStep, Function.update_noteq hk] at h
      exact Or.inl h

theorem admissible_head (op : Op) (ops : List Op) (a : String → List String)
    (h : Admissible (op :: ops) a) : Admissible [op] a ∧ Admissible ops (activeStep a op) := by
  cases op with
  | add sk pk => exact ⟨⟨h.1, trivial⟩, h.2⟩
  | remove sk pk => exact ⟨⟨h.1, trivial⟩, h.2⟩

theorem addedKeys_cons (op : Op) (ops : List Op) (k : String) (h : k ∈ addedKeys (op :: ops)) :
    k ∈ addedKeys [op] ∨ k ∈ addedKeys ops := by
  cases op with
  | add sk pk =>
    simp only [addedKeys, List.mem_cons] at h
    rcases h with h | h
    · exact Or.inl (by simp [addedKeys, h])
    · exact Or.inr h
  | remove sk pk => exact Or.inr h

theorem sim_run : ∀ (ops : List Op) (s : SecondaryIndex) (ch : String → List Nat)
    (a : String → List String), WellFormedWith s ch →
    (∀ k, (ch k).map (keyAt s.primaryKeyList) = a k) → (∀ k, (a k).Nodup) →
    s.primaryKeyList.length + ops.length ≤ 2147483648 → Admissible ops a →
    ∃ st ch1, run ops s = some st ∧ WellFormedWith st ch1 ∧
      (∀ k, (ch1 k).map (keyAt st.primaryKeyList) = activeAfter ops a k) ∧
      (∀ k, (activeAfter ops a k).Nodup) ∧
      (∀ k, (mapFind s.secondaryIndexMap k).isSome ∨ k ∈ addedKeys ops →
        (mapFind st.secondaryIndexMap k).isSome) ∧
      (∀ k pk, pk ∈ activeAfter ops a k → pk ∈ a k ∨ Op.add k pk ∈ ops) := by
  intro ops
  induction ops with
  | nil =>
    intro s ch a hw hkeys hnd _ _
    refine ⟨s, ch, rfl, hw, hkeys, hnd, ?_, fun k pk h => Or.inl h⟩
    intro k hk
    rcases hk with hk | hk
    · exact hk
    · simp [addedKeys] at hk
  | cons op ops ih =>
    intro s ch a hw hkeys hnd hlen hadm
    obtain ⟨hadm1, hadm2⟩ := admissible_head op ops a hadm
    simp only [List.length_cons] at hlen
    obtain ⟨s1, ch1, hstep, hw1, hkeys1, hlen1, hmono, hadd⟩ :=
      sim_step s ch a hw hkeys (by omega) op hadm1
    obtain ⟨st, ch2, hrun, hw2, hkeys2, hnd2, hmono2, hmem2⟩ :=
      ih s1 ch1 (activeStep a op) hw1 hkeys1 (activeStep_nodup a hnd op hadm1) (by omega) hadm2
    refine ⟨st, ch2, ?_, hw2, hkeys2, hnd2, ?_, ?_⟩
    · simp only [run, hstep]
      exact hrun
    · intro k hk
      apply hmono2
      rcases hk with hk | hk
      · exact Or.inl (hmono k hk)
      · rcases addedKeys_cons op ops k hk with hk | hk
        · exact Or.inl (hadd k hk)
        · exact Or.inr hk
    · intro k pk hpk
      rcases hmem2 k pk hpk with h | h
      · rcases activeStep_mem a op k pk h with h | h
        · exact Or.inl h
        · exact Or.inr (h ▸ List.mem_cons_self _ _)
      · exact Or.inr (List.mem_cons_of_mem _ h)

theorem wf_empty : WellFormedWith empty (fun _ => []) :=
  ⟨fun k h hk => by simp [empty, mapFind] at hk, fun _ _ => rfl, fun _ => List.nodup_nil,
    fun _ _ _ i hi => by simp at hi⟩

end SecondaryIndex

namespace SecondaryIndex

theorem wellFormed_empty : WellFormed empty := ⟨_, wf_empty⟩

theorem wellFormed_add (s : SecondaryIndex) (hw : WellFormed s)
    (hlen : s.primaryKeyList.length ≤ 2147483647) (sk p : String) (s1 : SecondaryIndex)
    (h : addPrimaryKeyToSecondaryNode s sk p = some s1) : WellFormed s1 := by
  obtain ⟨ch, hch⟩ := hw
  obtain ⟨s2, f, hrun, hw2, _⟩ := add_spec s ch hch hlen sk p
  rw [h] at hrun
  injection hrun with hrun
  subst hrun
  exact ⟨_, hw2⟩

/-- A small well-formed index: `Smith` heads the list `01, 02`, `Jones` the
list `03`. -/
theorem wellFormed_example :
    WellFormed ⟨[("Jones", 2), ("Smith", 0)], [⟨"01", "1"⟩, ⟨"02", "-1"⟩, ⟨"03", "-1"⟩]⟩ :=
  wellFormed_add _ (wellFormed_add _ (wellFormed_add _ wellFormed_empty (by decide) "Smith" "01"
    ⟨[("Smith", 0)], [⟨"01", "-1"⟩]⟩ (by decide)) (by decide) "Smith" "02"
    ⟨[("Smith", 0)], [⟨"01", "1"⟩, ⟨"02", "-1"⟩]⟩ (by decide)) (by decide) "Jones" "03" _ (by decide)

end SecondaryIndex

/-! ## The claims on the secondary index -/

/-- C5, evaluated on the code: after `addPrimaryKeyToSecondaryNode("Smith", "01")`
on the empty index, `getPrimaryKeysBySecondaryKey("Jones")` for the key `Jones`
that was never added does not return the empty sequence. `operator[]` inserts
`Jones` with head `0`, and the walk from node `0` returns `01`, the primary
key stored under `Smith`. -/
theorem SecondaryIndex.lookup_unseen_key_not_empty :
    (SecondaryIndex.addPrimaryKeyToSecondaryNode SecondaryIndex.empty "Smith" "01").bind
        (fun s => SecondaryIndex.getPrimaryKeysBySecondaryKey s "Jones")
      = some (⟨[("Jones", 0), ("Smith", 0)], [⟨"01", "-1"⟩]⟩, ["01"]) := by
  decide

/-- C6: for every sequence of additions and removals on the empty secondary
index in which a pair is added only while absent and removed only while
present, all calls return, and for every secondary key `sk` that was added at
least once `getPrimaryKeysBySecondaryKey(sk)` returns exactly the primary keys
added under `sk` and not removed since, in the order they were added
(`active ops sk`), without duplicates; every entry returned is a primary key
that was added under `sk`, so the `"##"` of a freed node is never returned.
The number of requests is below `2^31`, so that node indexes fit an `int`. -/
theorem SecondaryIndex.lookupAll_after_requests (ops : List SecondaryIndex.Op)
    (hadm : SecondaryIndex.Admissible ops (fun _ => []))
    (hsize : ops.length < 2147483648) :
    ∃ st, SecondaryIndex.run ops SecondaryIndex.empty = some st ∧
      ∀ sk, sk ∈ SecondaryIndex.addedKeys ops →
        SecondaryIndex.getPrimaryKeysBySecondaryKey st sk
            = some (st, SecondaryIndex.active ops sk) ∧
          (SecondaryIndex.active ops sk).Nodup ∧
          ∀ pk ∈ SecondaryIndex.active ops sk, SecondaryIndex.Op.add sk pk ∈ ops := by
  obtain ⟨st, ch, hrun, hw, hkeys, hnd, hmap, hmem⟩ :=
    SecondaryIndex.sim_run ops SecondaryIndex.empty (fun _ => []) (fun _ => [])
      SecondaryIndex.wf_empty (fun _ => rfl) (fun _ => List.nodup_nil)
      (by simp [SecondaryIndex.empty]; omega) hadm
  refine ⟨st, hrun, ?_⟩
  intro sk hsk
  have hin := hmap sk (Or.inr hsk)
  obtain ⟨h, hh⟩ := Option.isSome_iff_exists.1 hin
  refine ⟨?_, hnd sk, ?_⟩
  · rw [SecondaryIndex.get_spec st ch hw sk h hh, hkeys sk]
    rfl
  · intro pk hpk
    rcases hmem sk pk hpk with h1 | h1
    · simp at h1
    · exact h1

theorem SecondaryIndex.lookupAll_after_requests_witness :
    SecondaryIndex.Admissible
        [SecondaryIndex.Op.add "Smith" "01", SecondaryIndex.Op.add "Smith" "02",
         SecondaryIndex.Op.add "Jones" "03", SecondaryIndex.Op.remove "Smith" "01"]
        (fun _ => []) ∧
      ∃ st, SecondaryIndex.run
          [SecondaryIndex.Op.add "Smith" "01", SecondaryIndex.Op.add "Smith" "02",
           SecondaryIndex.Op.add "Jones" "03", SecondaryIndex.Op.remove "Smith" "01"]
          SecondaryIndex.empty = some st ∧
        ∀ sk, sk ∈ SecondaryIndex.addedKeys
            [SecondaryIndex.Op.add "Smith" "01", SecondaryIndex.Op.add "Smith" "02",
             SecondaryIndex.Op.add "Jones" "03", SecondaryIndex.Op.remove "Smith" "01"] →
          SecondaryIndex.getPrimaryKeysBySecondaryKey st sk
              = some (st, SecondaryIndex.active
                [SecondaryIndex.Op.add "Smith" "01", SecondaryIndex.Op.add "Smith" "02",
                 SecondaryIndex.Op.add "Jones" "03", SecondaryIndex.Op.remove "Smith" "01"] sk) ∧
            (SecondaryIndex.active
                [SecondaryIndex.Op.add "Smith" "01", SecondaryIndex.Op.add "Smith" "02",
                 SecondaryIndex.Op.add "Jones" "03", SecondaryIndex.Op.remove "Smith" "01"]
                sk).Nodup ∧
            ∀ pk ∈ SecondaryIndex.active
                [SecondaryIndex.Op.add "Smith" "01", SecondaryIndex.Op.add "Smith" "02",
                 SecondaryIndex.Op.add "Jones" "03", SecondaryIndex.Op.remove "Smith" "01"] sk,
              SecondaryIndex.Op.add sk pk ∈
                [SecondaryIndex.Op.add "Smith" "01", SecondaryIndex.Op.add "Smith" "02",
                 SecondaryIndex.Op.add "Jones" "03", SecondaryIndex.Op.remove "Smith" "01"] :=
  ⟨⟨by decide, by decide, by decide, by decide, trivial⟩,
    SecondaryIndex.lookupAll_after_requests _
      ⟨by decide, by decide, by decide, by decide, trivial⟩ (by decide)⟩

/-- C7: on a well-formed secondary index `addPrimaryKeyToSecondaryNode(sk, p)`
returns; when `sk` is in the map, `getPrimaryKeysBySecondaryKey(sk)` afterwards
is the sequence it returned before with `p` appended at the end; when `sk` was
not in the map it is the one-element sequence `[p]`. The vector holds at most
`2^31 - 1` nodes, so that the new index fits an `int`. -/
theorem SecondaryIndex.add_appends_at_tail (s : SecondaryIndex) (hw : SecondaryIndex.WellFormed s)
    (hlen : s.primaryKeyList.length ≤ 2147483647) (sk p : String) :
    ∃ s1, SecondaryIndex.addPrimaryKeyToSecondaryNode s sk p = some s1 ∧
      (∀ h, SecondaryIndex.mapFind s.secondaryIndexMap sk = some h →
        ∃ before, SecondaryIndex.getPrimaryKeysBySecondaryKey s sk = some (s, before) ∧
          SecondaryIndex.getPrimaryKeysBySecondaryKey s1 sk = some (s1, before ++ [p])) ∧
      (SecondaryIndex.mapFind s.secondaryIndexMap sk = none →
        SecondaryIndex.getPrimaryKeysBySecondaryKey s1 sk = some (s1, [p])) := by
  obtain ⟨ch, hch⟩ := hw
  obtain ⟨s1, f, hrun, hw1, ⟨h1, hsk⟩, _, hkf, hkeep, _⟩ :=
    SecondaryIndex.add_spec s ch hch hlen sk p
  have hget1 := SecondaryIndex.get_spec s1 _ hw1 sk h1 hsk
  rw [Function.update_same, List.map_append, List.map_cons, List.map_nil, hkf,
    List.map_congr_left (fun i hi => hkeep sk i hi)] at hget1
  refine ⟨s1, hrun, ?_, ?_⟩
  · intro h hh
    exact ⟨_, SecondaryIndex.get_spec s ch hch sk h hh, hget1⟩
  · intro hnone
    rw [hch.absent sk hnone] at hget1
    exact hget1

theorem SecondaryIndex.add_appends_at_tail_witness :
    SecondaryIndex.WellFormed
        ⟨[("Jones", 2), ("Smith", 0)], [⟨"01", "1"⟩, ⟨"02", "-1"⟩, ⟨"03", "-1"⟩]⟩ ∧
      ∃ s1, SecondaryIndex.addPrimaryKeyToSecondaryNode
          ⟨[("Jones", 2), ("Smith", 0)], [⟨"01", "1"⟩, ⟨"02", "-1"⟩, ⟨"03", "-1"⟩]⟩
          "Smith" "04" = some s1 ∧
        (∀ h, SecondaryIndex.mapFind [("Jones", 2), ("Smith", 0)] "Smith" = some h →
          ∃ before, SecondaryIndex.getPrimaryKeysBySecondaryKey
              ⟨[("Jones", 2), ("Smith", 0)], [⟨"01", "1"⟩, ⟨"02", "-1"⟩, ⟨"03", "-1"⟩]⟩ "Smith"
              = some (⟨[("Jones", 2), ("Smith", 0)],
                  [⟨"01", "1"⟩, ⟨"02", "-1"⟩, ⟨"03", "-1"⟩]⟩, before) ∧
            SecondaryIndex.getPrimaryKeysBySecondaryKey s1 "Smith"
              = some (s1, before ++ ["04"])) ∧
        (SecondaryIndex.mapFind [("Jones", 2), ("Smith", 0)] "Smith" = none →
          SecondaryIndex.getPrimaryKeysBySecondaryKey s1 "Smith" = some (s1, ["04"])) :=
  ⟨SecondaryIndex.wellFormed_example,
    SecondaryIndex.add_appends_at_tail _ SecondaryIndex.wellFormed_example (by decide)
      "Smith" "04"⟩

/-- C8: on a well-formed secondary index in which `p` occurs in the sequence
`before` that `getPrimaryKeysBySecondaryKey(sk)` returns,
`removePrimaryKeyFromSecondaryNode(sk, p)` returns, the lookup afterwards gives
`before` with the first occurrence of `p` deleted and the other keys in
unchanged order, and the node `i` that held `p` is free afterwards (primary key
and next index both `"##"`); no other node changes its primary key. -/
theorem SecondaryIndex.remove_unlinks_first (s : SecondaryIndex)
    (hw : SecondaryIndex.WellFormed s) (sk p : String) (h : Int) (before : List String)
    (hk : SecondaryIndex.mapFind s.secondaryIndexMap sk = some h)
    (hget : SecondaryIndex.getPrimaryKeysBySecondaryKey s sk = some (s, before))
    (hp : p ∈ before) :
    ∃ s1 i, SecondaryIndex.removePrimaryKeyFromSecondaryNode s sk p = some s1 ∧
      SecondaryIndex.getPrimaryKeysBySecondaryKey s1 sk = some (s1, before.erase p) ∧
      (∃ nd, s.primaryKeyList[i]? = some nd ∧ nd.primaryKey = p ∧ nd.nextIndex ≠ "##") ∧
      s1.primaryKeyList[i]? = some ⟨"##", "##"⟩ ∧
      (∀ j, j ≠ i → SecondaryIndex.keyAt s1.primaryKeyList j
        = SecondaryIndex.keyAt s.primaryKeyList j) := by
  obtain ⟨ch, hch⟩ := hw
  have hget0 := SecondaryIndex.get_spec s ch hch sk h hk
  rw [hget] at hget0
  injection hget0 with hget0
  injection hget0 with _ hbefore
  subst hbefore
  obtain ⟨pre, i, post, hsplit, hi, hpre⟩ :=
    SecondaryIndex.split_first s.primaryKeyList p (ch sk) hp
  obtain ⟨s1, hrun, hw1, ⟨h1, hsk⟩, _, hfree, hkeep, _⟩ :=
    SecondaryIndex.remove_spec s ch hch sk p pre i post hsplit hi hpre
  have hnodup : (pre ++ i :: post).Nodup := hsplit ▸ hch.nodup sk
  have hget1 := SecondaryIndex.get_spec s1 _ hw1 sk h1 hsk
  rw [Function.update_same] at hget1
  have hkeys : (pre ++ post).map (SecondaryIndex.keyAt s1.primaryKeyList)
      = ((ch sk).map (SecondaryIndex.keyAt s.primaryKeyList)).erase p := by
    rw [hsplit, SecondaryIndex.erase_split _ p pre i post hi hpre]
    apply List.map_congr_left
    intro j hj
    apply hkeep
    intro e
    subst e
    exact (List.nodup_cons.1 (List.nodup_middle.1 hnodup)).1 hj
  rw [hkeys] at hget1
  obtain ⟨nd, hnd, hs⟩ := SecondaryIndex.chain_stoi (hch.chain sk h hk) i (by rw [hsplit]; simp)
  refine ⟨s1, i, hrun, hget1, ⟨nd, hnd, ?_, ?_⟩, hfree, hkeep⟩
  · rw [← SecondaryIndex.keyAt_eq_of_getElem? hnd]
    exact hi
  · intro e
    rw [e, stoi_free] at hs
    simp at hs

theorem SecondaryIndex.remove_unlinks_first_witness :
    SecondaryIndex.WellFormed
        ⟨[("Jones", 2), ("Smith", 0)], [⟨"01", "1"⟩, ⟨"02", "-1"⟩, ⟨"03", "-1"⟩]⟩ ∧
      ∃ s1 i, SecondaryIndex.removePrimaryKeyFromSecondaryNode
          ⟨[("Jones", 2), ("Smith", 0)], [⟨"01", "1"⟩, ⟨"02", "-1"⟩, ⟨"03", "-1"⟩]⟩
          "Smith" "02" = some s1 ∧
        SecondaryIndex.getPrimaryKeysBySecondaryKey s1 "Smith"
          = some (s1, ["01", "02"].erase "02") ∧
        (∃ nd, ([⟨"01", "1"⟩, ⟨"02", "-1"⟩, ⟨"03", "-1"⟩] : List PrimaryKeyNode)[i]? = some nd ∧
          nd.primaryKey = "02" ∧ nd.nextIndex ≠ "##") ∧
        s1.primaryKeyList[i]? = some ⟨"##", "##"⟩ ∧
        (∀ j, j ≠ i → SecondaryIndex.keyAt s1.primaryKeyList j
          = SecondaryIndex.keyAt [⟨"01", "1"⟩, ⟨"02", "-1"⟩, ⟨"03", "-1"⟩] j) :=
  ⟨SecondaryIndex.wellFormed_example,
    SecondaryIndex.remove_unlinks_first _ SecondaryIndex.wellFormed_example "Smith" "02" 0
      ["01", "02"] (by decide) (by decide) (by decide)⟩

/-- C9: `removePrimaryKeyFromSecondaryNode(sk, p)` returns and leaves the map
and the node vector unchanged when `sk` is not in the map, when the head of
`sk` is `-1`, and, on a well-formed index, when `p` does not occur in the
sequence that the lookup of `sk` returns. -/
theorem SecondaryIndex.remove_not_found_unchanged (s : SecondaryIndex) (sk p : String)
    (h : SecondaryIndex.mapFind s.secondaryIndexMap sk = none ∨
      SecondaryIndex.mapFind s.secondaryIndexMap sk = some (-1) ∨
      (SecondaryIndex.WellFormed s ∧ ∃ h before,
        SecondaryIndex.mapFind s.secondaryIndexMap sk = some h ∧
        SecondaryIndex.getPrimaryKeysBySecondaryKey s sk = some (s, before) ∧ p ∉ before)) :
    SecondaryIndex.removePrimaryKeyFromSecondaryNode s sk p = some s := by
  rcases h with h | h | ⟨⟨ch, hch⟩, h, before, hk, hget, hp⟩
  · unfold SecondaryIndex.removePrimaryKeyFromSecondaryNode
    simp only [h]
  · unfold SecondaryIndex.removePrimaryKeyFromSecondaryNode
    simp only [h]
    unfold SecondaryIndex.removeLoop
    simp
  · have hget0 := SecondaryIndex.get_spec s ch hch sk h hk
    rw [hget] at hget0
    injection hget0 with hget0
    injection hget0 with _ hbefore
    subst hbefore
    exact SecondaryIndex.remove_absent s ch hch sk p h hk hp

theorem SecondaryIndex.remove_not_found_unchanged_witness :
    (SecondaryIndex.mapFind [("Jones", 2), ("Smith", 0)] "Smith" = none ∨
      SecondaryIndex.mapFind [("Jones", 2), ("Smith", 0)] "Smith" = some (-1) ∨
      (SecondaryIndex.WellFormed
          ⟨[("Jones", 2), ("Smith", 0)], [⟨"01", "1"⟩, ⟨"02", "-1"⟩, ⟨"03", "-1"⟩]⟩ ∧
        ∃ h before, SecondaryIndex.mapFind [("Jones", 2), ("Smith", 0)] "Smith" = some h ∧
          SecondaryIndex.getPrimaryKeysBySecondaryKey
            ⟨[("Jones", 2), ("Smith", 0)], [⟨"01", "1"⟩, ⟨"02", "-1"⟩, ⟨"03", "-1"⟩]⟩ "Smith"
            = some (⟨[("Jones", 2), ("Smith", 0)],
                [⟨"01", "1"⟩, ⟨"02", "-1"⟩, ⟨"03", "-1"⟩]⟩, before) ∧
          "07" ∉ before)) ∧
      SecondaryIndex.removePrimaryKeyFromSecondaryNode
          ⟨[("Jones", 2), ("Smith", 0)], [⟨"01", "1"⟩, ⟨"02", "-1"⟩, ⟨"03", "-1"⟩]⟩ "Smith" "07"
        = some ⟨[("Jones", 2), ("Smith", 0)], [⟨"01", "1"⟩, ⟨"02", "-1"⟩, ⟨"03", "-1"⟩]⟩ :=
  ⟨Or.inr (Or.inr ⟨SecondaryIndex.wellFormed_example, 0, ["01", "02"], by decide, by decide,
      by decide⟩),
    SecondaryIndex.remove_not_found_unchanged _ "Smith" "07"
      (Or.inr (Or.inr ⟨SecondaryIndex.wellFormed_example, 0, ["01", "02"], by decide, by decide,
        by decide⟩))⟩

/-- C10: on a well-formed secondary index in which the list of `sk` holds
exactly one node, with primary key `p`, `removePrimaryKeyFromSecondaryNode(sk, p)`
returns, `sk` is still a key of the map, now with head `-1`, and the lookup of
`sk` afterwards returns the empty sequence. -/
theorem SecondaryIndex.remove_last_node_keeps_key (s : SecondaryIndex)
    (hw : SecondaryIndex.WellFormed s) (sk p : String) (h : Int)
    (hk : SecondaryIndex.mapFind s.secondaryIndexMap sk = some h)
    (hget : SecondaryIndex.getPrimaryKeysBySecondaryKey s sk = some (s, [p])) :
    ∃ s1, SecondaryIndex.removePrimaryKeyFromSecondaryNode s sk p = some s1 ∧
      SecondaryIndex.mapFind s1.secondaryIndexMap sk = some (-1) ∧
      SecondaryIndex.getPrimaryKeysBySecondaryKey s1 sk = some (s1, []) := by
  obtain ⟨ch, hch⟩ := hw
  have hget0 := SecondaryIndex.get_spec s ch hch sk h hk
  rw [hget] at hget0
  injection hget0 with hget0
  injection hget0 with _ hbefore
  obtain ⟨i, hci, hi⟩ : ∃ i, ch sk = [i] ∧ SecondaryIndex.keyAt s.primaryKeyList i = p := by
    cases hc : ch sk with
    | nil => rw [hc] at hbefore; simp at hbefore
    | cons i rest =>
      rw [hc] at hbefore
      simp only [List.map_cons, List.cons.injEq] at hbefore
      have hrest : rest = [] := List.map_eq_nil_iff.1 hbefore.2.symm
      exact ⟨i, by rw [hrest], hbefore.1.symm⟩
  obtain ⟨s1, hrun, hw1, ⟨h1, hsk⟩, _⟩ :=
    SecondaryIndex.remove_spec s ch hch sk p [] i [] hci hi (by simp)
  have hget1 := SecondaryIndex.get_spec s1 _ hw1 sk h1 hsk
  have hc1 := hw1.chain sk h1 hsk
  rw [Function.update_same] at hget1 hc1
  have hh1 : h1 = -1 := hc1
  subst hh1
  exact ⟨s1, hrun, hsk, hget1⟩

theorem SecondaryIndex.remove_last_node_keeps_key_witness :
    SecondaryIndex.WellFormed
        ⟨[("Jones", 2), ("Smith", 0)], [⟨"01", "1"⟩, ⟨"02", "-1"⟩, ⟨"03", "-1"⟩]⟩ ∧
      ∃ s1, SecondaryIndex.removePrimaryKeyFromSecondaryNode
          ⟨[("Jones", 2), ("Smith", 0)], [⟨"01", "1"⟩, ⟨"02", "-1"⟩, ⟨"03", "-1"⟩]⟩
          "Jones" "03" = some s1 ∧
        SecondaryIndex.mapFind s1.secondaryIndexMap "Jones" = some (-1) ∧
        SecondaryIndex.getPrimaryKeysBySecondaryKey s1 "Jones" = some (s1, []) :=
  ⟨SecondaryIndex.wellFormed_example,
    SecondaryIndex.remove_last_node_keeps_key _ SecondaryIndex.wellFormed_example "Jones" "03" 2
      (by decide) (by decide)⟩

/-! ## Binary search on the primary index -/

namespace PrimaryIndex

theorem strLt_asymm {a b : String} (h : strLt a b) : ¬ strLt b a := by
  unfold strLt at *
  exact lt_asymm h

theorem strLt_of_le_ne {a b : String} (h1 : ¬ strLt b a) (h2 : a ≠ b) : strLt a b := by
  unfold strLt at *
  refine lt_of_le_of_ne (not_lt.1 h1) ?_
  intro e
  apply h2
  cases a
  cases b
  simp only at e
  rw [e]

/-- In an index that is ordered and has pairwise distinct keys, the keys grow
strictly with the position. -/
theorem strict_of_sorted_nodup (idx : PrimaryIndex) (hs : SortedByKey idx)
    (hd : (keys idx).Nodup) :
    idx.Pairwise (fun a b => strLt a.primaryKey b.primaryKey) := by
  have hne : idx.Pairwise (fun a b => a.primaryKey ≠ b.primaryKey) := List.pairwise_map.1 hd
  exact (List.Pairwise.and hs hne).imp (fun h => strLt_of_le_ne h.1 h.2)

theorem strict_getElem {idx : PrimaryIndex}
    (hst : idx.Pairwise (fun a b => strLt a.primaryKey b.primaryKey)) (a b : Nat)
    (ha : a < idx.length) (hb : b < idx.length) (hab : a < b) :
    strLt idx[a].primaryKey idx[b].primaryKey :=
  List.pairwise_iff_get.1 hst ⟨a, ha⟩ ⟨b, hb⟩ hab

theorem strLt_irrefl (a : String) : ¬ strLt a a := by
  unfold strLt
  exact lt_irrefl _

theorem searchLoop_found (idx : PrimaryIndex) (k : String)
    (hst : idx.Pairwise (fun a b => strLt a.primaryKey b.primaryKey)) (j : Nat)
    (hj : j < idx.length) (hk : idx[j].primaryKey = k) : ∀ (fuel : Nat) (left right : Int),
    0 ≤ left → right < (idx.length : Int) → left ≤ (j : Int) → (j : Int) ≤ right →
    (right - left + 1).toNat < fuel → searchLoop idx k fuel left right = some idx[j].offset := by
  intro fuel
  induction fuel with
  | zero => intro left right _ _ _ _ hf; omega
  | succ fuel ih =>
    intro left right hl hr hlj hjr hf
    unfold searchLoop
    dsimp only
    rw [if_pos (by omega), if_neg (by omega)]
    have hlt : (left + (right - left) / 2).toNat < idx.length := by omega
    rw [List.getElem?_eq_getElem hlt]
    dsimp only
    by_cases h3 : idx[(left + (right - left) / 2).toNat].primaryKey = k
    · rw [if_pos h3]
      have hmj : (left + (right - left) / 2).toNat = j := by
        by_contra hne
        rcases Nat.lt_or_gt_of_ne hne with h | h
        · have := strict_getElem hst _ _ hlt hj h
          rw [h3, hk] at this
          exact strLt_irrefl _ this
        · have := strict_getElem hst _ _ hj hlt h
          rw [h3, hk] at this
          exact strLt_irrefl _ this
      simp only [hmj]
    · rw [if_neg h3]
      by_cases h4 : strLt k idx[(left + (right - left) / 2).toNat].primaryKey
      · rw [if_pos h4]
        have hjm : j < (left + (right - left) / 2).toNat := by
          by_contra hge
          have hne : (left + (right - left) / 2).toNat ≠ j := fun e => h3 (by simp only [e]; exact hk)
          have := strict_getElem hst _ _ hlt hj (by omega)
          rw [hk] at this
          exact strLt_asymm h4 this
        exact ih _ _ hl (by omega) hlj (by omega) (by omega)
      · rw [if_neg h4]
        have hjm : (left + (right - left) / 2).toNat < j := by
          by_contra hge
          have hne : (left + (right - left) / 2).toNat ≠ j := fun e => h3 (by simp only [e]; exact hk)
          have := strict_getElem hst _ _ hj hlt (by omega)
          rw [hk] at this
          exact h4 this
        exact ih _ _ (by omega) hr (by omega) hjr (by omega)

theorem searchLoop_absent (idx : PrimaryIndex) (k : String)
    (h : ∀ e ∈ idx, e.primaryKey ≠ k) : ∀ (fuel : Nat) (left right : Int),
    0 ≤ left → right < (idx.length : Int) → (right - left + 1).toNat < fuel →
    searchLoop idx k fuel left right = some (-1) := by
  intro fuel
  induction fuel with
  | zero => intro left right _ _ hf; omega
  | succ fuel ih =>
    intro left right hl hr hf
    unfold searchLoop
    dsimp only
    by_cases h1 : left ≤ right
    · rw [if_pos h1, if_neg (by omega)]
      have hlt : (left + (right - left) / 2).toNat < idx.length := by omega
      rw [List.getElem?_eq_getElem hlt]
      dsimp only
      rw [if_neg (h _ (List.getElem_mem _))]
      by_cases h4 : strLt k idx[(left + (right - left) / 2).toNat].primaryKey
      · rw [if_pos h4]
        exact ih _ _ hl (by omega) (by omega)
      · rw [if_neg h4]
        exact ih _ _ (by omega) hr (by omega)
    · rw [if_neg h1]

/-- A key that is not in the index is never found, whatever the order of the
index: the search returns `-1`. -/
theorem binarySearch_absent (idx : PrimaryIndex) (k : String) (h : k ∉ keys idx) :
    binarySearchPrimaryIndex idx k = some (-1) :=
  searchLoop_absent idx k (fun e he hk => h (List.mem_map.2 ⟨e, he, hk⟩)) _ _ _
    (le_refl _) (by omega) (by omega)

/-- In an ordered index with distinct keys the search finds the entry at
position `j`. -/
theorem binarySearch_found (idx : PrimaryIndex) (hs : SortedByKey idx) (hd : (keys idx).Nodup)
    (j : Nat) (hj : j < idx.length) :
    binarySearchPrimaryIndex idx idx[j].primaryKey = some idx[j].offset :=
  searchLoop_found idx _ (strict_of_sorted_nodup idx hs hd) j hj rfl _ _ _
    (le_refl _) (by omega) (by omega) (by omega) (by omega)

theorem removeSearch_found (idx : PrimaryIndex) (k : String)
    (hst : idx.Pairwise (fun a b => strLt a.primaryKey b.primaryKey)) (j : Nat)
    (hj : j < idx.length) (hk : idx[j].primaryKey = k) : ∀ (fuel : Nat) (left right : Int),
    0 ≤ left → right < (idx.length : Int) → left ≤ (j : Int) → (j : Int) ≤ right →
    (right - left + 1).toNat < fuel →
    removeSearch idx k fuel left right = some (sortPrimaryIndex (idx.eraseIdx j)) := by
  intro fuel
  induction fuel with
  | zero => intro left right _ _ _ _ hf; omega
  | succ fuel ih =>
    intro left right hl hr hlj hjr hf
    unfold removeSearch
    dsimp only
    rw [if_pos (by omega), if_neg (by omega)]
    have hlt : (left + (right - left) / 2).toNat < idx.length := by omega
    rw [List.getElem?_eq_getElem hlt]
    dsimp only
    by_cases h3 : idx[(left + (right - left) / 2).toNat].primaryKey = k
    · rw [if_pos h3]
      have hmj : (left + (right - left) / 2).toNat = j := by
        by_contra hne
        rcases Nat.lt_or_gt_of_ne hne with h | h
        · have := strict_getElem hst _ _ hlt hj h
          rw [h3, hk] at this
          exact strLt_irrefl _ this
        · have := strict_getElem hst _ _ hj hlt h
          rw [h3, hk] at this
          exact strLt_irrefl _ this
      rw [hmj]
    · rw [if_neg h3]
      by_cases h4 : strLt idx[(left + (right - left) / 2).toNat].primaryKey k
      · rw [if_pos h4]
        have hjm : (left + (right - left) / 2).toNat < j := by
          by_contra hge
          have hne : (left + (right - left) / 2).toNat ≠ j := fun e => h3 (by simp only [e]; exact hk)
          have := strict_getElem hst _ _ hj hlt (by omega)
          rw [hk] at this
          exact strLt_asymm h4 this
        exact ih _ _ (by omega) hr (by omega) hjr (by omega)
      · rw [if_neg h4]
        have hjm : j < (left + (right - left) / 2).toNat := by
          by_contra hge
          have hne : (left + (right - left) / 2).toNat ≠ j := fun e => h3 (by simp only [e]; exact hk)
          have := strict_getElem hst _ _ hlt hj (by omega)
          rw [hk] at this
          exact h4 this
        exact ih _ _ hl (by omega) hlj (by omega) (by omega)

theorem removeSearch_absent (idx : PrimaryIndex) (k : String)
    (h : ∀ e ∈ idx, e.primaryKey ≠ k) : ∀ (fuel : Nat) (left right : Int),
    0 ≤ left → right < (idx.length : Int) → (right - left + 1).toNat < fuel →
    removeSearch idx k fuel left right = some idx := by
  intro fuel
  induction fuel with
  | zero => intro left right _ _ hf; omega
  | succ fuel ih =>
    intro left right hl hr hf
    unfold removeSearch
    dsimp only
    by_cases h1 : left ≤ right
    · rw [if_pos h1, if_neg (by omega)]
      have hlt : (left + (right - left) / 2).toNat < idx.length := by omega
      rw [List.getElem?_eq_getElem hlt]
      dsimp only
      rw [if_neg (h _ (List.getElem_mem _))]
      by_cases h4 : strLt idx[(left + (right - left) / 2).toNat].primaryKey k
      · rw [if_pos h4]
        exact ih _ _ (by omega) hr (by omega)
      · rw [if_neg h4]
        exact ih _ _ hl (by omega) (by omega)
    · rw [if_neg h1]

/-- A key that is not in the index: `removePrimaryNode` returns the index as
it is, whatever its order. -/
theorem removePrimaryNode_absent (idx : PrimaryIndex) (k : String) (h : k ∉ keys idx) :
    removePrimaryNode idx k = some idx :=
  removeSearch_absent idx k (fun e he hk => h (List.mem_map.2 ⟨e, he, hk⟩)) _ _ _
    (le_refl _) (by omega) (by omega)

/-- In an ordered index with distinct keys `removePrimaryNode` erases the
entry at the position `j` of the key. -/
theorem removePrimaryNode_found (idx : PrimaryIndex) (hs : SortedByKey idx)
    (hd : (keys idx).Nodup) (j : Nat) (hj : j < idx.length) :
    removePrimaryNode idx idx[j].primaryKey = some (idx.eraseIdx j) := by
  have h := removeSearch_found idx _ (strict_of_sorted_nodup idx hs hd) j hj rfl
    (idx.length + 1) 0 ((idx.length : Int) - 1) (le_refl _) (by omega) (by omega) (by omega)
    (by omega)
  have hsorted : SortedByKey (idx.eraseIdx j) := hs.sublist (List.eraseIdx_sublist _ _)
  unfold removePrimaryNode
  rw [h]
  unfold sortPrimaryIndex
  rw [List.Sorted.insertionSort_eq hsorted]

end PrimaryIndex

/-! ## The claims on lookup, insertion and removal in the primary index -/

/-- C11: on a primary index that is ordered by key with pairwise distinct
keys, `binarySearchPrimaryIndex(k)` returns the offset stored with `k` when
`k` is in the index, and `-1` when it is not. -/
theorem PrimaryIndex.binarySearch_correct (idx : PrimaryIndex)
    (hs : PrimaryIndex.SortedByKey idx) (hd : (PrimaryIndex.keys idx).Nodup) (k : String) :
    (∀ e ∈ idx, e.primaryKey = k →
      PrimaryIndex.binarySearchPrimaryIndex idx k = some e.offset) ∧
    (k ∉ PrimaryIndex.keys idx → PrimaryIndex.binarySearchPrimaryIndex idx k = some (-1)) := by
  refine ⟨?_, PrimaryIndex.binarySearch_absent idx k⟩
  intro e he hk
  obtain ⟨j, hj, rfl⟩ := List.getElem_of_mem he
  rw [← hk]
  exact PrimaryIndex.binarySearch_found idx hs hd j hj

theorem PrimaryIndex.binarySearch_correct_witness :
    PrimaryIndex.SortedByKey [⟨"01", 0⟩, ⟨"02", 25⟩, ⟨"03", 48⟩] ∧
    (PrimaryIndex.keys [⟨"01", 0⟩, ⟨"02", 25⟩, ⟨"03", 48⟩]).Nodup ∧
    (∀ e ∈ ([⟨"01", 0⟩, ⟨"02", 25⟩, ⟨"03", 48⟩] : PrimaryIndex), e.primaryKey = "02" →
      PrimaryIndex.binarySearchPrimaryIndex [⟨"01", 0⟩, ⟨"02", 25⟩, ⟨"03", 48⟩] "02"
        = some e.offset) ∧
    ("02" ∉ PrimaryIndex.keys [⟨"01", 0⟩, ⟨"02", 25⟩, ⟨"03", 48⟩] →
      PrimaryIndex.binarySearchPrimaryIndex [⟨"01", 0⟩, ⟨"02", 25⟩, ⟨"03", 48⟩] "02"
        = some (-1)) :=
  ⟨by decide, by decide,
    PrimaryIndex.binarySearch_correct [⟨"01", 0⟩, ⟨"02", 25⟩, ⟨"03", 48⟩] (by decide) (by decide)
      "02"⟩

/-- C12: for every primary index and every pair (key, offset),
`addPrimaryNode(key, offset)` yields an index that is ordered by key and whose
entries are the previous entries and the new pair, each as often as before. -/
theorem PrimaryIndex.addPrimaryNode_sorted_perm (idx : PrimaryIndex) (primaryKey : String)
    (offset : Int) :
    PrimaryIndex.SortedByKey (PrimaryIndex.addPrimaryNode idx primaryKey offset) ∧
    (PrimaryIndex.addPrimaryNode idx primaryKey offset).Perm (idx ++ [⟨primaryKey, offset⟩]) :=
  ⟨PrimaryIndex.sortPrimaryIndex_sorted _, PrimaryIndex.sortPrimaryIndex_perm _⟩

/-- C13: on a primary index that is ordered by key with pairwise distinct
keys, `removePrimaryNode(k)` returns; when `k` is the key at position `j` the
result is the index without the entry at `j`, the other entries in their
order: it is ordered, `k` is no longer a key and every entry with another key
is still there; when `k` is not a key the index is unchanged. -/
theorem PrimaryIndex.removePrimaryNode_spec (idx : PrimaryIndex)
    (hs : PrimaryIndex.SortedByKey idx) (hd : (PrimaryIndex.keys idx).Nodup) (k : String) :
    (∀ j (hj : j < idx.length), idx[j].primaryKey = k →
      PrimaryIndex.removePrimaryNode idx k = some (idx.eraseIdx j) ∧
      PrimaryIndex.SortedByKey (idx.eraseIdx j) ∧
      k ∉ PrimaryIndex.keys (idx.eraseIdx j) ∧
      ∀ e ∈ idx, e.primaryKey ≠ k → e ∈ idx.eraseIdx j) ∧
    (k ∉ PrimaryIndex.keys idx → PrimaryIndex.removePrimaryNode idx k = some idx) := by
  refine ⟨?_, PrimaryIndex.removePrimaryNode_absent idx k⟩
  intro j hj hk
  have hst := PrimaryIndex.strict_of_sorted_nodup idx hs hd
  refine ⟨?_, hs.sublist (List.eraseIdx_sublist _ _), ?_, ?_⟩
  · rw [← hk]
    exact PrimaryIndex.removePrimaryNode_found idx hs hd j hj
  · intro hmem
    obtain ⟨e, he, hek⟩ := List.mem_map.1 hmem
    obtain ⟨i, hi, hij, rfl⟩ := List.mem_eraseIdx_iff_getElem.1 he
    rcases Nat.lt_or_gt_of_ne hij with h | h
    · have := PrimaryIndex.strict_getElem hst i j hi hj h
      rw [hek, hk] at this
      exact PrimaryIndex.strLt_irrefl _ this
    · have := PrimaryIndex.strict_getElem hst j i hj hi h
      rw [hek, hk] at this
      exact PrimaryIndex.strLt_irrefl _ this
  · intro e he hne
    obtain ⟨i, hi, rfl⟩ := List.getElem_of_mem he
    refine List.mem_eraseIdx_iff_getElem.2 ⟨i, hi, ?_, rfl⟩
    intro e
    subst e
    exact hne hk

theorem PrimaryIndex.removePrimaryNode_spec_witness :
    PrimaryIndex.SortedByKey [⟨"01", 0⟩, ⟨"02", 25⟩, ⟨"03", 48⟩] ∧
    (PrimaryIndex.keys [⟨"01", 0⟩, ⟨"02", 25⟩, ⟨"03", 48⟩]).Nodup ∧
    (∀ j (hj : j < ([⟨"01", 0⟩, ⟨"02", 25⟩, ⟨"03", 48⟩] : PrimaryIndex).length),
      ([⟨"01", 0⟩, ⟨"02", 25⟩, ⟨"03", 48⟩] : PrimaryIndex)[j].primaryKey = "02" →
      PrimaryIndex.removePrimaryNode [⟨"01", 0⟩, ⟨"02", 25⟩, ⟨"03", 48⟩] "02"
        = some (([⟨"01", 0⟩, ⟨"02", 25⟩, ⟨"03", 48⟩] : PrimaryIndex).eraseIdx j) ∧
      PrimaryIndex.SortedByKey (([⟨"01", 0⟩, ⟨"02", 25⟩, ⟨"03", 48⟩] : PrimaryIndex).eraseIdx j) ∧
      "02" ∉ PrimaryIndex.keys
        (([⟨"01", 0⟩, ⟨"02", 25⟩, ⟨"03", 48⟩] : PrimaryIndex).eraseIdx j) ∧
      ∀ e ∈ ([⟨"01", 0⟩, ⟨"02", 25⟩, ⟨"03", 48⟩] : PrimaryIndex), e.primaryKey ≠ "02" →
        e ∈ ([⟨"01", 0⟩, ⟨"02", 25⟩, ⟨"03", 48⟩] : PrimaryIndex).eraseIdx j) ∧
    ("02" ∉ PrimaryIndex.keys [⟨"01", 0⟩, ⟨"02", 25⟩, ⟨"03", 48⟩] →
      PrimaryIndex.removePrimaryNode [⟨"01", 0⟩, ⟨"02", 25⟩, ⟨"03", 48⟩] "02"
        = some [⟨"01", 0⟩, ⟨"02", 25⟩, ⟨"03", 48⟩]) :=
  ⟨by decide, by decide,
    PrimaryIndex.removePrimaryNode_spec [⟨"01", 0⟩, ⟨"02", 25⟩, ⟨"03", 48⟩] (by decide)
      (by decide) "02"⟩

/-! ## Lemmas on record files -/

theorem writeAt_single (f : List Char) (pos : Nat) (c : Char) (h : pos < f.length) :
    writeAt f pos [c] = f.set pos c := by
  unfold writeAt
  rw [Nat.sub_eq_zero_of_le (le_of_lt h)]
  simp only [List.replicate_zero, List.append_nil, List.length_nil, Nat.zero_add,
    List.append_assoc, List.singleton_append]
  rw [List.set_eq_take_append_cons_drop, if_pos h]

theorem writeAt_length (f : List Char) (pos : Nat) (bs : List Char)
    (h : pos + bs.length ≤ f.length) : (writeAt f pos bs).length = f.length := by
  cases bs with
  | nil => rfl
  | cons b bs =>
    unfold writeAt
    simp only [List.length_cons] at h
    simp only [List.length_append, List.length_take, List.length_replicate, List.length_cons,
      List.length_drop]
    omega

theorem writeAt_getElem?_lt (f : List Char) (pos : Nat) (bs : List Char) (i : Nat) (hi : i < pos)
    (hp : pos ≤ f.length) : (writeAt f pos bs)[i]? = f[i]? := by
  cases bs with
  | nil => rfl
  | cons b bs =>
    show (f.take pos ++ List.replicate (pos - f.length) '\x00' ++ (b :: bs) ++
      f.drop (pos + (bs.length + 1)))[i]? = _
    rw [List.append_assoc, List.append_assoc,
      List.getElem?_append_left (by rw [List.length_take]; omega), List.getElem?_take_of_lt hi]

theorem payload_length (id second third : String) :
    ((payload id second third).length : Int)
      = (id.length : Int) + (second.length : Int) + (third.length : Int) + 4 := by
  unfold payload
  simp only [List.length_cons, List.length_append, List.length_nil, String.length]
  push_cast
  omega

theorem reusedBytes_length (size : Int) (id second third : String)
    (h : (id.length : Int) + (second.length : Int) + (third.length : Int) + 4 ≤ size) :
    (reusedBytes size id second third).length = size.toNat := by
  have hp := payload_length id second third
  unfold reusedBytes
  dsimp only
  rw [if_pos (by omega)]
  simp only [List.length_take, List.length_append, List.length_replicate, List.length_cons,
    List.length_nil]
  omega

theorem drop_set_self (f : List Char) (pos : Nat) (c : Char) (h : pos < f.length) :
    (f.set pos c).drop pos = c :: f.drop (pos + 1) := by
  rw [List.set_eq_take_append_cons_drop, if_pos h]
  have hl : (f.take pos).length = pos := by rw [List.length_take]; omega
  rw [List.drop_append_of_le_length (by omega), List.drop_of_length_le (by omega)]
  rfl

theorem parseRecord_status_byte (c d : Char) (line : List Char) (hc : c ≠ '|') (hd : d ≠ '|') :
    (parseRecord (String.mk (c :: line))).recordLen
        = (parseRecord (String.mk (d :: line))).recordLen ∧
      (parseRecord (String.mk (c :: line))).record_id
        = (parseRecord (String.mk (d :: line))).record_id ∧
      (parseRecord (String.mk (c :: line))).second
        = (parseRecord (String.mk (d :: line))).second ∧
      (parseRecord (String.mk (c :: line))).third
        = (parseRecord (String.mk (d :: line))).third := by
  have e : (splitField (c :: line)).2 = (splitField (d :: line)).2 := by
    unfold splitField
    simp [List.dropWhile_cons, hc, hd]
  simp only [parseRecord, e, and_self]

/-- Writing `*` over the status byte ` ` of the record at `pos` changes none
of the fields read from the record behind the status. -/
theorem parseRecord_tombstoned (f : List Char) (pos : Nat) (h : f[pos]? = some ' ') :
    (parseRecord (readLine (writeAt f pos ['*']) pos)).recordLen
        = (parseRecord (readLine f pos)).recordLen ∧
      (parseRecord (readLine (writeAt f pos ['*']) pos)).record_id
        = (parseRecord (readLine f pos)).record_id ∧
      (parseRecord (readLine (writeAt f pos ['*']) pos)).second
        = (parseRecord (readLine f pos)).second ∧
      (parseRecord (readLine (writeAt f pos ['*']) pos)).third
        = (parseRecord (readLine f pos)).third := by
  have hlt : pos < f.length := (List.getElem?_eq_some.1 h).1
  have hget : f[pos] = ' ' := (List.getElem?_eq_some.1 h).2
  have h1 : f.drop pos = ' ' :: f.drop (pos + 1) := by
    rw [← hget]
    exact List.drop_eq_getElem_cons hlt
  unfold readLine
  rw [writeAt_single f pos '*' hlt, drop_set_self f pos '*' hlt, h1]
  have e1 : List.takeWhile (fun c => c != '\n') ('*' :: f.drop (pos + 1))
      = '*' :: List.takeWhile (fun c => c != '\n') (f.drop (pos + 1)) := by
    rw [List.takeWhile_cons]
    rfl
  have e2 : List.takeWhile (fun c => c != '\n') (' ' :: f.drop (pos + 1))
      = ' ' :: List.takeWhile (fun c => c != '\n') (f.drop (pos + 1)) := by
    rw [List.takeWhile_cons]
    rfl
  rw [e1, e2]
  exact parseRecord_status_byte '*' ' ' _ (by decide) (by decide)

theorem getNewId_stoi_isSome (idx : PrimaryIndex) (k : String)
    (h : PrimaryIndex.getNewId idx = some k) : (stoi k).isSome = true := by
  unfold PrimaryIndex.getNewId at h
  cases hb : idx.getLast? with
  | none =>
    simp only [hb] at h
    injection h with h
    subst h
    decide
  | some back =>
    simp only [hb] at h
    cases hs : stoi back.primaryKey with
    | none => simp [hs] at h
    | some v =>
      simp only [hs] at h
      by_cases h1 : v + 1 ≤ 2147483647
      · rw [if_pos h1] at h
        injection h with h
        subst h
        by_cases h10 : v + 1 < 10
        · rw [if_pos h10]
          cases hv : v + 1 with
          | ofNat m =>
            have hm : m < 10 := by
              rw [hv] at h10
              have h2 : (m : Int) < 10 := h10
              omega
            interval_cases m <;> decide
          | negSucc m => rfl
        · rw [if_neg h10]
          have e : v + 1 = ((v + 1).toNat : Int) := by omega
          rw [e, stoi_to_string _ (by omega)]
          rfl
      · rw [if_neg h1] at h
        exact absurd h (by simp)

/-- The id that `getNewId` returns is read by `stoi`. -/
theorem getNewId_stoi (idx : PrimaryIndex) (k : String) (h : PrimaryIndex.getNewId idx = some k) :
    ∃ v, stoi k = some v :=
  Option.isSome_iff_exists.1 (getNewId_stoi_isSome idx k h)

/-! ## Insertion into and removal from the free list -/

namespace AvailList

theorem insertWalk_perm (l : List AvailListNode) (newNode : AvailListNode) :
    (insertWalk l newNode).Perm (newNode :: l) := by
  induction l with
  | nil => exact List.Perm.refl _
  | cons c rest ih =>
    unfold insertWalk
    split_ifs with h
    · exact (List.Perm.cons c ih).trans (List.Perm.swap newNode c rest)
    · exact List.Perm.refl _

theorem insertWalk_sorted (l : List AvailListNode) (newNode : AvailListNode)
    (hs : SortedBySize l) : SortedBySize (insertWalk l newNode) := by
  induction l with
  | nil => exact List.pairwise_singleton _ _
  | cons c rest ih =>
    have hc := List.pairwise_cons.1 hs
    unfold insertWalk
    split_ifs with h
    · refine List.pairwise_cons.2 ⟨?_, ih hc.2⟩
      intro d hd
      rcases List.mem_cons.1 ((insertWalk_perm rest newNode).subset hd) with rfl | hd
      · exact le_of_lt h
      · exact hc.1 d hd
    · refine List.pairwise_cons.2 ⟨?_, hs⟩
      intro d hd
      rcases List.mem_cons.1 hd with rfl | hd
      · exact not_lt.1 h
      · exact le_trans (not_lt.1 h) (hc.1 d hd)

theorem insert_eq_insertWalk (l : AvailList) (newNode : AvailListNode) :
    insert l newNode = insertWalk l newNode := by
  cases l <;> rfl

theorem removeWalk_eq (l : List AvailListNode) : ∀ (pos n : Nat), pos ≤ n →
    removeWalk l pos n = l.eraseIdx (n - pos) := by
  induction l with
  | nil => intro pos n _; rfl
  | cons c rest ih =>
    intro pos n h
    unfold removeWalk
    by_cases hp : pos = n
    · subst hp
      simp
    · rw [if_neg hp, ih (pos + 1) n (by omega)]
      have e : n - pos = (n - (pos + 1)) + 1 := by omega
      rw [e, List.eraseIdx_cons_succ]

/-- `remove` unlinks the node at the position given, when there is one. -/
theorem remove_eq_eraseIdx (l : AvailList) (n : Nat) : remove l (some n) = l.eraseIdx n := by
  cases l with
  | nil => rfl
  | cons header rest =>
    show (if n = 0 then rest else header :: removeWalk rest 1 n) = _
    by_cases h0 : n = 0
    · subst h0
      simp
    · rw [if_neg h0, removeWalk_eq rest 1 n (by omega)]
      have e : n = (n - 1) + 1 := by omega
      conv => rhs; rw [e, List.eraseIdx_cons_succ]

theorem remove_null (l : AvailList) : remove l none = l := by
  cases l <;> rfl

end AvailList

/-- C14: on a free list that is ascending by size, `insert` yields a list
that is ascending by size and whose entries are the previous entries and the
new node, each as often as before. -/
theorem AvailList.insert_sorted_perm (l : AvailList) (newNode : AvailListNode)
    (hs : AvailList.SortedBySize l) :
    AvailList.SortedBySize (AvailList.insert l newNode) ∧
    (AvailList.insert l newNode).Perm (newNode :: l) := by
  rw [AvailList.insert_eq_insertWalk]
  exact ⟨AvailList.insertWalk_sorted l newNode hs, AvailList.insertWalk_perm l newNode⟩

theorem AvailList.insert_sorted_perm_witness :
    AvailList.SortedBySize [⟨40, 5⟩, ⟨0, 8⟩, ⟨20, 12⟩] ∧
    AvailList.SortedBySize (AvailList.insert [⟨40, 5⟩, ⟨0, 8⟩, ⟨20, 12⟩] ⟨90, 8⟩) ∧
    (AvailList.insert [⟨40, 5⟩, ⟨0, 8⟩, ⟨20, 12⟩] ⟨90, 8⟩).Perm
      (⟨90, 8⟩ :: [⟨40, 5⟩, ⟨0, 8⟩, ⟨20, 12⟩]) :=
  ⟨by decide, AvailList.insert_sorted_perm [⟨40, 5⟩, ⟨0, 8⟩, ⟨20, 12⟩] ⟨90, 8⟩ (by decide)⟩

/-- C15: for a node of the list, given by its position `n`, `remove` yields
the list without that node, the other nodes in their order, so that a list
ascending by size stays ascending; for a pointer that is no node of the list
(a position outside the list, or `nullptr`) the list is unchanged. -/
theorem AvailList.remove_unlinks_node (l : AvailList) (n : Nat) :
    (n < l.length → AvailList.remove l (some n) = l.eraseIdx n ∧
      (AvailList.remove l (some n)).length + 1 = l.length) ∧
    (AvailList.SortedBySize l → AvailList.SortedBySize (AvailList.remove l (some n))) ∧
    (l.length ≤ n → AvailList.remove l (some n) = l) ∧
    AvailList.remove l none = l := by
  rw [AvailList.remove_eq_eraseIdx]
  refine ⟨fun h => ⟨rfl, ?_⟩, fun hs => hs.sublist (List.eraseIdx_sublist _ _),
    fun h => List.eraseIdx_of_length_le h, AvailList.remove_null l⟩
  rw [List.length_eraseIdx, if_pos h]
  omega

theorem AvailList.remove_unlinks_node_witness :
    (1 < ([⟨40, 5⟩, ⟨0, 8⟩, ⟨20, 12⟩] : AvailList).length ∧
      AvailList.SortedBySize [⟨40, 5⟩, ⟨0, 8⟩, ⟨20, 12⟩]) ∧
    (1 < ([⟨40, 5⟩, ⟨0, 8⟩, ⟨20, 12⟩] : AvailList).length →
      AvailList.remove [⟨40, 5⟩, ⟨0, 8⟩, ⟨20, 12⟩] (some 1)
        = ([⟨40, 5⟩, ⟨0, 8⟩, ⟨20, 12⟩] : AvailList).eraseIdx 1 ∧
      (AvailList.remove [⟨40, 5⟩, ⟨0, 8⟩, ⟨20, 12⟩] (some 1)).length + 1
        = ([⟨40, 5⟩, ⟨0, 8⟩, ⟨20, 12⟩] : AvailList).length) ∧
    (AvailList.SortedBySize [⟨40, 5⟩, ⟨0, 8⟩, ⟨20, 12⟩] →
      AvailList.SortedBySize (AvailList.remove [⟨40, 5⟩, ⟨0, 8⟩, ⟨20, 12⟩] (some 1))) ∧
    (([⟨40, 5⟩, ⟨0, 8⟩, ⟨20, 12⟩] : AvailList).length ≤ 1 →
      AvailList.remove [⟨40, 5⟩, ⟨0, 8⟩, ⟨20, 12⟩] (some 1) = [⟨40, 5⟩, ⟨0, 8⟩, ⟨20, 12⟩]) ∧
    AvailList.remove [⟨40, 5⟩, ⟨0, 8⟩, ⟨20, 12⟩] none = [⟨40, 5⟩, ⟨0, 8⟩, ⟨20, 12⟩] :=
  ⟨⟨by decide, by decide⟩, AvailList.remove_unlinks_node [⟨40, 5⟩, ⟨0, 8⟩, ⟨20, 12⟩] 1⟩

/-! ## The table classes: rejected requests -/

/-- C16: when the doctor id of the appointment is not a key of the doctor
primary index, `addAppointment` returns with the appointment as it was given
(no id is assigned) and the table state unchanged: record file, primary
index, secondary index and free list. -/
theorem AppointmentManagementSystem.addAppointment_unknown_doctor
    (doctorPrimaryIndex : PrimaryIndex) (t : AppointmentManagementSystem)
    (appointment : Appointment)
    (h : appointment.doctorID ∉ PrimaryIndex.keys doctorPrimaryIndex) :
    AppointmentManagementSystem.addAppointment doctorPrimaryIndex t appointment
      = some (t, appointment) := by
  unfold AppointmentManagementSystem.addAppointment
  rw [PrimaryIndex.binarySearch_absent doctorPrimaryIndex appointment.doctorID h]
  rfl

theorem AppointmentManagementSystem.addAppointment_unknown_doctor_witness :
    "99" ∉ PrimaryIndex.keys [⟨"01", 0⟩, ⟨"02", 25⟩] ∧
    AppointmentManagementSystem.addAppointment [⟨"01", 0⟩, ⟨"02", 25⟩]
        AppointmentManagementSystem.empty ⟨"", "2025-01-07", "99"⟩
      = some (AppointmentManagementSystem.empty, ⟨"", "2025-01-07", "99"⟩) :=
  ⟨by decide,
    AppointmentManagementSystem.addAppointment_unknown_doctor [⟨"01", 0⟩, ⟨"02", 25⟩]
      AppointmentManagementSystem.empty ⟨"", "2025-01-07", "99"⟩ (by decide)⟩

/-- C17: for an id that is not a key of the primary index of the table,
`deleteDoctor`, `updateDoctorName`, `deleteAppointment` and
`updateAppointmentDate` return with the table state unchanged: record file,
primary index, secondary index and free list. -/
theorem not_found_leaves_tables_unchanged (d : DoctorManagementSystem)
    (a : AppointmentManagementSystem) (doctorPrimaryIndex : PrimaryIndex)
    (id newValue : String) :
    (id ∉ PrimaryIndex.keys d.doctorPrimaryIndex →
      DoctorManagementSystem.deleteDoctor d id = some d ∧
      DoctorManagementSystem.updateDoctorName d id newValue = some d) ∧
    (id ∉ PrimaryIndex.keys a.appointmentPrimaryIndex →
      AppointmentManagementSystem.deleteAppointment a id = some a ∧
      AppointmentManagementSystem.updateAppointmentDate doctorPrimaryIndex a id newValue
        = some a) := by
  constructor
  · intro h
    have hb := PrimaryIndex.binarySearch_absent d.doctorPrimaryIndex id h
    constructor
    · unfold DoctorManagementSystem.deleteDoctor
      rw [hb]
      rfl
    · unfold DoctorManagementSystem.updateDoctorName
      rw [hb]
      rfl
  · intro h
    have hb := PrimaryIndex.binarySearch_absent a.appointmentPrimaryIndex id h
    constructor
    · unfold AppointmentManagementSystem.deleteAppointment
      rw [hb]
      rfl
    · unfold AppointmentManagementSystem.updateAppointmentDate
      rw [hb]
      rfl

theorem not_found_leaves_tables_unchanged_witness :
    ("07" ∉ PrimaryIndex.keys [⟨"01", 0⟩, ⟨"02", 25⟩] ∧
      "07" ∉ PrimaryIndex.keys [⟨"01", 0⟩]) ∧
    ("07" ∉ PrimaryIndex.keys
        (DoctorManagementSystem.doctorPrimaryIndex
          ⟨[⟨"01", 0⟩, ⟨"02", 25⟩],
            ⟨[("Alice", 0), ("Bob", 1)], [⟨"01", "-1"⟩, ⟨"02", "-1"⟩]⟩, [],
            some " |20|01|Alice|1 Main St|\n |18|02|Bob|2 Oak Ave|\n".data⟩) →
      DoctorManagementSystem.deleteDoctor
          ⟨[⟨"01", 0⟩, ⟨"02", 25⟩],
            ⟨[("Alice", 0), ("Bob", 1)], [⟨"01", "-1"⟩, ⟨"02", "-1"⟩]⟩, [],
            some " |20|01|Alice|1 Main St|\n |18|02|Bob|2 Oak Ave|\n".data⟩ "07"
        = some ⟨[⟨"01", 0⟩, ⟨"02", 25⟩],
            ⟨[("Alice", 0), ("Bob", 1)], [⟨"01", "-1"⟩, ⟨"02", "-1"⟩]⟩, [],
            some " |20|01|Alice|1 Main St|\n |18|02|Bob|2 Oak Ave|\n".data⟩ ∧
      DoctorManagementSystem.updateDoctorName
          ⟨[⟨"01", 0⟩, ⟨"02", 25⟩],
            ⟨[("Alice", 0), ("Bob", 1)], [⟨"01", "-1"⟩, ⟨"02", "-1"⟩]⟩, [],
            some " |20|01|Alice|1 Main St|\n |18|02|Bob|2 Oak Ave|\n".data⟩ "07" "Dan"
        = some ⟨[⟨"01", 0⟩, ⟨"02", 25⟩],
            ⟨[("Alice", 0), ("Bob", 1)], [⟨"01", "-1"⟩, ⟨"02", "-1"⟩]⟩, [],
            some " |20|01|Alice|1 Main St|\n |18|02|Bob|2 Oak Ave|\n".data⟩) ∧
    ("07" ∉ PrimaryIndex.keys
        (AppointmentManagementSystem.appointmentPrimaryIndex
          ⟨[⟨"01", 0⟩], [], ⟨[("02", 0)], [⟨"01", "-1"⟩]⟩,
            some " |21|01|2025-01-07|02|\n".data⟩) →
      AppointmentManagementSystem.deleteAppointment
          ⟨[⟨"01", 0⟩], [], ⟨[("02", 0)], [⟨"01", "-1"⟩]⟩,
            some " |21|01|2025-01-07|02|\n".data⟩ "07"
        = some ⟨[⟨"01", 0⟩], [], ⟨[("02", 0)], [⟨"01", "-1"⟩]⟩,
            some " |21|01|2025-01-07|02|\n".data⟩ ∧
      AppointmentManagementSystem.updateAppointmentDate [⟨"01", 0⟩, ⟨"02", 25⟩]
          ⟨[⟨"01", 0⟩], [], ⟨[("02", 0)], [⟨"01", "-1"⟩]⟩,
            some " |21|01|2025-01-07|02|\n".data⟩ "07" "Dan"
        = some ⟨[⟨"01", 0⟩], [], ⟨[("02", 0)], [⟨"01", "-1"⟩]⟩,
            some " |21|01|2025-01-07|02|\n".data⟩) :=
  ⟨⟨by decide, by decide⟩,
    not_found_leaves_tables_unchanged
      ⟨[⟨"01", 0⟩, ⟨"02", 25⟩],
        ⟨[("Alice", 0), ("Bob", 1)], [⟨"01", "-1"⟩, ⟨"02", "-1"⟩]⟩, [],
        some " |20|01|Alice|1 Main St|\n |18|02|Bob|2 Oak Ave|\n".data⟩
      ⟨[⟨"01", 0⟩], [], ⟨[("02", 0)], [⟨"01", "-1"⟩]⟩, some " |21|01|2025-01-07|02|\n".data⟩
      [⟨"01", 0⟩, ⟨"02", 25⟩] "07" "Dan"⟩

/-- C19: on the empty doctor table, `addDoctor("Alice", "1 Main St")` assigns
the id `01` (offset `0`), `addDoctor("Bob", "2 Oak Ave")` the id `02`; after
`deleteDoctor("01")` the file has 48 bytes, and `addDoctor("Carol", "3 Elm Rd")`
assigns the id `03` with the offset `0` that the record of Alice had; the file
still has 48 bytes. The three components are the ids assigned, the offsets
found for `01` after the first call and for `03` after the last, and the file
lengths before and after the last call. -/
theorem DoctorManagementSystem.scenario_reuses_freed_slot :
    (DoctorManagementSystem.addDoctor DoctorManagementSystem.empty
        ⟨"", "Alice", "1 Main St"⟩).bind (fun r1 =>
      (DoctorManagementSystem.addDoctor r1.1 ⟨"", "Bob", "2 Oak Ave"⟩).bind (fun r2 =>
        (DoctorManagementSystem.deleteDoctor r2.1 "01").bind (fun t3 =>
          (DoctorManagementSystem.addDoctor t3 ⟨"", "Carol", "3 Elm Rd"⟩).map (fun r4 =>
            ([r1.2.id, r2.2.id, r4.2.id],
              [PrimaryIndex.binarySearchPrimaryIndex r1.1.doctorPrimaryIndex "01",
                PrimaryIndex.binarySearchPrimaryIndex r4.1.doctorPrimaryIndex "03"],
              [t3.doctorsFile.map List.length, r4.1.doctorsFile.map List.length])))))
      = some (["01", "02", "03"], [some 0, some 0], [some 48, some 48]) := by
  decide

/-! ## The table classes: additions and deletions -/

namespace SecondaryIndex

/-- On a well-formed index `removePrimaryKeyFromSecondaryNode` always returns;
the result is well formed, and the lookup of a key of the map gives the
former sequence without the first occurrence of the primary key. -/
theorem remove_lookup (s : SecondaryIndex) (ch : String → List Nat) (hw : WellFormedWith s ch)
    (sk p : String) :
    ∃ s1, removePrimaryKeyFromSecondaryNode s sk p = some s1 ∧ WellFormed s1 ∧
      s1.primaryKeyList.length = s.primaryKeyList.length ∧
      ∀ h, mapFind s.secondaryIndexMap sk = some h →
        ∃ before, getPrimaryKeysBySecondaryKey s sk = some (s, before) ∧
          getPrimaryKeysBySecondaryKey s1 sk = some (s1, before.erase p) := by
  cases hfind : mapFind s.secondaryIndexMap sk with
  | none =>
    refine ⟨s, ?_, ⟨ch, hw⟩, rfl, fun h hh => absurd hh (by simp)⟩
    unfold removePrimaryKeyFromSecondaryNode
    simp only [hfind]
  | some h0 =>
    have hget0 := get_spec s ch hw sk h0 hfind
    by_cases hp : p ∈ (ch sk).map (keyAt s.primaryKeyList)
    · obtain ⟨pre, i, post, hsplit, hi, hpre⟩ := split_first s.primaryKeyList p (ch sk) hp
      obtain ⟨s1, hrun, hw1, ⟨h1, hsk⟩, _, _, hkeep, hlen⟩ :=
        remove_spec s ch hw sk p pre i post hsplit hi hpre
      have hnodup : (pre ++ i :: post).Nodup := hsplit ▸ hw.nodup sk
      have hget1 := get_spec s1 _ hw1 sk h1 hsk
      rw [Function.update_same] at hget1
      have hkeys : (pre ++ post).map (keyAt s1.primaryKeyList)
          = ((ch sk).map (keyAt s.primaryKeyList)).erase p := by
        rw [hsplit, erase_split _ p pre i post hi hpre]
        apply List.map_congr_left
        intro j hj
        apply hkeep
        intro e
        subst e
        exact (List.nodup_cons.1 (List.nodup_middle.1 hnodup)).1 hj
      rw [hkeys] at hget1
      exact ⟨s1, hrun, ⟨_, hw1⟩, hlen, fun h _ => ⟨_, hget0, hget1⟩⟩
    · refine ⟨s, remove_absent s ch hw sk p h0 hfind hp, ⟨ch, hw⟩, rfl, fun h _ => ⟨_, hget0, ?_⟩⟩
      rw [List.erase_of_not_mem hp]
      exact hget0

theorem wellFormed_remove (s : SecondaryIndex) (hw : WellFormed s) (sk p : String)
    (s1 : SecondaryIndex) (h : removePrimaryKeyFromSecondaryNode s sk p = some s1) :
    WellFormed s1 := by
  obtain ⟨ch, hch⟩ := hw
  obtain ⟨s2, hrun, hw2, _⟩ := remove_lookup s ch hch sk p
  rw [h] at hrun
  injection hrun with hrun
  subst hrun
  exact hw2

/-- The secondary index of the doctor table after the additions of Alice and
Bob: two lists of one node. -/
theorem wellFormed_two_doctors :
    WellFormed ⟨[("Alice", 0), ("Bob", 1)], [⟨"01", "-1"⟩, ⟨"02", "-1"⟩]⟩ :=
  wellFormed_add _ (wellFormed_add _ wellFormed_empty (by decide) "Alice" "01"
    ⟨[("Alice", 0)], [⟨"01", "-1"⟩]⟩ (by decide)) (by decide) "Bob" "02" _ (by decide)

/-- The secondary index of the doctor table after the deletion of Alice. -/
theorem wellFormed_one_doctor :
    WellFormed ⟨[("Alice", -1), ("Bob", 1)], [⟨"##", "##"⟩, ⟨"02", "-1"⟩]⟩ :=
  wellFormed_remove _ wellFormed_two_doctors "Alice" "01" _ (by decide)

end SecondaryIndex

namespace AvailList

/-- What `bestFit` returns on a free list that holds a node large enough: the
position of a node of the list that is large enough and, on a list ascending
by size, not larger than any other node that is large enough. -/
theorem bestFit_of_fit (l : AvailList) (n : Int) (hfit : ∃ d ∈ l, n ≤ d.size) :
    ∃ pos node, bestFit l n = some pos ∧ l[pos]? = some node ∧ n ≤ node.size ∧
      (SortedBySize l → ∀ d ∈ l, n ≤ d.size → node.size ≤ d.size) := by
  cases hb : bestFit l n with
  | none =>
    obtain ⟨d, hd, hn⟩ := hfit
    exact absurd ((bestFitFrom_none l 0 n).1 hb d hd) (not_lt.2 hn)
  | some pos =>
    obtain ⟨_, h2, h3, h4⟩ := bestFitFrom_some l 0 n pos hb
    simp only [Nat.sub_zero] at h2 h3 h4
    refine ⟨pos, l.get ⟨pos, h2⟩, rfl, ?_, h3, ?_⟩
    · rw [List.getElem?_eq_getElem h2]
      rfl
    · intro hs d hd hnd
      obtain ⟨⟨j, hj⟩, rfl⟩ := List.mem_iff_get.1 hd
      rcases Nat.lt_trichotomy j pos with hlt | heq | hgt
      · exact absurd (h4 j hlt hj) (not_lt.2 hnd)
      · subst heq
        exact le_refl _
      · exact List.pairwise_iff_get.1 hs ⟨pos, h2⟩ ⟨j, hj⟩ hgt

end AvailList

namespace PrimaryIndex

theorem key_not_mem_eraseIdx (idx : PrimaryIndex) (hs : SortedByKey idx) (hd : (keys idx).Nodup)
    (j : Nat) (hj : j < idx.length) : idx[j].primaryKey ∉ keys (idx.eraseIdx j) := by
  have hst := strict_of_sorted_nodup idx hs hd
  intro hmem
  obtain ⟨e, he, hek⟩ := List.mem_map.1 hmem
  obtain ⟨i, hi, hij, rfl⟩ := List.mem_eraseIdx_iff_getElem.1 he
  rcases Nat.lt_or_gt_of_ne hij with h | h
  · have := strict_getElem hst i j hi hj h
    rw [hek] at this
    exact strLt_irrefl _ this
  · have := strict_getElem hst j i hj hi h
    rw [hek] at this
    exact strLt_irrefl _ this

end PrimaryIndex

/-- C20: in a doctor table whose primary index is ordered with distinct keys
and whose secondary index is well formed, for an id (a number for `stoi`) that
the primary index holds with the offset `o` of an active record (status byte
blank) whose length field reads as `len` and whose stored name is `name`:
`deleteDoctor(id)` returns; the file differs from the former file in the byte
at `o` only, which is `*`; the free list is the former list with the slot
`(o, len)` inserted; the primary index is the former index without the entry
of `id`; and the secondary index is the result of
`removePrimaryKeyFromSecondaryNode(name, id)`, so that the lookup of `name`
returns the former sequence without `id`. -/
theorem DoctorManagementSystem.deleteDoctor_effect (t : DoctorManagementSystem)
    (file : List Char) (id : String) (o len : Int)
    (hfile : t.doctorsFile = some file)
    (hs : PrimaryIndex.SortedByKey t.doctorPrimaryIndex)
    (hd : (PrimaryIndex.keys t.doctorPrimaryIndex).Nodup)
    (hmem : (⟨id, o⟩ : PrimaryIndexNode) ∈ t.doctorPrimaryIndex)
    (ho : 0 ≤ o) (hstatus : file[o.toNat]? = some ' ')
    (hlen : stoi (parseRecord (readLine file o.toNat)).recordLen = some len)
    (hsec : SecondaryIndex.WellFormed t.doctorSecondaryIndex)
    (hnum : (stoi id).isSome = true) :
    ∃ t1 j,
      DoctorManagementSystem.deleteDoctor t id = some t1 ∧
      t1.doctorsFile = some (file.set o.toNat '*') ∧
      t1.doctorAvailList = AvailList.insert t.doctorAvailList ⟨o, len⟩ ∧
      t.doctorPrimaryIndex[j]? = some ⟨id, o⟩ ∧
      t1.doctorPrimaryIndex = t.doctorPrimaryIndex.eraseIdx j ∧
      id ∉ PrimaryIndex.keys t1.doctorPrimaryIndex ∧
      SecondaryIndex.removePrimaryKeyFromSecondaryNode t.doctorSecondaryIndex
          (parseRecord (readLine file o.toNat)).second id = some t1.doctorSecondaryIndex ∧
      ∀ h, SecondaryIndex.mapFind t.doctorSecondaryIndex.secondaryIndexMap
          (parseRecord (readLine file o.toNat)).second = some h →
        ∃ before,
          SecondaryIndex.getPrimaryKeysBySecondaryKey t.doctorSecondaryIndex
              (parseRecord (readLine file o.toNat)).second
            = some (t.doctorSecondaryIndex, before) ∧
          SecondaryIndex.getPrimaryKeysBySecondaryKey t1.doctorSecondaryIndex
              (parseRecord (readLine file o.toNat)).second
            = some (t1.doctorSecondaryIndex, before.erase id) := by
  obtain ⟨j, hj, hjeq⟩ := List.getElem_of_mem hmem
  have hkey : t.doctorPrimaryIndex[j].primaryKey = id := by rw [hjeq]
  have hoff : t.doctorPrimaryIndex[j].offset = o := by rw [hjeq]
  have hfound := PrimaryIndex.binarySearch_found t.doctorPrimaryIndex hs hd j hj
  rw [hkey, hoff] at hfound
  have hrem := PrimaryIndex.removePrimaryNode_found t.doctorPrimaryIndex hs hd j hj
  rw [hkey] at hrem
  have hnot := PrimaryIndex.key_not_mem_eraseIdx t.doctorPrimaryIndex hs hd j hj
  rw [hkey] at hnot
  obtain ⟨ch, hch⟩ := hsec
  obtain ⟨sec1, hrun, _, _, hlook⟩ := SecondaryIndex.remove_lookup t.doctorSecondaryIndex ch hch
    (parseRecord (readLine file o.toNat)).second id
  obtain ⟨v, hv⟩ := Option.isSome_iff_exists.1 hnum
  obtain ⟨hp1, _, hp3, _⟩ := parseRecord_tombstoned file o.toNat hstatus
  have hlt : o.toNat < file.length := (List.getElem?_eq_some.1 hstatus).1
  rw [writeAt_single file o.toNat '*' hlt] at hp1 hp3
  refine ⟨⟨t.doctorPrimaryIndex.eraseIdx j, sec1,
      AvailList.insert t.doctorAvailList ⟨o, len⟩, some (file.set o.toNat '*')⟩, j, ?_, rfl, rfl,
    ?_, rfl, hnot, hrun, hlook⟩
  · unfold DoctorManagementSystem.deleteDoctor
    simp only [hfound]
    rw [if_neg (by omega)]
    simp only [hfile]
    rw [if_neg (by omega), if_neg (by omega)]
    simp only [writeAt_single file o.toNat '*' hlt, hp1, hp3, hlen, hrem, hrun, hv]
  · rw [List.getElem?_eq_getElem hj, hjeq]

theorem DoctorManagementSystem.deleteDoctor_effect_witness :
    (PrimaryIndex.SortedByKey [⟨"01", 0⟩, ⟨"02", 25⟩] ∧
      (PrimaryIndex.keys [⟨"01", 0⟩, ⟨"02", 25⟩]).Nodup ∧
      (⟨"01", 0⟩ : PrimaryIndexNode) ∈ ([⟨"01", 0⟩, ⟨"02", 25⟩] : PrimaryIndex) ∧
      (" |20|01|Alice|1 Main St|\n |18|02|Bob|2 Oak Ave|\n".data)[(0 : Int).toNat]? = some ' ' ∧
      stoi (parseRecord (readLine " |20|01|Alice|1 Main St|\n |18|02|Bob|2 Oak Ave|\n".data
        (0 : Int).toNat)).recordLen = some 20) ∧
    ∃ t1 j,
      DoctorManagementSystem.deleteDoctor
          ⟨[⟨"01", 0⟩, ⟨"02", 25⟩],
            ⟨[("Alice", 0), ("Bob", 1)], [⟨"01", "-1"⟩, ⟨"02", "-1"⟩]⟩, [],
            some " |20|01|Alice|1 Main St|\n |18|02|Bob|2 Oak Ave|\n".data⟩ "01" = some t1 ∧
      t1.doctorsFile = some ((" |20|01|Alice|1 Main St|\n |18|02|Bob|2 Oak Ave|\n".data).set
        (0 : Int).toNat '*') ∧
      t1.doctorAvailList = AvailList.insert [] ⟨0, 20⟩ ∧
      ([⟨"01", 0⟩, ⟨"02", 25⟩] : PrimaryIndex)[j]? = some ⟨"01", 0⟩ ∧
      t1.doctorPrimaryIndex = ([⟨"01", 0⟩, ⟨"02", 25⟩] : PrimaryIndex).eraseIdx j ∧
      "01" ∉ PrimaryIndex.keys t1.doctorPrimaryIndex ∧
      SecondaryIndex.removePrimaryKeyFromSecondaryNode
          ⟨[("Alice", 0), ("Bob", 1)], [⟨"01", "-1"⟩, ⟨"02", "-1"⟩]⟩
          (parseRecord (readLine " |20|01|Alice|1 Main St|\n |18|02|Bob|2 Oak Ave|\n".data
            (0 : Int).toNat)).second "01" = some t1.doctorSecondaryIndex ∧
      ∀ h, SecondaryIndex.mapFind [("Alice", 0), ("Bob", 1)]
          (parseRecord (readLine " |20|01|Alice|1 Main St|\n |18|02|Bob|2 Oak Ave|\n".data
            (0 : Int).toNat)).second = some h →
        ∃ before,
          SecondaryIndex.getPrimaryKeysBySecondaryKey
              ⟨[("Alice", 0), ("Bob", 1)], [⟨"01", "-1"⟩, ⟨"02", "-1"⟩]⟩
              (parseRecord (readLine " |20|01|Alice|1 Main St|\n |18|02|Bob|2 Oak Ave|\n".data
                (0 : Int).toNat)).second
            = some (⟨[("Alice", 0), ("Bob", 1)], [⟨"01", "-1"⟩, ⟨"02", "-1"⟩]⟩, before) ∧
          SecondaryIndex.getPrimaryKeysBySecondaryKey t1.doctorSecondaryIndex
              (parseRecord (readLine " |20|01|Alice|1 Main St|\n |18|02|Bob|2 Oak Ave|\n".data
                (0 : Int).toNat)).second
            = some (t1.doctorSecondaryIndex, before.erase "01") :=
  ⟨⟨by decide, by decide, by decide, by decide, by decide⟩,
    DoctorManagementSystem.deleteDoctor_effect
      ⟨[⟨"01", 0⟩, ⟨"02", 25⟩],
        ⟨[("Alice", 0), ("Bob", 1)], [⟨"01", "-1"⟩, ⟨"02", "-1"⟩]⟩, [],
        some " |20|01|Alice|1 Main St|\n |18|02|Bob|2 Oak Ave|\n".data⟩
      " |20|01|Alice|1 Main St|\n |18|02|Bob|2 Oak Ave|\n".data "01" 0 20 rfl (by decide)
      (by decide) (by decide) (by decide) (by decide) (by decide)
      SecondaryIndex.wellFormed_two_doctors (by decide)⟩

/-! ## The table classes: updates and the printing members -/

set_option maxRecDepth 100000 in
/-- C21, evaluated on the code: a doctor with a name of 60 and an address of
40 characters is added to the empty table; the payload has 106 bytes, the
length field is `106` and the name starts at byte 9 of the record.
`updateDoctorName("01", "Al")` fits and writes at byte `offset + 8`: the entry
`(01, 0)` of the primary index stays, but the record at offset 0 decodes to
the id `01Al`, the name is the former address, and the address is a run of
padding. -/
theorem DoctorManagementSystem.updateDoctorName_in_place_misplaced :
    (DoctorManagementSystem.run
        [DoctorManagementSystem.Op.add (String.mk (List.replicate 60 'a'))
          (String.mk (List.replicate 40 'b')),
         DoctorManagementSystem.Op.update "01" "Al"] DoctorManagementSystem.empty).map
      (fun t => (t.doctorPrimaryIndex,
        t.doctorsFile.map (fun f => parseRecord (readLine f 0))))
      = some ([⟨"01", 0⟩],
          some ⟨" ", "106", "01Al", String.mk (List.replicate 40 'b'),
            String.mk (List.replicate 58 '-')⟩) := by
  decide

/-- C22, evaluated on the code: the appointment `(2025-01-10, doctor 01)` is
added to the empty table and gets the id `01`; `updateAppointmentDate("01",
"2025-1-1")` fits and writes the new date, its delimiter and two padding
characters over the old date and its delimiter. The record becomes
` |18|01|2025-1-1|--01|` and decodes to the doctor id `--01`, not `01`. -/
theorem AppointmentManagementSystem.updateAppointmentDate_in_place_doctor_id :
    (AppointmentManagementSystem.run
        [AppointmentManagementSystem.Op.add [⟨"01", 0⟩] "2025-01-10" "01",
         AppointmentManagementSystem.Op.update [⟨"01", 0⟩] "01" "2025-1-1"]
        AppointmentManagementSystem.empty).map
      (fun t => (t.appointmentsFile.map String.mk,
        t.appointmentsFile.map (fun f => parseRecord (readLine f 0))))
      = some (some " |18|01|2025-1-1|--01|\n",
          some ⟨" ", "18", "01", "2025-1-1", "--01"⟩) := by
  decide

set_option maxRecDepth 100000 in
/-- C25, evaluated on the code: a doctor with a payload of 106 bytes is added
to the empty table (length field `106`) and deleted, and the doctor
`(Bob, 2 Oak Ave)` is added into the freed slot. The write starts 4 bytes
behind the status byte, on the last digit of the length field: the length
field of the slot now reads `10`, and 107 bytes lie between it and the line
terminator. The components are the length field after the first request, the
length field after the last, and the number of bytes of the line behind the
status byte, the first delimiter and the length field. -/
theorem DoctorManagementSystem.reuse_changes_length_field :
    ((DoctorManagementSystem.run
        [DoctorManagementSystem.Op.add (String.mk (List.replicate 60 'a'))
          (String.mk (List.replicate 40 'b'))] DoctorManagementSystem.empty).bind
      (fun t => t.doctorsFile.map (fun f => (parseRecord (readLine f 0)).recordLen)),
     (DoctorManagementSystem.run
        [DoctorManagementSystem.Op.add (String.mk (List.replicate 60 'a'))
          (String.mk (List.replicate 40 'b')),
         DoctorManagementSystem.Op.delete "01",
         DoctorManagementSystem.Op.add "Bob" "2 Oak Ave"] DoctorManagementSystem.empty).bind
      (fun t => t.doctorsFile.map (fun f =>
        ((parseRecord (readLine f 0)).recordLen,
          (readLine f 0).length - (2 + (parseRecord (readLine f 0)).recordLen.length)))))
      = (some "106", some ("10", 107)) := by
  decide

set_option maxRecDepth 100000 in
/-- C27, evaluated on the code: for a doctor with a name of 60 and an address
of 40 characters the fresh append writes the length field `106`, three digits
wide, and the id starts 6 bytes behind the status byte; for an appointment
with a date of 92 characters the length field is `100`. -/
theorem fresh_append_three_digit_length_field :
    (DoctorManagementSystem.addDoctor DoctorManagementSystem.empty
        ⟨"", String.mk (List.replicate 60 'a'), String.mk (List.replicate 40 'b')⟩).bind
      (fun r => r.1.doctorsFile.map (fun f => String.mk (f.take 9)))
      = some " |106|01|" ∧
    (AppointmentManagementSystem.addAppointment [⟨"01", 0⟩] AppointmentManagementSystem.empty
        ⟨"", String.mk (List.replicate 92 'x'), "01"⟩).bind
      (fun r => r.1.appointmentsFile.map (fun f => String.mk (f.take 9)))
      = some " |100|01|" := by
  decide

/-- C28, evaluated on the code: the doctor `(Anne-Marie, 1 Main St)` is added
to the empty table and `printDoctorById("01", 2)` prints the name `AnneMarie`;
the appointment `(2025-01-10, doctor 01)` is added to the empty table and
`printAppointmentById("01", 2)` prints the date `20250110`. -/
theorem print_by_id_drops_dashes :
    (DoctorManagementSystem.run [DoctorManagementSystem.Op.add "Anne-Marie" "1 Main St"]
        DoctorManagementSystem.empty).bind
      (fun t => DoctorManagementSystem.printDoctorById t "01" 2) = some "Name: AnneMarie\n" ∧
    (AppointmentManagementSystem.run
        [AppointmentManagementSystem.Op.add [⟨"01", 0⟩] "2025-01-10" "01"]
        AppointmentManagementSystem.empty).bind
      (fun t => AppointmentManagementSystem.printAppointmentById t "01" 2)
      = some "Date: 20250110\n" := by
  decide

set_option maxRecDepth 100000 in
/-- C30, evaluated on the code: a doctor with a name of 60 and an address of
40 characters is added to the empty table and `updateDoctorName("01", "Al")`
updates the record in place. `searchDoctorsByName("Al")` returns the id `01`,
while the record of `01` in the file decodes to the name `bbb...b`, the former
address; no record of the file decodes to the name `Al`. -/
theorem DoctorManagementSystem.searchDoctorsByName_after_misplaced_update :
    (DoctorManagementSystem.run
        [DoctorManagementSystem.Op.add (String.mk (List.replicate 60 'a'))
          (String.mk (List.replicate 40 'b')),
         DoctorManagementSystem.Op.update "01" "Al"] DoctorManagementSystem.empty).bind
      (fun t => (DoctorManagementSystem.searchDoctorsByName t "Al").map
        (fun r => (r.2, t.doctorPrimaryIndex,
          t.doctorsFile.map (fun f => (parseRecord (readLine f 0)).second))))
      = some (["01"], [⟨"01", 0⟩], some (String.mk (List.replicate 40 'b'))) := by
  decide

/-! ## The record written by a fresh append -/

theorem lengthField_eq (n : Int) :
    (if n < 10 then ['0'] else []) ++ (to_string n).data = (idString n).data := by
  unfold idString
  by_cases h : n < 10
  · rw [if_pos h, if_pos h]
    rfl
  · rw [if_neg h, if_neg h]
    rfl

theorem freshRecord_eq (size : Int) (id second third : String) :
    freshRecord size id second third
      = ' ' :: '|' :: (idString size).data ++ '|' :: id.data ++ '|' :: second.data ++
          '|' :: third.data ++ ['|', '\n'] := by
  unfold freshRecord payload
  rw [← lengthField_eq]
  simp only [List.append_assoc, List.cons_append, List.nil_append, List.singleton_append]

theorem freshRecord_line (size : Int) (id second third : String) :
    freshRecord size id second third
      = recordLine ' ' (idString size).data id.data second.data third.data [] ++ ['\n'] := by
  rw [freshRecord_eq]
  unfold recordLine
  simp only [List.append_assoc, List.cons_append, List.nil_append, List.singleton_append]

theorem encodeLines_cons (l : List Char) (ls : List (List Char)) :
    encodeLines (l :: ls) = l ++ '\n' :: encodeLines ls := by
  simp [encodeLines]

theorem encodeLines_append (a b : List (List Char)) :
    encodeLines (a ++ b) = encodeLines a ++ encodeLines b := by
  simp [encodeLines]

theorem encodeLines_split (pre : List (List Char)) (l : List Char) (post : List (List Char)) :
    encodeLines (pre ++ l :: post) = encodeLines pre ++ l ++ '\n' :: encodeLines post := by
  rw [encodeLines_append, encodeLines_cons, List.append_assoc]

theorem writeAt_inside (f : List Char) (pos : Nat) (bs : List Char)
    (h : pos + bs.length ≤ f.length) :
    writeAt f pos bs = f.take pos ++ bs ++ f.drop (pos + bs.length) := by
  cases bs with
  | nil => simp [writeAt]
  | cons b bs =>
    show f.take pos ++ List.replicate (pos - f.length) '\x00' ++ (b :: bs)
      ++ f.drop (pos + (bs.length + 1)) = _
    have h0 : pos - f.length = 0 := by
      simp only [List.length_cons] at h
      omega
    rw [h0]
    simp

theorem writeAt_middle (A B C : List Char) (d : Nat) (bs : List Char)
    (h : d + bs.length ≤ B.length) :
    writeAt (A ++ B ++ C) (A.length + d) bs
      = A ++ (B.take d ++ bs ++ B.drop (d + bs.length)) ++ C := by
  rw [writeAt_inside _ _ _ (by simp only [List.length_append]; omega)]
  have h1 : (A ++ B ++ C).take (A.length + d) = A ++ B.take d := by
    rw [List.append_assoc, List.take_append, List.take_append_of_le_length (by omega)]
  have h2 : (A ++ B ++ C).drop (A.length + d + bs.length) = B.drop (d + bs.length) ++ C := by
    rw [List.append_assoc, Nat.add_assoc, List.drop_append,
      List.drop_append_of_le_length (by omega)]
  rw [h1, h2]
  simp only [List.append_assoc]

theorem takeWhile_stop {α : Type} (p : α → Bool) (l : List α) (x : α) (rest : List α)
    (hl : ∀ y ∈ l, p y = true) (hx : p x = false) :
    (l ++ x :: rest).takeWhile p = l := by
  induction l with
  | nil => simp [List.takeWhile_cons, hx]
  | cons a t ih =>
    simp only [List.cons_append, List.takeWhile_cons, hl a (List.mem_cons_self _ _), if_true]
    rw [ih (fun y hy => hl y (List.mem_cons_of_mem _ hy))]

theorem dropWhile_stop {α : Type} (p : α → Bool) (l : List α) (x : α) (rest : List α)
    (hl : ∀ y ∈ l, p y = true) (hx : p x = false) :
    (l ++ x :: rest).dropWhile p = x :: rest := by
  induction l with
  | nil => simp [List.dropWhile_cons, hx]
  | cons a t ih =>
    simp only [List.cons_append, List.dropWhile_cons, hl a (List.mem_cons_self _ _), if_true]
    rw [ih (fun y hy => hl y (List.mem_cons_of_mem _ hy))]

theorem ne_of_not_mem {c : Char} {l : List Char} (h : c ∉ l) :
    ∀ y ∈ l, (y != c) = true := by
  intro y hy
  simp only [bne_iff_ne, ne_eq]
  intro e
  exact h (e ▸ hy)

theorem readLine_line (A l C : List Char) (h : '\n' ∉ l) :
    readLine (A ++ l ++ '\n' :: C) A.length = String.mk l := by
  unfold readLine
  rw [List.append_assoc, List.drop_left, takeWhile_stop _ _ _ _ (ne_of_not_mem h) (by simp)]

theorem lineTerminated_line (A l C : List Char) :
    lineTerminated (A ++ l ++ '\n' :: C) A.length = true := by
  unfold lineTerminated
  rw [List.append_assoc, List.drop_left]
  simp

theorem splitField_field (a rest : List Char) (h : '|' ∉ a) :
    splitField (a ++ '|' :: rest) = (String.mk a, rest) := by
  unfold splitField
  rw [takeWhile_stop _ _ _ _ (ne_of_not_mem h) (by simp),
    dropWhile_stop _ _ _ _ (ne_of_not_mem h) (by simp)]
  rfl

theorem recordLine_length (st : Char) (len id second third rest : List Char) :
    (recordLine st len id second third rest).length
      = len.length + id.length + second.length + third.length + rest.length + 6 := by
  unfold recordLine
  simp only [List.length_cons, List.length_append]
  omega

theorem recordLine_head (st : Char) (len id second third rest : List Char) :
    (recordLine st len id second third rest).head? = some st := rfl

theorem recordLine_newline (st : Char) (len id second third rest : List Char) :
    '\n' ∉ recordLine st len id second third rest ↔
      st ≠ '\n' ∧ '\n' ∉ len ∧ '\n' ∉ id ∧ '\n' ∉ second ∧ '\n' ∉ third ∧ '\n' ∉ rest := by
  unfold recordLine
  simp only [List.mem_cons, List.mem_append, not_or]
  constructor
  · rintro ⟨h1, _, h2, _, h3, _, h4, _, h5, _, h6⟩
    exact ⟨fun e => h1 e.symm, h2, h3, h4, h5, h6⟩
  · rintro ⟨h1, h2, h3, h4, h5, h6⟩
    exact ⟨fun e => h1 e.symm, by decide, h2, by decide, h3, by decide, h4, by decide, h5,
      by decide, h6⟩

theorem parseRecord_fields (st : Char) (len id second third rest : List Char) (hst : st ≠ '|')
    (hlen : '|' ∉ len) (hid : '|' ∉ id) (hsecond : '|' ∉ second) (hthird : '|' ∉ third) :
    parseRecord (String.mk (recordLine st len id second third rest))
      = ⟨String.mk [st], String.mk len, String.mk id, String.mk second, String.mk third⟩ := by
  have e : recordLine st len id second third rest
      = [st] ++ '|' :: (len ++ '|' :: (id ++ '|' :: (second ++ '|' :: (third ++ '|' :: rest)))) :=
    rfl
  unfold parseRecord
  simp only [e]
  rw [splitField_field [st] _ (by simpa using hst.symm)]
  simp only [splitField_field _ _ hlen, splitField_field _ _ hid, splitField_field _ _ hsecond,
    splitField_field _ _ hthird]

theorem getlineField_field (a rest : List Char) (prev : String) (h : '|' ∉ a) :
    getlineField (some (a ++ '|' :: rest)) prev = (some rest, String.mk a) := by
  unfold getlineField
  have hc : (a ++ '|' :: rest).contains '|' = true := by simp
  simp only [hc, if_true]
  rw [takeWhile_stop _ _ _ _ (ne_of_not_mem h) (by simp),
    dropWhile_stop _ _ _ _ (ne_of_not_mem h) (by simp)]
  rfl

theorem getlineField_last (a : List Char) (prev : String) (h : '|' ∉ a) :
    getlineField (some a) prev = (none, String.mk a) := by
  unfold getlineField
  have hc : a.contains '|' = false := by simpa using h
  simp only [hc]
  rfl

theorem getLines_line (l rest : List Char) (h : '\n' ∉ l) :
    getLines (l ++ '\n' :: rest) = l :: getLines rest := by
  induction l with
  | nil => simp [getLines]
  | cons c t ih =>
    have hc : c ≠ '\n' := fun e => h (e ▸ List.mem_cons_self _ _)
    have ht : '\n' ∉ t := fun hm => h (List.mem_cons_of_mem _ hm)
    rw [List.cons_append, getLines, if_neg hc, ih ht]

theorem isDigit_not_special (c : Char) (h : c.isDigit = true) :
    isspace c = false ∧ c ≠ '-' ∧ c ≠ '+' ∧ c ≠ '|' ∧ c ≠ '\n' ∧ c ≠ ' ' ∧ c ≠ '*' := by
  refine ⟨?_, ?_, ?_, ?_, ?_, ?_, ?_⟩
  · cases hs : isspace c with
    | false => rfl
    | true =>
      unfold isspace at hs
      simp only [Bool.or_eq_true, decide_eq_true_eq] at hs
      rcases hs with ((((rfl | rfl) | rfl) | rfl) | rfl) | rfl <;> exact absurd h (by decide)
  all_goals
    intro e
    subst e
    exact absurd h (by decide)

theorem stoi_digits (ds : List Char) (hne : ds ≠ []) (hall : ∀ c ∈ ds, c.isDigit = true) :
    stoi (String.mk ds) = inIntRange (stoiDigits ds : Int) := by
  cases ds with
  | nil => exact absurd rfl hne
  | cons c rest =>
    obtain ⟨h1, h2, h3, _⟩ := isDigit_not_special c (hall c (List.mem_cons_self _ _))
    unfold stoi
    simp only [List.dropWhile_cons, h1, h2, h3, if_false, Bool.false_eq_true]
    unfold stoiBody
    rw [takeWhile_all _ _ hall]
    simp only [List.isEmpty_cons, Bool.false_eq_true, if_false]

theorem stoi_digits_nonneg (len : List Char) (hne : len ≠ [])
    (hall : ∀ c ∈ len, c.isDigit = true) (v : Int) (hv : stoi (String.mk len) = some v) :
    0 ≤ v := by
  rw [stoi_digits _ hne hall] at hv
  unfold inIntRange at hv
  split_ifs at hv
  injection hv with hv
  omega

theorem toDigitsCore_length (fuel : Nat) : ∀ (n : Nat) (ds : List Char), n < fuel →
    ds.length + 1 ≤ (Nat.toDigitsCore 10 fuel n ds).length ∧
    (10 ≤ n → ds.length + 2 ≤ (Nat.toDigitsCore 10 fuel n ds).length) ∧
    ∀ k, 1 ≤ k → n < 10 ^ k → (Nat.toDigitsCore 10 fuel n ds).length ≤ ds.length + k := by
  induction fuel with
  | zero => intro n ds h; omega
  | succ fuel ih =>
    intro n ds h
    unfold Nat.toDigitsCore
    by_cases h0 : n / 10 = 0
    · simp only [h0, if_true, List.length_cons]
      refine ⟨le_refl _, fun h10 => by omega, fun k hk _ => by omega⟩
    · simp only [h0, if_false]
      have hlt : n / 10 < fuel := by omega
      obtain ⟨h1, _, h3⟩ := ih (n / 10) (Nat.digitChar (n % 10) :: ds) hlt
      simp only [List.length_cons] at h1 h3
      refine ⟨by omega, fun _ => by omega, fun k hk hn => ?_⟩
      have hk2 : 2 ≤ k := by
        by_contra hc
        have : k = 1 := by omega
        subst this
        omega
      have := h3 (k - 1) (by omega) (by
        have e : 10 ^ k = 10 ^ (k - 1) * 10 := by
          rw [← pow_succ]
          congr 1
          omega
        rw [e] at hn
        exact Nat.div_lt_of_lt_mul (by rw [Nat.mul_comm]; exact hn))
      omega

theorem idString_props (m : Nat) :
    (∀ c ∈ (idString (m : Int)).data, c.isDigit = true) ∧ 2 ≤ (idString (m : Int)).length ∧
      (m ≤ 2147483647 → (idString (m : Int)).length ≤ 10) := by
  obtain ⟨⟨c, rest, e, h1, _, _, _, h5⟩, _⟩ := toDigitsCore_spec (m + 1) m [] (Nat.lt_succ_self m)
  obtain ⟨l1, l2, l3⟩ := toDigitsCore_length (m + 1) m [] (Nat.lt_succ_self m)
  have hts : (to_string (m : Int)).data = Nat.toDigitsCore 10 (m + 1) m [] := rfl
  have hall : ∀ d ∈ (to_string (m : Int)).data, d.isDigit = true := by
    intro d hd
    rw [hts, e] at hd
    rcases List.mem_cons.1 hd with rfl | hd
    · exact h1
    · exact h5 (by simp) d hd
  unfold idString
  by_cases h : (m : Int) < 10
  · rw [if_pos h]
    have hd : ("0" ++ to_string (m : Int)).data = '0' :: (to_string (m : Int)).data := rfl
    refine ⟨?_, ?_, fun _ => ?_⟩
    · intro d hdm
      rw [hd] at hdm
      rcases List.mem_cons.1 hdm with rfl | hdm
      · decide
      · exact hall d hdm
    · show 2 ≤ ("0" ++ to_string (m : Int)).data.length
      rw [hd, hts, List.length_cons]
      simp only [List.length_nil] at l1
      omega
    · show ("0" ++ to_string (m : Int)).data.length ≤ 10
      rw [hd, hts, List.length_cons]
      have := l3 1 (le_refl _) (by omega)
      simp only [List.length_nil] at this
      omega
  · rw [if_neg h]
    refine ⟨hall, ?_, fun hm => ?_⟩
    · show 2 ≤ (to_string (m : Int)).data.length
      rw [hts]
      simp only [List.length_nil] at l2
      exact l2 (by omega)
    · show (to_string (m : Int)).data.length ≤ 10
      rw [hts]
      have := l3 10 (by omega) (by omega)
      simp only [List.length_nil] at this
      omega

theorem digits_clean (ds : List Char) (hall : ∀ c ∈ ds, c.isDigit = true) :
    '|' ∉ ds ∧ '\n' ∉ ds := by
  constructor <;> intro hm <;> exact absurd (hall _ hm) (by decide)

/-! ## The entries of the lines -/

theorem activeEntries_cons (o : Nat) (l : List Char) (ls : List (List Char)) :
    activeEntries o (l :: ls)
      = if l.head? = some ' ' then
          ⟨(parseRecord (String.mk l)).record_id, (o : Int)⟩
            :: activeEntries (o + (l.length + 1)) ls
        else activeEntries (o + (l.length + 1)) ls := rfl

theorem freeEntries_cons (o : Nat) (l : List Char) (ls : List (List Char)) :
    freeEntries o (l :: ls)
      = if l.head? = some '*' then
          ⟨(o : Int), (stoi (parseRecord (String.mk l)).recordLen).getD 0⟩
            :: freeEntries (o + (l.length + 1)) ls
        else freeEntries (o + (l.length + 1)) ls := rfl

theorem activeEntries_append (pre ls : List (List Char)) : ∀ o : Nat,
    activeEntries o (pre ++ ls)
      = activeEntries o pre ++ activeEntries (o + (encodeLines pre).length) ls := by
  induction pre with
  | nil => intro o; simp [activeEntries, encodeLines]
  | cons l t ih =>
    intro o
    have e : o + (l.length + 1) + (encodeLines t).length
        = o + (encodeLines (l :: t)).length := by
      rw [encodeLines_cons]
      simp only [List.length_append, List.length_cons]
      omega
    rw [List.cons_append, activeEntries_cons, activeEntries_cons, ih, e]
    by_cases h : l.head? = some ' '
    · simp only [h, if_true, List.cons_append]
    · simp only [h, if_false]

theorem freeEntries_append (pre ls : List (List Char)) : ∀ o : Nat,
    freeEntries o (pre ++ ls)
      = freeEntries o pre ++ freeEntries (o + (encodeLines pre).length) ls := by
  induction pre with
  | nil => intro o; simp [freeEntries, encodeLines]
  | cons l t ih =>
    intro o
    have e : o + (l.length + 1) + (encodeLines t).length
        = o + (encodeLines (l :: t)).length := by
      rw [encodeLines_cons]
      simp only [List.length_append, List.length_cons]
      omega
    rw [List.cons_append, freeEntries_cons, freeEntries_cons, ih, e]
    by_cases h : l.head? = some '*'
    · simp only [h, if_true, List.cons_append]
    · simp only [h, if_false]

theorem mem_activeEntries (e : PrimaryIndexNode) (ls : List (List Char)) : ∀ o : Nat,
    e ∈ activeEntries o ls → ∃ pre l post, ls = pre ++ l :: post ∧ l.head? = some ' ' ∧
      e = ⟨(parseRecord (String.mk l)).record_id, ((o + (encodeLines pre).length : Nat) : Int)⟩ := by
  induction ls with
  | nil => intro o h; simp [activeEntries] at h
  | cons l t ih =>
    intro o h
    have step : e ∈ activeEntries (o + (l.length + 1)) t → ∃ pre l1 post,
        l :: t = pre ++ l1 :: post ∧ l1.head? = some ' ' ∧
        e = ⟨(parseRecord (String.mk l1)).record_id,
          ((o + (encodeLines pre).length : Nat) : Int)⟩ := by
      intro hm
      obtain ⟨pre, l1, post, e1, e2, e3⟩ := ih _ hm
      refine ⟨l :: pre, l1, post, by rw [e1]; rfl, e2, ?_⟩
      rw [e3, encodeLines_cons]
      simp only [List.length_append, List.length_cons]
      congr 2
      omega
    by_cases hl : l.head? = some ' '
    · simp only [activeEntries, hl, if_true, List.mem_cons] at h
      rcases h with rfl | h
      · exact ⟨[], l, t, rfl, hl, by simp [encodeLines]⟩
      · exact step h
    · simp only [activeEntries, hl, if_false] at h
      exact step h

theorem perm_cons_eraseIdx {α : Type} (l : List α) (i : Nat) (hi : i < l.length) :
    l.Perm (l[i] :: l.eraseIdx i) := by
  rw [List.eraseIdx_eq_take_drop_succ]
  conv_lhs => rw [← List.take_append_drop i l, List.drop_eq_getElem_cons hi]
  exact List.perm_middle

theorem TableInv.perm {p p1 : PrimaryIndex} {a a1 : AvailList} {f : List Char}
    {ls : List (List Char)} (h : TableInv p a f ls) (hp : p1.Perm p) (ha : a1.Perm a) :
    TableInv p1 a1 f ls :=
  ⟨h.file_eq, h.slots, hp.trans h.primary_perm, ha.trans h.avail_perm⟩

theorem reusedBytes_eq (size : Int) (id second third : String)
    (h : (id.length : Int) + (second.length : Int) + (third.length : Int) + 4 ≤ size) :
    reusedBytes size id second third
      = '|' :: id.data ++ '|' :: second.data ++ '|' :: third.data ++
          '|' :: List.replicate
            (size - ((id.length : Int) + (second.length : Int) + (third.length : Int) + 4)).toNat
            '-' := by
  have hp := payload_length id second third
  unfold reusedBytes
  dsimp only
  rw [if_pos (by omega), hp]
  have hl : (payload id second third ++ List.replicate
      (size - ((id.length : Int) + (second.length : Int) + (third.length : Int) + 4)).toNat
        '-').length = size.toNat := by
    simp only [List.length_append, List.length_replicate]
    omega
  rw [List.take_append_of_le_length (by omega), ← hl, List.take_length]
  unfold payload
  simp only [List.append_assoc, List.cons_append, List.nil_append, List.singleton_append]

/-- The line that a fresh append writes, without its line terminator. -/
theorem freshLine_slot (L : Nat) (id second third : String) (hL : L ≤ 2147483647)
    (hLe : L = id.length + second.length + third.length + 4)
    (hid : CleanField id) (hs : CleanField second) (ht : CleanField third) :
    IsSlot (recordLine ' ' (idString (L : Int)).data id.data second.data third.data []) := by
  obtain ⟨hdig, hlen2, _⟩ := idString_props L
  obtain ⟨hd1, hd2⟩ := digits_clean _ hdig
  refine ⟨' ', (idString (L : Int)).data, id.data, second.data, third.data, [], rfl, Or.inl rfl,
    hlen2, hdig, hid.1, hs.1, ht.1, ?_, (L : Int), stoi_idString L hL, ?_⟩
  · exact (recordLine_newline _ _ _ _ _ _).2
      ⟨by decide, hd2, hid.2, hs.2, ht.2, List.not_mem_nil _⟩
  · rw [recordLine_length]
    simp only [String.length, List.length_nil] at hLe hlen2 ⊢
    push_cast
    omega

theorem TableInv.append {p : PrimaryIndex} {a : AvailList} {f : List Char}
    {ls : List (List Char)} (h : TableInv p a f ls) (L : Nat) (id second third : String)
    (hL : L ≤ 2147483647) (hLe : L = id.length + second.length + third.length + 4)
    (hid : CleanField id) (hs : CleanField second) (ht : CleanField third) :
    TableInv (PrimaryIndex.addPrimaryNode p id (f.length : Int)) a
      (f ++ freshRecord (L : Int) id second third)
      (ls ++ [recordLine ' ' (idString (L : Int)).data id.data second.data third.data []]) := by
  have hslot := freshLine_slot L id second third hL hLe hid hs ht
  obtain ⟨hdig, _, _⟩ := idString_props L
  obtain ⟨hd1, _⟩ := digits_clean _ hdig
  refine ⟨?_, ?_, ?_, ?_⟩
  · rw [encodeLines_append, ← h.file_eq, freshRecord_line]
    simp [encodeLines]
  · intro l hl
    rcases List.mem_append.1 hl with hl | hl
    · exact h.slots l hl
    · rw [List.mem_singleton.1 hl]
      exact hslot
  · have hparse := parseRecord_fields ' ' (idString (L : Int)).data id.data second.data
      third.data [] (by decide) hd1 hid.1 hs.1 ht.1
    rw [activeEntries_append, activeEntries_cons, recordLine_head, if_pos rfl, hparse, ← h.file_eq, Nat.zero_add]
    exact (PrimaryIndex.sortPrimaryIndex_perm _).trans
      (List.Perm.append h.primary_perm (List.Perm.refl _))
  · rw [freeEntries_append, freeEntries_cons, recordLine_head, if_neg (by decide)]
    simpa [freeEntries] using h.avail_perm

theorem isSlot_of_head (l : List Char) (c : Char) (hs : IsSlot l) (hc : l.head? = some c) :
    ∃ len id second third rest, l = recordLine c len id second third rest ∧
      (c = ' ' ∨ c = '*') ∧ 2 ≤ len.length ∧ (∀ x ∈ len, x.isDigit = true) ∧
      '|' ∉ id ∧ '|' ∉ second ∧ '|' ∉ third ∧ '\n' ∉ l ∧
      ∃ v, stoi (String.mk len) = some v ∧ v + 4 ≤ (l.length : Int) := by
  obtain ⟨st, len, id, second, third, rest, hl, h1, h2, h3, h4, h5, h6, h7, h8⟩ := hs
  have e : st = c := by
    rw [hl] at hc
    exact Option.some.inj hc
  subst e
  exact ⟨len, id, second, third, rest, hl, h1, h2, h3, h4, h5, h6, h7, h8⟩

/-- What the table invariant says on an entry of the primary index: its
offset is the start of a line of the file that holds an active record with
the key of the entry as id. -/
theorem TableInv.active {p : PrimaryIndex} {a : AvailList} {f : List Char}
    {ls : List (List Char)} (h : TableInv p a f ls) (e : PrimaryIndexNode) (he : e ∈ p) :
    ∃ (pre post : List (List Char)) (len id second third rest : List Char) (v : Int),
      ls = pre ++ recordLine ' ' len id second third rest :: post ∧
      f = encodeLines pre ++ recordLine ' ' len id second third rest ++ '\n' :: encodeLines post ∧
      e = ⟨String.mk id, ((encodeLines pre).length : Int)⟩ ∧
      2 ≤ len.length ∧ (∀ x ∈ len, x.isDigit = true) ∧
      '|' ∉ len ∧ '|' ∉ id ∧ '|' ∉ second ∧ '|' ∉ third ∧
      '\n' ∉ recordLine ' ' len id second third rest ∧
      stoi (String.mk len) = some v ∧
      v + 4 ≤ ((recordLine ' ' len id second third rest).length : Int) := by
  obtain ⟨pre, l, post, hls, hhead, he1⟩ := mem_activeEntries e ls 0 (h.primary_perm.subset he)
  obtain ⟨len, id, second, third, rest, hl, _, h2, h3, h4, h5, h6, h7, v, h8, h9⟩ :=
    isSlot_of_head l ' ' (h.slots l (by rw [hls]; simp)) hhead
  obtain ⟨hd1, _⟩ := digits_clean _ h3
  subst hl
  rw [parseRecord_fields ' ' len id second third rest (by decide) hd1 h4 h5 h6, Nat.zero_add]
    at he1
  exact ⟨pre, post, len, id, second, third, rest, v, hls,
    by rw [h.file_eq, hls, encodeLines_split], he1, h2, h3, hd1, h4, h5, h6, h7, h8, h9⟩

namespace PrimaryIndex

/-- The searches of `binarySearchPrimaryIndex` and of `removePrimaryNode` take
the same way through any index: both miss the key, or both stop at the same
position `j`. -/
theorem search_joint (idx : PrimaryIndex) (k : String) : ∀ (fuel : Nat) (left right : Int),
    0 ≤ left → right < (idx.length : Int) → (right - left + 1).toNat < fuel →
    (searchLoop idx k fuel left right = some (-1) ∧
      removeSearch idx k fuel left right = some idx) ∨
    ∃ j, ∃ hj : j < idx.length, idx[j].primaryKey = k ∧
      searchLoop idx k fuel left right = some idx[j].offset ∧
      removeSearch idx k fuel left right = some (sortPrimaryIndex (idx.eraseIdx j)) := by
  intro fuel
  induction fuel with
  | zero => intro left right _ _ hf; omega
  | succ fuel ih =>
    intro left right hl hr hf
    by_cases h1 : left ≤ right
    · have hlt : (left + (right - left) / 2).toNat < idx.length := by omega
      by_cases h3 : idx[(left + (right - left) / 2).toNat].primaryKey = k
      · refine Or.inr ⟨_, hlt, h3, ?_, ?_⟩
        · unfold searchLoop
          dsimp only
          rw [if_pos h1, if_neg (by omega), List.getElem?_eq_getElem hlt]
          dsimp only
          rw [if_pos h3]
        · unfold removeSearch
          dsimp only
          rw [if_pos h1, if_neg (by omega), List.getElem?_eq_getElem hlt]
          dsimp only
          rw [if_pos h3]
      · by_cases h4 : strLt k idx[(left + (right - left) / 2).toNat].primaryKey
        · have e1 : searchLoop idx k (fuel + 1) left right
              = searchLoop idx k fuel left (left + (right - left) / 2 - 1) := by
            conv_lhs => unfold searchLoop
            dsimp only
            rw [if_pos h1, if_neg (by omega), List.getElem?_eq_getElem hlt]
            dsimp only
            rw [if_neg h3, if_pos h4]
          have e2 : removeSearch idx k (fuel + 1) left right
              = removeSearch idx k fuel left (left + (right - left) / 2 - 1) := by
            conv_lhs => unfold removeSearch
            dsimp only
            rw [if_pos h1, if_neg (by omega), List.getElem?_eq_getElem hlt]
            dsimp only
            rw [if_neg h3, if_neg (strLt_asymm h4)]
          rw [e1, e2]
          exact ih _ _ hl (by omega) (by omega)
        · have e1 : searchLoop idx k (fuel + 1) left right
              = searchLoop idx k fuel (left + (right - left) / 2 + 1) right := by
            conv_lhs => unfold searchLoop
            dsimp only
            rw [if_pos h1, if_neg (by omega), List.getElem?_eq_getElem hlt]
            dsimp only
            rw [if_neg h3, if_neg h4]
          have e2 : removeSearch idx k (fuel + 1) left right
              = removeSearch idx k fuel (left + (right - left) / 2 + 1) right := by
            conv_lhs => unfold removeSearch
            dsimp only
            rw [if_pos h1, if_neg (by omega), List.getElem?_eq_getElem hlt]
            dsimp only
            rw [if_neg h3, if_pos (strLt_of_le_ne h4 h3)]
          rw [e1, e2]
          exact ih _ _ (by omega) hr (by omega)
    · refine Or.inl ⟨?_, ?_⟩
      · unfold searchLoop
        rw [if_neg h1]
      · unfold removeSearch
        rw [if_neg h1]

theorem search_remove (idx : PrimaryIndex) (k : String) :
    (binarySearchPrimaryIndex idx k = some (-1) ∧ removePrimaryNode idx k = some idx) ∨
    ∃ j, ∃ hj : j < idx.length, idx[j].primaryKey = k ∧
      binarySearchPrimaryIndex idx k = some idx[j].offset ∧
      removePrimaryNode idx k = some (sortPrimaryIndex (idx.eraseIdx j)) :=
  search_joint idx k _ _ _ (le_refl _) (by omega) (by omega)

end PrimaryIndex

/-! ## Additions and deletions keep the invariant of the doctor table -/

namespace DoctorManagementSystem

end DoctorManagementSystem

theorem sortPrimaryIndex_of_sorted (idx : PrimaryIndex) (hs : PrimaryIndex.SortedByKey idx) :
    PrimaryIndex.sortPrimaryIndex idx = idx :=
  List.Sorted.insertionSort_eq hs

namespace AppointmentManagementSystem

end AppointmentManagementSystem

/-! ## The scans of the tables -/

namespace AppointmentManagementSystem

end AppointmentManagementSystem

theorem to_string_digits (o : Nat) : ∀ c ∈ (to_string (o : Int)).data, c.isDigit = true := by
  obtain ⟨⟨c, rest, e, h1, _, _, _, h5⟩, _⟩ := toDigitsCore_spec (o + 1) o [] (Nat.lt_succ_self o)
  have hts : (to_string (o : Int)).data = Nat.toDigitsCore 10 (o + 1) o [] := rfl
  intro d hd
  rw [hts, e] at hd
  rcases List.mem_cons.1 hd with rfl | hd
  · exact h1
  · exact h5 (by simp) d hd

namespace DoctorManagementSystem

end DoctorManagementSystem

namespace SecondaryIndex

/-- The node list after `addPrimaryKeyToSecondaryNode`: the list that
`getFreeLabelIndex` leaves, perhaps with another `nextIndex` in one node,
with the new node stored at the free index. -/
theorem add_list (s : SecondaryIndex) (sk p : String) (s1 : SecondaryIndex)
    (h : addPrimaryKeyToSecondaryNode s sk p = some s1) :
    ∃ l : List PrimaryKeyNode, l.length = (getFreeLabelIndex s).1.primaryKeyList.length ∧
      s1.primaryKeyList = l.set (getFreeLabelIndex s).2 ⟨p, "-1"⟩ := by
  unfold addPrimaryKeyToSecondaryNode at h
  dsimp only at h
  split at h
  · injection h with h
    subst h
    exact ⟨_, rfl, rfl⟩
  · split at h
    · injection h with h
      subst h
      exact ⟨_, rfl, rfl⟩
    · split at h
      · exact absurd h (by simp)
      · injection h with h
        subst h
        exact ⟨_, setNextIndex_length _ _ _, rfl⟩

end SecondaryIndex

/-- C34: free nodes are recycled before the node array grows. On a
well-formed index of at most 2^31 - 1 nodes `addPrimaryKeyToSecondaryNode`
returns; and whenever it returns: if some node is free (`nextIndex` is `##`),
the new primary key is stored, with `nextIndex` `-1`, in the free node of the
lowest index and the array keeps its length; if no node is free, the array is
one node longer and the new node, at the end, holds the new primary key. -/
theorem SecondaryIndex.add_recycles_free_node (s : SecondaryIndex)
    (secondaryKey primaryKey : String) :
    (SecondaryIndex.WellFormed s → s.primaryKeyList.length ≤ 2147483647 →
      ∃ s1, SecondaryIndex.addPrimaryKeyToSecondaryNode s secondaryKey primaryKey = some s1) ∧
    ∀ s1, SecondaryIndex.addPrimaryKeyToSecondaryNode s secondaryKey primaryKey = some s1 →
      ((∃ nd ∈ s.primaryKeyList, nd.nextIndex = "##") →
        ∃ (i : Nat) (nd : PrimaryKeyNode), s.primaryKeyList[i]? = some nd ∧ nd.nextIndex = "##" ∧
          (∀ j, j < i → ∀ nd1 : PrimaryKeyNode, s.primaryKeyList[j]? = some nd1 →
            nd1.nextIndex ≠ "##") ∧
          s1.primaryKeyList[i]? = some ⟨primaryKey, "-1"⟩ ∧
          s1.primaryKeyList.length = s.primaryKeyList.length) ∧
      ((∀ nd ∈ s.primaryKeyList, nd.nextIndex ≠ "##") →
        s1.primaryKeyList.length = s.primaryKeyList.length + 1 ∧
        s1.primaryKeyList[s.primaryKeyList.length]? = some ⟨primaryKey, "-1"⟩) := by
  constructor
  · rintro ⟨ch, hw⟩ hlen
    obtain ⟨s1, _, h, _⟩ := SecondaryIndex.add_spec s ch hw hlen secondaryKey primaryKey
    exact ⟨s1, h⟩
  · intro s1 h
    obtain ⟨l, hl, hs1⟩ := SecondaryIndex.add_list s secondaryKey primaryKey s1 h
    cases hf : SecondaryIndex.firstFree s.primaryKeyList 0 with
    | some i =>
      have hg : SecondaryIndex.getFreeLabelIndex s = (s, i) := by
        unfold SecondaryIndex.getFreeLabelIndex
        rw [hf]
      rw [hg] at hl hs1
      dsimp only at hl hs1
      obtain ⟨_, ⟨nd, hnd, hfree⟩, hlow⟩ := SecondaryIndex.firstFree_some _ 0 i hf
      simp only [Nat.sub_zero] at hnd hlow
      have hi : i < s.primaryKeyList.length := by
        by_contra hc
        rw [List.getElem?_eq_none (by omega)] at hnd
        exact absurd hnd (by simp)
      constructor
      · intro _
        refine ⟨i, nd, hnd, hfree, hlow, ?_, ?_⟩
        · rw [hs1, List.getElem?_set_self (by omega)]
        · rw [hs1, List.length_set, hl]
      · intro hno
        exact absurd hfree (hno nd (List.getElem?_mem hnd))
    | none =>
      have hg : SecondaryIndex.getFreeLabelIndex s
          = (⟨s.secondaryIndexMap, s.primaryKeyList ++ [⟨"##", "##"⟩]⟩,
              s.primaryKeyList.length) := by
        unfold SecondaryIndex.getFreeLabelIndex
        rw [hf]
      rw [hg] at hl hs1
      dsimp only at hl hs1
      rw [List.length_append, List.length_singleton] at hl
      constructor
      · rintro ⟨nd, hmem, hfree⟩
        exact absurd hfree (SecondaryIndex.firstFree_none _ 0 hf nd hmem)
      · intro _
        constructor
        · rw [hs1, List.length_set, hl]
        · rw [hs1, List.getElem?_set_self (by omega)]

theorem SecondaryIndex.add_recycles_free_node_witness :
    (∃ s1, SecondaryIndex.addPrimaryKeyToSecondaryNode
      ⟨[("Alice", -1), ("Bob", 1)], [⟨"##", "##"⟩, ⟨"02", "-1"⟩]⟩ "Bob" "03" = some s1) ∧
    ((∃ nd ∈ [(⟨"##", "##"⟩ : PrimaryKeyNode), ⟨"02", "-1"⟩], nd.nextIndex = "##") →
      ∃ (i : Nat) (nd : PrimaryKeyNode),
        [(⟨"##", "##"⟩ : PrimaryKeyNode), ⟨"02", "-1"⟩][i]? = some nd ∧
        nd.nextIndex = "##" ∧
        (∀ j, j < i → ∀ nd1 : PrimaryKeyNode,
          [(⟨"##", "##"⟩ : PrimaryKeyNode), ⟨"02", "-1"⟩][j]? = some nd1 →
          nd1.nextIndex ≠ "##") ∧
        [(⟨"03", "-1"⟩ : PrimaryKeyNode), ⟨"02", "0"⟩][i]? = some ⟨"03", "-1"⟩ ∧
        [(⟨"03", "-1"⟩ : PrimaryKeyNode), ⟨"02", "0"⟩].length
          = [(⟨"##", "##"⟩ : PrimaryKeyNode), ⟨"02", "-1"⟩].length) :=
  ⟨(SecondaryIndex.add_recycles_free_node
      ⟨[("Alice", -1), ("Bob", 1)], [⟨"##", "##"⟩, ⟨"02", "-1"⟩]⟩ "Bob" "03").1
      SecondaryIndex.wellFormed_one_doctor (by decide),
    ((SecondaryIndex.add_recycles_free_node
      ⟨[("Alice", -1), ("Bob", 1)], [⟨"##", "##"⟩, ⟨"02", "-1"⟩]⟩ "Bob" "03").2
      ⟨[("Alice", -1), ("Bob", 1)], [⟨"03", "-1"⟩, ⟨"02", "0"⟩]⟩ (by decide)).1⟩

/-- C31: a stale entry survives a deletion. On the empty appointment table,
with the doctor `01` in the doctor index: an addition, an update in place with
a shorter date, which leaves `--01` in the doctor id field of the record, and
the deletion of the appointment. The deletion removes the key `01` from the
primary index and asks the secondary index to remove it under the doctor id
`--01` that it reads from the record; the list of the doctor `01` still holds
the appointment `01`, which is no key of the primary index. -/
theorem AppointmentManagementSystem.stale_secondary_entry_after_delete :
    AppointmentManagementSystem.run
        [AppointmentManagementSystem.Op.add [⟨"01", 0⟩] "2025-01-10" "01",
         AppointmentManagementSystem.Op.update [⟨"01", 0⟩] "01" "2025-1-1",
         AppointmentManagementSystem.Op.delete "01"]
        AppointmentManagementSystem.empty
      = some ⟨[], [⟨0, 18⟩], ⟨[("01", 0)], [⟨"01", "-1"⟩]⟩,
          some "*|18|01|2025-1-1|--01|\n".data⟩ ∧
    SecondaryIndex.getPrimaryKeysBySecondaryKey ⟨[("01", 0)], [⟨"01", "-1"⟩]⟩ "01"
      = some (⟨[("01", 0)], [⟨"01", "-1"⟩]⟩, ["01"]) ∧
    "01" ∉ PrimaryIndex.keys ([] : PrimaryIndex) := by
  decide

/-- C37: a lookup with an unseen key changes the index. On the index that
holds `01` under `Smith`, the lookup of `Jones` inserts `Jones` into the map
with the head 0. A later addition of `02` under `Jones` then links the new
node behind the node of `Smith`, so that `Smith` lists `01` and `02`; without
the lookup the addition gives `Jones` a list of its own and `Smith` keeps the
list `01`. -/
theorem SecondaryIndex.lookup_unseen_key_changes_map :
    SecondaryIndex.getPrimaryKeysBySecondaryKey ⟨[("Smith", 0)], [⟨"01", "-1"⟩]⟩ "Jones"
      = some (⟨[("Jones", 0), ("Smith", 0)], [⟨"01", "-1"⟩]⟩, ["01"]) ∧
    SecondaryIndex.addPrimaryKeyToSecondaryNode
        ⟨[("Jones", 0), ("Smith", 0)], [⟨"01", "-1"⟩]⟩ "Jones" "02"
      = some ⟨[("Jones", 0), ("Smith", 0)], [⟨"01", "1"⟩, ⟨"02", "-1"⟩]⟩ ∧
    SecondaryIndex.addPrimaryKeyToSecondaryNode ⟨[("Smith", 0)], [⟨"01", "-1"⟩]⟩ "Jones" "02"
      = some ⟨[("Jones", 1), ("Smith", 0)], [⟨"01", "-1"⟩, ⟨"02", "-1"⟩]⟩ ∧
    SecondaryIndex.getPrimaryKeysBySecondaryKey
        ⟨[("Jones", 0), ("Smith", 0)], [⟨"01", "1"⟩, ⟨"02", "-1"⟩]⟩ "Smith"
      = some (⟨[("Jones", 0), ("Smith", 0)], [⟨"01", "1"⟩, ⟨"02", "-1"⟩]⟩, ["01", "02"]) ∧
    SecondaryIndex.getPrimaryKeysBySecondaryKey
        ⟨[("Jones", 1), ("Smith", 0)], [⟨"01", "-1"⟩, ⟨"02", "-1"⟩]⟩ "Smith"
      = some (⟨[("Jones", 1), ("Smith", 0)], [⟨"01", "-1"⟩, ⟨"02", "-1"⟩]⟩, ["01"]) := by
  decide

namespace SecondaryIndex

/-- A request on a well-formed index returns a well-formed index with at most
one node more. -/
theorem step_wellFormed (s : SecondaryIndex) (hw : WellFormed s)
    (hlen : s.primaryKeyList.length ≤ 2147483647) (op : Op) :
    ∃ s1, step s op = some s1 ∧ WellFormed s1 ∧
      s1.primaryKeyList.length ≤ s.primaryKeyList.length + 1 := by
  obtain ⟨ch, hch⟩ := hw
  cases op with
  | add sk pk =>
    obtain ⟨s1, f, hrun, hw1, _, _, _, _, hlen1⟩ := add_spec s ch hch hlen sk pk
    exact ⟨s1, hrun, ⟨_, hw1⟩, hlen1⟩
  | remove sk pk =>
    obtain ⟨s1, hrun, hw1, hlen1, _⟩ := remove_lookup s ch hch sk pk
    exact ⟨s1, hrun, hw1, by omega⟩

/-- Requests on a well-formed index return a well-formed index, as long as
the node indexes fit an `int`. -/
theorem run_wellFormed : ∀ (ops : List Op) (s : SecondaryIndex), WellFormed s →
    s.primaryKeyList.length + ops.length ≤ 2147483647 →
    ∃ s1, run ops s = some s1 ∧ WellFormed s1 := by
  intro ops
  induction ops with
  | nil => intro s hw _; exact ⟨s, rfl, hw⟩
  | cons op ops ih =>
    intro s hw hlen
    simp only [List.length_cons] at hlen
    obtain ⟨s1, hstep, hw1, hlen1⟩ := step_wellFormed s hw (by omega) op
    obtain ⟨s2, hrun, hw2⟩ := ih s1 hw1 (by omega)
    refine ⟨s2, ?_, hw2⟩
    unfold run
    simp only [hstep]
    exact hrun

/-- The nodes of a list are inside the array and are not free. -/
theorem chain_not_free {l : List PrimaryKeyNode} {c : List Nat} {h : Int} (hc : Chain l h c) :
    ∀ i ∈ c, ∃ nd, l[i]? = some nd ∧ nd.nextIndex ≠ "##" := by
  intro i hi
  obtain ⟨nd, hnd, hs⟩ := chain_stoi hc i hi
  refine ⟨nd, hnd, ?_⟩
  intro e
  rw [e, stoi_free] at hs
  exact absurd hs (by simp)

/-- The head of a list is `-1` or the first node of the list. -/
theorem chain_head {l : List PrimaryKeyNode} {c : List Nat} {h : Int} (hc : Chain l h c) :
    h = -1 ∨ ∃ i, c.head? = some i ∧ h = (i : Int) := by
  cases c with
  | nil => exact Or.inl hc
  | cons i rest => exact Or.inr ⟨i, rfl, hc.1⟩

end SecondaryIndex

/-- C38: every state reached from the empty secondary index is well formed.
Every sequence of at most 2^31 - 1 calls of `addPrimaryKeyToSecondaryNode` and
`removePrimaryKeyFromSecondaryNode` on the empty index returns a state `s`
with node lists `ch`, one for each secondary key, such that: a head of the
map is `-1` or the index of a node inside the array that is not free; the
next pointers from the head of a key lead through the nodes `ch k`, each
inside the array and none free, to `-1`; no node occurs twice in a list; the
lists of two different keys share no node; and the traversal of
`getPrimaryKeysBySecondaryKey` for a key of the map returns, with the primary
keys of the nodes `ch k`. -/
theorem SecondaryIndex.reachable_well_formed (ops : List SecondaryIndex.Op)
    (hlen : ops.length ≤ 2147483647) :
    ∃ (s : SecondaryIndex) (ch : String → List Nat),
      SecondaryIndex.run ops SecondaryIndex.empty = some s ∧
      (∀ k h, SecondaryIndex.mapFind s.secondaryIndexMap k = some h →
        h = -1 ∨ ∃ nd : PrimaryKeyNode, 0 ≤ h ∧ s.primaryKeyList[h.toNat]? = some nd ∧
          nd.nextIndex ≠ "##") ∧
      (∀ k h, SecondaryIndex.mapFind s.secondaryIndexMap k = some h →
        SecondaryIndex.Chain s.primaryKeyList h (ch k)) ∧
      (∀ k, ∀ i ∈ ch k, ∃ nd : PrimaryKeyNode, s.primaryKeyList[i]? = some nd ∧
        nd.nextIndex ≠ "##") ∧
      (∀ k, (ch k).Nodup) ∧
      (∀ k k1, k ≠ k1 → ∀ i ∈ ch k, i ∉ ch k1) ∧
      (∀ k h, SecondaryIndex.mapFind s.secondaryIndexMap k = some h →
        SecondaryIndex.getPrimaryKeysBySecondaryKey s k
          = some (s, (ch k).map (SecondaryIndex.keyAt s.primaryKeyList))) := by
  obtain ⟨s, hrun, ch, hw⟩ := SecondaryIndex.run_wellFormed ops SecondaryIndex.empty
    SecondaryIndex.wellFormed_empty (by simpa [SecondaryIndex.empty] using hlen)
  have hfree : ∀ k, ∀ i ∈ ch k, ∃ nd : PrimaryKeyNode, s.primaryKeyList[i]? = some nd ∧
      nd.nextIndex ≠ "##" := by
    intro k i hi
    cases hf : SecondaryIndex.mapFind s.secondaryIndexMap k with
    | none =>
      rw [hw.absent k hf] at hi
      exact absurd hi (List.not_mem_nil i)
    | some h => exact SecondaryIndex.chain_not_free (hw.chain k h hf) i hi
  refine ⟨s, ch, hrun, ?_, hw.chain, hfree, hw.nodup, hw.disjoint, ?_⟩
  · intro k h hk
    rcases SecondaryIndex.chain_head (hw.chain k h hk) with h1 | ⟨i, hi, hh⟩
    · exact Or.inl h1
    · right
      obtain ⟨nd, hnd, hne⟩ := hfree k i (List.mem_of_mem_head? hi)
      refine ⟨nd, by omega, ?_, hne⟩
      rw [hh, Int.toNat_natCast]
      exact hnd
  · intro k h hk
    exact SecondaryIndex.get_spec s ch hw k h hk

theorem SecondaryIndex.reachable_well_formed_witness :
    ∃ (s : SecondaryIndex) (ch : String → List Nat),
      SecondaryIndex.run [SecondaryIndex.Op.add "Smith" "01", SecondaryIndex.Op.add "Smith" "02",
        SecondaryIndex.Op.remove "Smith" "01", SecondaryIndex.Op.remove "Jones" "05",
        SecondaryIndex.Op.add "Jones" "03"] SecondaryIndex.empty = some s ∧
      (∀ k h, SecondaryIndex.mapFind s.secondaryIndexMap k = some h →
        h = -1 ∨ ∃ nd : PrimaryKeyNode, 0 ≤ h ∧ s.primaryKeyList[h.toNat]? = some nd ∧
          nd.nextIndex ≠ "##") ∧
      (∀ k h, SecondaryIndex.mapFind s.secondaryIndexMap k = some h →
        SecondaryIndex.Chain s.primaryKeyList h (ch k)) ∧
      (∀ k, ∀ i ∈ ch k, ∃ nd : PrimaryKeyNode, s.primaryKeyList[i]? = some nd ∧
        nd.nextIndex ≠ "##") ∧
      (∀ k, (ch k).Nodup) ∧
      (∀ k k1, k ≠ k1 → ∀ i ∈ ch k, i ∉ ch k1) ∧
      (∀ k h, SecondaryIndex.mapFind s.secondaryIndexMap k = some h →
        SecondaryIndex.getPrimaryKeysBySecondaryKey s k
          = some (s, (ch k).map (SecondaryIndex.keyAt s.primaryKeyList))) :=
  SecondaryIndex.reachable_well_formed _ (by decide)

namespace SecondaryIndex

/-- A removal under the key `sk` returns, and a key `tk` of the map other
than `sk` keeps its head, its nodes and their primary keys. -/
theorem remove_frame (s : SecondaryIndex) (ch : String → List Nat) (hw : WellFormedWith s ch)
    (sk tk p : String) (hne : sk ≠ tk) :
    ∃ s2 ch2, removePrimaryKeyFromSecondaryNode s sk p = some s2 ∧ WellFormedWith s2 ch2 ∧
      mapFind s2.secondaryIndexMap tk = mapFind s.secondaryIndexMap tk ∧
      (ch2 tk).map (keyAt s2.primaryKeyList) = (ch tk).map (keyAt s.primaryKeyList) := by
  cases hfind : mapFind s.secondaryIndexMap sk with
  | none =>
    refine ⟨s, ch, ?_, hw, rfl, rfl⟩
    unfold removePrimaryKeyFromSecondaryNode
    simp only [hfind]
  | some h0 =>
    by_cases hp : p ∈ (ch sk).map (keyAt s.primaryKeyList)
    · obtain ⟨pre, i, post, hsplit, hi, hpre⟩ := split_first s.primaryKeyList p (ch sk) hp
      obtain ⟨s2, hrun, hw2, _, hother, _, hkeep, _⟩ :=
        remove_spec s ch hw sk p pre i post hsplit hi hpre
      refine ⟨s2, _, hrun, hw2, hother tk (Ne.symm hne), ?_⟩
      rw [Function.update_noteq (Ne.symm hne)]
      apply List.map_congr_left
      intro j hj
      apply hkeep
      intro e
      subst e
      exact hw.disjoint tk sk (Ne.symm hne) j hj (by rw [hsplit]; simp)
    · exact ⟨s, ch, remove_absent s ch hw sk p h0 hfind hp, hw, rfl, rfl⟩

end SecondaryIndex

/-- C39: a call under one secondary key does not disturb another. On a
well-formed index of at most 2^31 - 1 nodes, for a key `t` of the map and a
key `s` other than `t`, in the map or not, `addPrimaryKeyToSecondaryNode(s, p)` and
`removePrimaryKeyFromSecondaryNode(s, p)` return, and
`getPrimaryKeysBySecondaryKey(t)` returns the same sequence before the call,
after the addition and after the removal. -/
theorem SecondaryIndex.other_key_undisturbed (x : SecondaryIndex)
    (hw : SecondaryIndex.WellFormed x) (hlen : x.primaryKeyList.length ≤ 2147483647)
    (s t p : String) (hne : s ≠ t)
    (ht : (SecondaryIndex.mapFind x.secondaryIndexMap t).isSome) :
    ∃ (x1 x2 : SecondaryIndex) (r : List String),
      SecondaryIndex.addPrimaryKeyToSecondaryNode x s p = some x1 ∧
      SecondaryIndex.removePrimaryKeyFromSecondaryNode x s p = some x2 ∧
      SecondaryIndex.getPrimaryKeysBySecondaryKey x t = some (x, r) ∧
      SecondaryIndex.getPrimaryKeysBySecondaryKey x1 t = some (x1, r) ∧
      SecondaryIndex.getPrimaryKeysBySecondaryKey x2 t = some (x2, r) := by
  obtain ⟨ch, hch⟩ := hw
  obtain ⟨h, hh⟩ := Option.isSome_iff_exists.1 ht
  obtain ⟨x1, f, hadd, hw1, _, hother, _, hkeep, _⟩ :=
    SecondaryIndex.add_spec x ch hch hlen s p
  obtain ⟨x2, ch2, hrem, hw2, hmap2, hkeys2⟩ := SecondaryIndex.remove_frame x ch hch s t p hne
  refine ⟨x1, x2, (ch t).map (SecondaryIndex.keyAt x.primaryKeyList), hadd, hrem,
    SecondaryIndex.get_spec x ch hch t h hh, ?_, ?_⟩
  · have h1 := SecondaryIndex.get_spec x1 _ hw1 t h (by rw [hother t (Ne.symm hne)]; exact hh)
    rw [Function.update_noteq (Ne.symm hne)] at h1
    rw [h1]
    congr 2
    exact List.map_congr_left (fun i hi => hkeep t i hi)
  · have h2 := SecondaryIndex.get_spec x2 ch2 hw2 t h (by rw [hmap2]; exact hh)
    rw [h2, hkeys2]

theorem SecondaryIndex.other_key_undisturbed_witness :
    ∃ (x1 x2 : SecondaryIndex) (r : List String),
      SecondaryIndex.addPrimaryKeyToSecondaryNode
        ⟨[("Alice", 0), ("Bob", 1)], [⟨"01", "-1"⟩, ⟨"02", "-1"⟩]⟩ "Alice" "01" = some x1 ∧
      SecondaryIndex.removePrimaryKeyFromSecondaryNode
        ⟨[("Alice", 0), ("Bob", 1)], [⟨"01", "-1"⟩, ⟨"02", "-1"⟩]⟩ "Alice" "01" = some x2 ∧
      SecondaryIndex.getPrimaryKeysBySecondaryKey
        ⟨[("Alice", 0), ("Bob", 1)], [⟨"01", "-1"⟩, ⟨"02", "-1"⟩]⟩ "Bob"
          = some (⟨[("Alice", 0), ("Bob", 1)], [⟨"01", "-1"⟩, ⟨"02", "-1"⟩]⟩, r) ∧
      SecondaryIndex.getPrimaryKeysBySecondaryKey x1 "Bob" = some (x1, r) ∧
      SecondaryIndex.getPrimaryKeysBySecondaryKey x2 "Bob" = some (x2, r) :=
  SecondaryIndex.other_key_undisturbed
    ⟨[("Alice", 0), ("Bob", 1)], [⟨"01", "-1"⟩, ⟨"02", "-1"⟩]⟩
    SecondaryIndex.wellFormed_two_doctors (by decide) "Alice" "Bob" "01" (by decide) (by decide)

theorem DistinctSlots.of_perm {p p1 : PrimaryIndex} {a a1 : AvailList} {f f1 : List Char}
    (h : DistinctSlots p a (some f)) (hperm : (tableOffsets p1 a1).Perm (tableOffsets p a))
    (hlen : f.length ≤ f1.length) : DistinctSlots p1 a1 (some f1) := by
  obtain ⟨hnd, f0, hf0, hin⟩ := h
  injection hf0 with hf0
  subst hf0
  refine ⟨hperm.nodup_iff.2 hnd, f1, rfl, ?_⟩
  intro o ho
  have := hin o (hperm.subset ho)
  omega

theorem tableOffsets_delete (p : PrimaryIndex) (a : AvailList) (j : Nat) (hj : j < p.length)
    (len : Int) :
    (tableOffsets (PrimaryIndex.sortPrimaryIndex (p.eraseIdx j))
      (AvailList.insert a ⟨p[j].offset, len⟩)).Perm (tableOffsets p a) := by
  have h1 : (PrimaryIndex.sortPrimaryIndex (p.eraseIdx j)).Perm (p.eraseIdx j) :=
    PrimaryIndex.sortPrimaryIndex_perm _
  have h2 : (AvailList.insert a ⟨p[j].offset, len⟩).Perm (⟨p[j].offset, len⟩ :: a) := by
    rw [AvailList.insert_eq_insertWalk]
    exact AvailList.insertWalk_perm _ _
  have h3 : p.Perm (p[j] :: p.eraseIdx j) := perm_cons_eraseIdx p j hj
  unfold tableOffsets
  refine ((h1.map _).append (h2.map _)).trans ?_
  refine List.Perm.trans ?_ ((h3.map (fun e => e.offset)).append_right _).symm
  simp only [List.map_cons, List.cons_append]
  exact List.perm_middle

/-- The slots stay distinct under a deletion in the index and the free list
as the table classes perform it. -/
theorem DistinctSlots.delete {p p1 : PrimaryIndex} {a : AvailList} {f f1 : List Char}
    (h : DistinctSlots p a (some f)) (id : String) (offset len : Int)
    (hs : PrimaryIndex.binarySearchPrimaryIndex p id = some offset) (hne : offset ≠ -1)
    (hr : PrimaryIndex.removePrimaryNode p id = some p1) (hlen : f.length ≤ f1.length) :
    DistinctSlots p1 (AvailList.insert a ⟨offset, len⟩) (some f1) := by
  rcases PrimaryIndex.search_remove p id with ⟨h1, _⟩ | ⟨j, hj, _, h1, h2⟩
  · rw [h1] at hs
    injection hs with hs
    exact absurd hs.symm hne
  · rw [h1] at hs
    injection hs with hs
    rw [h2] at hr
    injection hr with hr
    subst hr
    subst hs
    exact h.of_perm (tableOffsets_delete p a j hj len) hlen

namespace DoctorManagementSystem

end DoctorManagementSystem

namespace AppointmentManagementSystem

end AppointmentManagementSystem

theorem stoi_to_string_neg (n : Nat) (h : n + 1 ≤ 2147483648) :
    stoi (to_string (Int.negSucc n)) = some (Int.negSucc n) := by
  obtain ⟨⟨c, rest, e, h1, h2, h3, h4, h5⟩, h6⟩ :=
    toDigitsCore_spec (n + 1 + 1) (n + 1) [] (Nat.lt_succ_self _)
  have hall : ∀ d ∈ c :: rest, d.isDigit = true := by
    intro d hd
    rcases List.mem_cons.1 hd with rfl | hd
    · exact h1
    · exact h5 (by simp) d hd
  have e2 : to_string (Int.negSucc n) = String.mk ('-' :: c :: rest) := by
    show String.mk ('-' :: Nat.toDigits 10 (n + 1)) = _
    rw [Nat.toDigits, e]
  have hfold : stoiDigits (c :: rest) = n + 1 := by
    unfold stoiDigits
    rw [takeWhile_all _ _ hall, ← e, h6]
    rfl
  rw [e2]
  unfold stoi
  have hsp : isspace '-' = false := by decide
  simp only [List.dropWhile_cons, hsp, if_true, Bool.false_eq_true, if_false]
  unfold stoiBody
  rw [takeWhile_all _ _ hall, hfold]
  simp only [List.isEmpty_cons, Bool.false_eq_true, if_false, if_true]
  unfold inIntRange
  rw [if_pos]
  · congr 1
  · constructor
    · push_cast
      omega
    · push_cast
      omega

theorem stoi_to_string_int (v : Int) (h1 : -2147483648 ≤ v) (h2 : v ≤ 2147483647) :
    stoi (to_string v) = some v := by
  cases v with
  | ofNat n =>
    rw [Int.ofNat_eq_coe] at h2
    exact stoi_to_string n (by omega)
  | negSucc n =>
    rw [Int.negSucc_eq] at h1
    exact stoi_to_string_neg n (by omega)

theorem to_string_clean (v : Int) :
    '|' ∉ (to_string v).data ∧ '\n' ∉ (to_string v).data ∧ ',' ∉ (to_string v).data := by
  have hd : ∀ (ds : List Char), (∀ c ∈ ds, c.isDigit = true) →
      '|' ∉ ds ∧ '\n' ∉ ds ∧ ',' ∉ ds := by
    intro ds hall
    refine ⟨fun hm => ?_, fun hm => ?_, fun hm => ?_⟩
    · exact absurd (hall _ hm) (by decide)
    · exact absurd (hall _ hm) (by decide)
    · exact absurd (hall _ hm) (by decide)
  cases v with
  | ofNat n => exact hd _ (to_string_digits n)
  | negSucc n =>
    have e : (to_string (Int.negSucc n)).data = '-' :: (to_string ((n + 1 : Nat) : Int)).data := rfl
    obtain ⟨a, b, c⟩ := hd _ (to_string_digits (n + 1))
    rw [e]
    refine ⟨fun hm => ?_, fun hm => ?_, fun hm => ?_⟩
    · rcases List.mem_cons.1 hm with hm | hm
      · exact absurd hm (by decide)
      · exact a hm
    · rcases List.mem_cons.1 hm with hm | hm
      · exact absurd hm (by decide)
      · exact b hm
    · rcases List.mem_cons.1 hm with hm | hm
      · exact absurd hm (by decide)
      · exact c hm

namespace AvailList

/-- The line that `updateAvailListFile` writes for a node, without its line
terminator. -/
theorem getLines_availFile (l : AvailList) :
    getLines (updateAvailListFile l)
      = l.map (fun n => (to_string n.offset).data ++ '|' :: (to_string n.size).data) := by
  induction l with
  | nil => rfl
  | cons n t ih =>
    have e1 : updateAvailListFile (n :: t)
        = ((to_string n.offset).data ++ '|' :: (to_string n.size).data)
            ++ '\n' :: updateAvailListFile t := by
      simp [updateAvailListFile]
    have hnl : '\n' ∉ (to_string n.offset).data ++ '|' :: (to_string n.size).data := by
      intro hm
      rcases List.mem_append.1 hm with hm | hm
      · exact (to_string_clean _).2.1 hm
      · rcases List.mem_cons.1 hm with hm | hm
        · exact absurd hm (by decide)
        · exact (to_string_clean _).2.1 hm
    rw [e1, getLines_line _ _ hnl, ih, List.map_cons]

theorem parseNode_line (n : AvailListNode)
    (hr : -2147483648 ≤ n.offset ∧ n.offset ≤ 2147483647 ∧
      -2147483648 ≤ n.size ∧ n.size ≤ 2147483647) :
    parseNode ((to_string n.offset).data ++ '|' :: (to_string n.size).data) = some n := by
  unfold parseNode
  dsimp only
  rw [getlineField_field _ _ _ (to_string_clean _).1]
  dsimp only
  rw [getlineField_last _ _ (to_string_clean _).1]
  dsimp only
  have e1 : String.mk (to_string n.offset).data = to_string n.offset := rfl
  have e2 : String.mk (to_string n.size).data = to_string n.size := rfl
  rw [e1, e2, stoi_to_string_int _ hr.1 hr.2.1, stoi_to_string_int _ hr.2.2.1 hr.2.2.2]

theorem loadLines_lines : ∀ (l acc : AvailList),
    (∀ n ∈ l, -2147483648 ≤ n.offset ∧ n.offset ≤ 2147483647 ∧
      -2147483648 ≤ n.size ∧ n.size ≤ 2147483647) →
    loadLines (l.map (fun n => (to_string n.offset).data ++ '|' :: (to_string n.size).data)) acc
      = LoadEnd.finished (l.foldl insert acc) := by
  intro l
  induction l with
  | nil => intro acc _; rfl
  | cons n t ih =>
    intro acc hr
    rw [List.map_cons, loadLines, parseNode_line n (hr n (List.mem_cons_self _ _))]
    dsimp only
    rw [ih _ (fun x hx => hr x (List.mem_cons_of_mem _ hx)), List.foldl_cons]

theorem foldl_insert_perm : ∀ (l acc : AvailList), (l.foldl insert acc).Perm (acc ++ l) := by
  intro l
  induction l with
  | nil => intro acc; simp
  | cons n t ih =>
    intro acc
    rw [List.foldl_cons]
    refine (ih _).trans ?_
    rw [insert_eq_insertWalk]
    refine ((insertWalk_perm acc n).append_right t).trans ?_
    simp only [List.cons_append]
    exact List.perm_middle.symm

theorem foldl_insert_sorted : ∀ (l acc : AvailList), SortedBySize acc →
    SortedBySize (l.foldl insert acc) := by
  intro l
  induction l with
  | nil => intro acc h; exact h
  | cons n t ih =>
    intro acc h
    rw [List.foldl_cons]
    apply ih
    rw [insert_eq_insertWalk]
    exact insertWalk_sorted acc n h

theorem insertWalk_last (acc : List AvailListNode) (n : AvailListNode)
    (h : ∀ x ∈ acc, x.size < n.size) : insertWalk acc n = acc ++ [n] := by
  induction acc with
  | nil => rfl
  | cons c t ih =>
    unfold insertWalk
    rw [if_pos (h c (List.mem_cons_self _ _)), ih (fun x hx => h x (List.mem_cons_of_mem _ hx))]
    rfl

theorem foldl_insert_increasing : ∀ (l acc : AvailList),
    (acc ++ l).Pairwise (fun a b => a.size < b.size) → l.foldl insert acc = acc ++ l := by
  intro l
  induction l with
  | nil => intro acc _; simp
  | cons n t ih =>
    intro acc h
    rw [List.foldl_cons, insert_eq_insertWalk, insertWalk_last acc n]
    · rw [ih (acc ++ [n]) (by simpa using h)]
      simp
    · intro x hx
      exact (List.pairwise_append.1 h).2.2 x hx n (List.mem_cons_self _ _)

theorem updateAvailListFile_cons (n : AvailListNode) (l : AvailList) :
    updateAvailListFile (n :: l)
      = ((to_string n.offset).data ++ '|' :: (to_string n.size).data) ++
          '\n' :: updateAvailListFile l := by
  simp [updateAvailListFile]

theorem updateAvailListFile_append (a b : AvailList) :
    updateAvailListFile (a ++ b) = updateAvailListFile a ++ updateAvailListFile b := by
  simp [updateAvailListFile]

theorem availLine_clean (n : AvailListNode) :
    '\n' ∉ (to_string n.offset).data ++ '|' :: (to_string n.size).data := by
  intro hm
  rcases List.mem_append.1 hm with hm | hm
  · exact (to_string_clean _).2.1 hm
  · rcases List.mem_cons.1 hm with hm | hm
    · exact absurd hm (by decide)
    · exact (to_string_clean _).2.1 hm

theorem splitLines_line (l rest : List Char) (h : '\n' ∉ l) :
    splitLines (l ++ '\n' :: rest) = (l :: (splitLines rest).1, (splitLines rest).2) := by
  induction l with
  | nil => simp [splitLines]
  | cons c t ih =>
    have hc : c ≠ '\n' := fun e => h (e ▸ List.mem_cons_self _ _)
    have ht : '\n' ∉ t := fun hm => h (List.mem_cons_of_mem _ hm)
    rw [List.cons_append, splitLines, ih ht]
    simp only [if_neg hc]

theorem splitLines_partial (p : List Char) (h : '\n' ∉ p) : splitLines p = ([], p) := by
  induction p with
  | nil => rfl
  | cons c t ih =>
    have hc : c ≠ '\n' := fun e => h (e ▸ List.mem_cons_self _ _)
    have ht : '\n' ∉ t := fun hm => h (List.mem_cons_of_mem _ hm)
    rw [splitLines, ih ht]
    simp only [if_neg hc]

/-- The lines of the text of a list followed by the start `p` of a line. -/
theorem splitLines_availFile (l : AvailList) (p : List Char) (h : '\n' ∉ p) :
    splitLines (updateAvailListFile l ++ p)
      = (l.map (fun n => (to_string n.offset).data ++ '|' :: (to_string n.size).data), p) := by
  induction l with
  | nil => exact splitLines_partial p h
  | cons n t ih =>
    rw [updateAvailListFile_cons, List.append_assoc, List.cons_append,
      splitLines_line _ _ (availLine_clean n), ih, List.map_cons]

theorem length_updateAvailListFile_perm {a b : AvailList} (h : a.Perm b) :
    (updateAvailListFile a).length = (updateAvailListFile b).length := by
  induction h with
  | nil => rfl
  | cons x _ ih =>
    rw [updateAvailListFile_cons, updateAvailListFile_cons]
    simp only [List.length_append, List.length_cons, ih]
  | swap x y l =>
    simp only [updateAvailListFile_cons, List.length_append, List.length_cons]
    omega
  | trans _ _ ih1 ih2 => exact ih1.trans ih2

theorem loadBlocks_end (bufferSize fuel : Nat) (file : List Char) (pos : Nat)
    (pending : List Char) (l : AvailList) (h : (file.drop pos).take bufferSize = []) :
    loadBlocks bufferSize (fuel + 1) file pos pending l
      = if pending.isEmpty then some (LoadEnd.finished l) else some (loadLines [pending] l) := by
  rw [loadBlocks, h]
  rfl

theorem loadBlocks_step (bufferSize fuel : Nat) (file : List Char) (pos : Nat)
    (pending : List Char) (l : AvailList) (block : List Char) (lines : List (List Char))
    (rest : List Char) (l1 : AvailList) (hb : (file.drop pos).take bufferSize = block)
    (hne : block ≠ []) (hs : splitLines (pending ++ block) = (lines, rest))
    (hl : loadLines lines l = LoadEnd.finished l1) :
    loadBlocks bufferSize (fuel + 1) file pos pending l
      = loadBlocks bufferSize fuel (if lines.isEmpty then file else updateAvailListFile l1)
          (pos + block.length) rest l1 := by
  have he : block.isEmpty = false := by
    cases block with
    | nil => exact absurd rfl hne
    | cons _ _ => rfl
  rw [loadBlocks, hb, he, hs]
  simp only [Bool.false_eq_true, if_false, hl]

/-- The load of a file that fits one block of the stream: the text is read
whole, every line is inserted, and the block read then, behind the end of
the text written last, has no bytes. -/
theorem load_within_block (bufferSize : Nat) (l : AvailList)
    (hs : SortedBySize l)
    (hr : ∀ n ∈ l, -2147483648 ≤ n.offset ∧ n.offset ≤ 2147483647 ∧
      -2147483648 ≤ n.size ∧ n.size ≤ 2147483647)
    (hfits : (updateAvailListFile l).length ≤ bufferSize) :
    ∃ l1, loadAvailListInMemory bufferSize (updateAvailListFile l) [] = some l1 ∧
      SortedBySize l1 ∧ l1.Perm l ∧ ((l.map (fun n => n.size)).Nodup → l1 = l) := by
  have hperm : (l.foldl insert []).Perm l := by simpa using foldl_insert_perm l []
  refine ⟨l.foldl insert [], ?_, foldl_insert_sorted l [] List.Pairwise.nil, hperm, ?_⟩
  · unfold loadAvailListInMemory
    cases hl : l with
    | nil => rfl
    | cons n t =>
      rw [← hl]
      have hne : (updateAvailListFile l).isEmpty = false := by
        rw [hl]
        simp [updateAvailListFile]
      have hne2 : updateAvailListFile l ≠ [] := by
        intro e
        rw [e] at hne
        exact absurd hne (by decide)
      rw [hne]
      simp only [Bool.false_eq_true, if_false]
      have hblock : ((updateAvailListFile l).drop 0).take bufferSize = updateAvailListFile l := by
        rw [List.drop_zero, List.take_of_length_le hfits]
      have hsplit := splitLines_availFile l [] (List.not_mem_nil _)
      rw [List.append_nil] at hsplit
      have hlines : (l.map (fun n => (to_string n.offset).data ++
          '|' :: (to_string n.size).data)).isEmpty = false := by
        rw [hl]
        rfl
      rw [loadBlocks_step bufferSize _ _ 0 [] [] _ _ _ _ hblock hne2
        (by rw [List.nil_append]; exact hsplit) (loadLines_lines l [] hr), hlines]
      simp only [Bool.false_eq_true, if_false]
      rw [loadBlocks_end _ _ _ _ _ _ (by
        rw [List.drop_of_length_le (by
          rw [length_updateAvailListFile_perm hperm]
          omega)]
        exact List.take_nil)]
      rfl
  · intro hnd
    have hstrict : l.Pairwise (fun a b => a.size < b.size) := by
      have h1 : (l.map (fun n => n.size)).Pairwise (fun x y => x ≤ y) :=
        List.pairwise_map.2 hs
      have h2 : (l.map (fun n => n.size)).Pairwise (fun x y => x ≠ y) := hnd
      exact List.pairwise_map.1 ((h1.and h2).imp (fun h => lt_of_le_of_ne h.1 h.2))
    simpa using foldl_insert_increasing l [] (by simpa using hstrict)

theorem insert_replicate (n : AvailListNode) (k : Nat) :
    insert (List.replicate k n) n = List.replicate (k + 1) n := by
  cases k with
  | zero => rfl
  | succ k =>
    show insertWalk (n :: List.replicate k n) n = _
    unfold insertWalk
    rw [if_neg (lt_irrefl _)]
    rfl

theorem loadLines_replicate (n : AvailListNode) (line : List Char)
    (hline : parseNode line = some n) : ∀ (k j : Nat),
    loadLines (List.replicate k line) (List.replicate j n)
      = LoadEnd.finished (List.replicate (j + k) n) := by
  intro k
  induction k with
  | zero => intro j; rfl
  | succ k ih =>
    intro j
    rw [List.replicate_succ, loadLines, hline]
    dsimp only
    rw [insert_replicate, ih (j + 1)]
    congr 2
    omega

theorem length_updateAvailListFile_replicate (n : AvailListNode) (k : Nat) :
    (updateAvailListFile (List.replicate k n)).length
      = k * (((to_string n.offset).data ++ '|' :: (to_string n.size).data).length + 1) := by
  induction k with
  | zero => simp [updateAvailListFile]
  | succ k ih =>
    rw [List.replicate_succ, updateAvailListFile_cons, List.length_append, List.length_cons, ih]
    ring

end AvailList

/-- C36: the load of a file of the free list that is longer than the buffer
of the stream stops early. The list of 900 nodes `(1000, 1000)` is ascending
by size and is written as 900 lines `1000|1000`, 9000 bytes. With a stream
buffer of 8191 bytes, the first block holds 819 lines and the `1` of the
next; the 819 calls of `insert` leave the file with the text of 819 nodes,
8190 bytes; the block read then at the position 8191 has no bytes, the
pending line `1` has no size field and `stoi` throws: the loop has loaded
819 of the 900 nodes, whatever the bound on the number of blocks, and
`loadAvailListInMemory` has no result. -/
theorem AvailList.load_stops_at_stream_buffer :
    AvailList.SortedBySize (List.replicate 900 ⟨1000, 1000⟩) ∧
    (AvailList.updateAvailListFile (List.replicate 900 ⟨1000, 1000⟩)).length = 9000 ∧
    (AvailList.updateAvailListFile (List.replicate 900 ⟨1000, 1000⟩)).take 8191
      = AvailList.updateAvailListFile (List.replicate 819 ⟨1000, 1000⟩) ++ ['1'] ∧
    (AvailList.updateAvailListFile (List.replicate 819 ⟨1000, 1000⟩)).length = 8190 ∧
    AvailList.parseNode ['1'] = none ∧
    (∀ fuel : Nat, AvailList.loadBlocks 8191 (fuel + 2)
        (AvailList.updateAvailListFile (List.replicate 900 ⟨1000, 1000⟩)) 0 [] []
      = some (AvailList.LoadEnd.thrown (List.replicate 819 ⟨1000, 1000⟩))) ∧
    AvailList.loadAvailListInMemory 8191
        (AvailList.updateAvailListFile (List.replicate 900 ⟨1000, 1000⟩)) [] = none := by
  have hlen : ∀ k : Nat,
      (AvailList.updateAvailListFile (List.replicate k ⟨1000, 1000⟩)).length = k * 10 := by
    intro k
    rw [AvailList.length_updateAvailListFile_replicate]
    rfl
  have htext : AvailList.updateAvailListFile (List.replicate 900 ⟨1000, 1000⟩)
      = AvailList.updateAvailListFile (List.replicate 819 ⟨1000, 1000⟩) ++
          ('1' :: ("000|1000\n".data ++
            AvailList.updateAvailListFile (List.replicate 80 ⟨1000, 1000⟩))) := by
    have e : (List.replicate 900 (⟨1000, 1000⟩ : AvailListNode))
        = List.replicate 819 ⟨1000, 1000⟩ ++ (⟨1000, 1000⟩ :: List.replicate 80 ⟨1000, 1000⟩) := by
      rw [← List.replicate_succ, ← List.replicate_add]
    rw [e, AvailList.updateAvailListFile_append, AvailList.updateAvailListFile_cons]
    rfl
  have htake : (AvailList.updateAvailListFile (List.replicate 900 ⟨1000, 1000⟩)).take 8191
      = AvailList.updateAvailListFile (List.replicate 819 ⟨1000, 1000⟩) ++ ['1'] := by
    rw [htext, show 8191 = (AvailList.updateAvailListFile
      (List.replicate 819 ⟨1000, 1000⟩)).length + 1 from by rw [hlen 819],
      List.take_append]
    rfl
  have hparse : AvailList.parseNode ['1'] = none := by decide
  have hline : AvailList.parseNode "1000|1000".data = some ⟨1000, 1000⟩ := by decide
  have hblocks : ∀ fuel : Nat, AvailList.loadBlocks 8191 (fuel + 2)
      (AvailList.updateAvailListFile (List.replicate 900 ⟨1000, 1000⟩)) 0 [] []
        = some (AvailList.LoadEnd.thrown (List.replicate 819 ⟨1000, 1000⟩)) := by
    intro fuel
    have hsplit := AvailList.splitLines_availFile (List.replicate 819 ⟨1000, 1000⟩) ['1']
      (by decide)
    rw [List.map_replicate] at hsplit
    have hload := AvailList.loadLines_replicate ⟨1000, 1000⟩ "1000|1000".data hline 819 0
    rw [AvailList.loadBlocks_step 8191 (fuel + 1) _ 0 [] []
      (AvailList.updateAvailListFile (List.replicate 819 ⟨1000, 1000⟩) ++ ['1'])
      (List.replicate 819 "1000|1000".data) ['1'] (List.replicate (0 + 819) ⟨1000, 1000⟩)
      (by rw [List.drop_zero]; exact htake)
      (List.append_ne_nil_of_right_ne_nil _ (List.cons_ne_nil _ _))
      (by rw [List.nil_append]; exact hsplit) hload]
    rw [AvailList.loadBlocks_end 8191 fuel _ _ _ _ (by
      rw [if_neg (by decide), List.drop_of_length_le (by
        rw [hlen, List.length_append, hlen]
        decide)]
      exact List.take_nil)]
    rw [if_neg (by decide), AvailList.loadLines, hparse]
  refine ⟨?_, hlen 900, htake, hlen 819, hparse, hblocks, ?_⟩
  · exact List.pairwise_replicate.2 (Or.inr (le_refl _))
  · unfold AvailList.loadAvailListInMemory
    have hne : (AvailList.updateAvailListFile (List.replicate 900 ⟨1000, 1000⟩)).isEmpty
        = false := by
      rw [show List.replicate 900 (⟨1000, 1000⟩ : AvailListNode)
        = ⟨1000, 1000⟩ :: List.replicate 899 ⟨1000, 1000⟩ from rfl,
        AvailList.updateAvailListFile_cons]
      rfl
    rw [hne, hlen 900]
    simp only [Bool.false_eq_true, if_false]
    rw [show 900 * 10 + 2 = 9000 + 2 from rfl, hblocks 9000]

theorem getlineUntil_field (d : Char) (a rest : List Char) (prev : String) (h : d ∉ a) :
    getlineUntil d (some (a ++ d :: rest)) prev = (some rest, String.mk a) := by
  unfold getlineUntil
  have hc : (a ++ d :: rest).contains d = true := by simp
  simp only [hc, if_true]
  rw [takeWhile_stop _ _ _ _ (ne_of_not_mem h) (by simp),
    dropWhile_stop _ _ _ _ (ne_of_not_mem h) (by simp)]
  rfl

theorem getlineUntil_last (d : Char) (a : List Char) (prev : String) (h : d ∉ a) :
    getlineUntil d (some a) prev = (none, String.mk a) := by
  unfold getlineUntil
  have hc : a.contains d = false := by simpa using h
  simp only [hc]
  rfl

theorem setw2_of_long (s : String) (h : 2 ≤ s.length) : setw2 s = s := by
  unfold setw2
  rw [Nat.sub_eq_zero_of_le h]
  rfl

theorem setw2_digits (ds : List Char) (hne : ds ≠ []) (hall : ∀ c ∈ ds, c.isDigit = true) :
    (setw2 (String.mk ds)).data ≠ [] ∧ (∀ c ∈ (setw2 (String.mk ds)).data, c.isDigit = true) ∧
      stoi (setw2 (String.mk ds)) = stoi (String.mk ds) := by
  by_cases hl : 2 ≤ ds.length
  · rw [setw2_of_long _ hl]
    exact ⟨hne, hall, rfl⟩
  · cases ds with
    | nil => exact absurd rfl hne
    | cons c t =>
      cases t with
      | cons c1 t1 => simp at hl
      | nil =>
        have e : setw2 (String.mk [c]) = String.mk ['0', c] := rfl
        have hall2 : ∀ x ∈ ['0', c], x.isDigit = true := by
          intro x hx
          rcases List.mem_cons.1 hx with rfl | hx
          · decide
          · exact hall x hx
        rw [e]
        refine ⟨by simp, hall2, ?_⟩
        rw [stoi_digits _ (by simp) hall2, stoi_digits _ hne hall]
        congr 2

theorem setw2_to_string_clean (v : Int) :
    '|' ∉ (setw2 (to_string v)).data ∧ '\n' ∉ (setw2 (to_string v)).data := by
  have hclean := to_string_clean v
  have hdata : ∀ c ∈ (setw2 (to_string v)).data, c = '0' ∨ c ∈ (to_string v).data := by
    intro c hc
    unfold setw2 at hc
    rcases List.mem_append.1 hc with hc | hc
    · exact Or.inl (List.eq_of_mem_replicate hc)
    · exact Or.inr hc
  refine ⟨fun hm => ?_, fun hm => ?_⟩
  · rcases hdata _ hm with e | hm
    · exact absurd e (by decide)
    · exact hclean.1 hm
  · rcases hdata _ hm with e | hm
    · exact absurd e (by decide)
    · exact hclean.2.1 hm

theorem setw2_to_string (v : Int) (h1 : -2147483648 ≤ v) (h2 : v ≤ 2147483647) :
    stoi (setw2 (to_string v)) = some v := by
  cases v with
  | ofNat n =>
    have hne : (to_string (Int.ofNat n)).data ≠ [] := by
      obtain ⟨⟨c, rest, e, _⟩, _⟩ := toDigitsCore_spec (n + 1) n [] (Nat.lt_succ_self n)
      have hts : (to_string (Int.ofNat n)).data = Nat.toDigitsCore 10 (n + 1) n [] := rfl
      rw [hts, e]
      simp
    have := (setw2_digits _ hne (to_string_digits n)).2.2
    have e : String.mk (to_string (Int.ofNat n)).data = to_string (Int.ofNat n) := rfl
    rw [e] at this
    rw [this]
    exact stoi_to_string_int _ h1 h2
  | negSucc n =>
    have hlen : 2 ≤ (to_string (Int.negSucc n)).length := by
      obtain ⟨⟨c, rest, e, _⟩, _⟩ :=
        toDigitsCore_spec (n + 1 + 1) (n + 1) [] (Nat.lt_succ_self _)
      have hts : (to_string (Int.negSucc n)).data
          = '-' :: Nat.toDigitsCore 10 (n + 1 + 1) (n + 1) [] := rfl
      show 2 ≤ (to_string (Int.negSucc n)).data.length
      rw [hts, e]
      simp
    rw [setw2_of_long _ hlen]
    exact stoi_to_string_int _ h1 h2

namespace SecondaryIndex

theorem isPointer_setw2 (x : String) (h : IsPointer x) :
    stoi (setw2 x) = stoi x ∧ '\n' ∉ (setw2 x).data ∧
      (setw2 x = "##" ↔ x = "##") ∧ (setw2 x = "-1" ↔ x = "-1") := by
  rcases h with rfl | rfl | ⟨hne, hall⟩
  · decide
  · decide
  · obtain ⟨h1, h2, h3⟩ := setw2_digits x.data hne hall
    have e : String.mk x.data = x := rfl
    rw [e] at h1 h2 h3
    have hnot : ∀ y : String, (∃ c ∈ y.data, c.isDigit = false) →
        (∀ c ∈ y.data, c.isDigit = true) → False := by
      rintro y ⟨c, hc, hf⟩ hy
      rw [hy c hc] at hf
      exact absurd hf (by decide)
    refine ⟨h3, fun hm => absurd (h2 _ hm) (by decide), ?_, ?_⟩
    · constructor
      · intro e1
        exact (hnot "##" ⟨'#', by decide, by decide⟩ (e1 ▸ h2)).elim
      · intro e1
        exact (hnot "##" ⟨'#', by decide, by decide⟩ (e1 ▸ hall)).elim
    · constructor
      · intro e1
        exact (hnot "-1" ⟨'-', by decide, by decide⟩ (e1 ▸ h2)).elim
      · intro e1
        exact (hnot "-1" ⟨'-', by decide, by decide⟩ (e1 ▸ hall)).elim

theorem mapAssign_last (pre : List (String × Int)) (k : String) (v : Int)
    (h : ∀ e ∈ pre, strLt e.1 k) : mapAssign pre k v = pre ++ [(k, v)] := by
  induction pre with
  | nil => rfl
  | cons e rest ih =>
    obtain ⟨k1, w⟩ := e
    have hlt : strLt k1 k := h (k1, w) (List.mem_cons_self _ _)
    have hne : k1 ≠ k := fun e1 => PrimaryIndex.strLt_irrefl k (e1 ▸ hlt)
    unfold mapAssign
    rw [if_neg hne, if_neg (PrimaryIndex.strLt_asymm hlt),
      ih (fun x hx => h x (List.mem_cons_of_mem _ hx))]
    rfl

theorem getLines_secondaryIndexText (m : List (String × Int))
    (hk : ∀ e ∈ m, CleanField e.1 ∧ -2147483648 ≤ e.2 ∧ e.2 ≤ 2147483647) :
    getLines (secondaryIndexText m)
      = m.map (fun e => e.1.data ++ '|' :: (setw2 (to_string e.2)).data) := by
  induction m with
  | nil => rfl
  | cons e t ih =>
    obtain ⟨hc, h1, h2⟩ := hk e (List.mem_cons_self _ _)
    have e1 : secondaryIndexText (e :: t)
        = (e.1.data ++ '|' :: (setw2 (to_string e.2)).data) ++ '\n' :: secondaryIndexText t := by
      simp [secondaryIndexText]
    have hnl : '\n' ∉ e.1.data ++ '|' :: (setw2 (to_string e.2)).data := by
      intro hm
      rcases List.mem_append.1 hm with hm | hm
      · exact hc.2 hm
      · rcases List.mem_cons.1 hm with hm | hm
        · exact absurd hm (by decide)
        · exact (setw2_to_string_clean _).2 hm
    rw [e1, getLines_line _ _ hnl, ih (fun x hx => hk x (List.mem_cons_of_mem _ hx)),
      List.map_cons]

theorem loadMapLoop_lines : ∀ (suf pre : List (String × Int)),
    (pre ++ suf).Pairwise (fun a b => strLt a.1 b.1) →
    (∀ e ∈ suf, CleanField e.1 ∧ -2147483648 ≤ e.2 ∧ e.2 ≤ 2147483647) →
    loadMapLoop (suf.map (fun e => e.1.data ++ '|' :: (setw2 (to_string e.2)).data)) pre
      = some (pre ++ suf) := by
  intro suf
  induction suf with
  | nil => intro pre _ _; simp [loadMapLoop]
  | cons e t ih =>
    intro pre hs hk
    obtain ⟨hc, h1, h2⟩ := hk e (List.mem_cons_self _ _)
    have hst := setw2_to_string e.2 h1 h2
    have hb := (setw2_to_string_clean e.2).1
    rw [List.map_cons, loadMapLoop]
    simp only [getlineField_field _ _ _ hc.1, getlineField_last _ _ hb]
    have e1 : String.mk (setw2 (to_string e.2)).data = setw2 (to_string e.2) := rfl
    have e2 : String.mk e.1.data = e.1 := rfl
    rw [e1, e2, hst]
    simp only []
    rw [mapAssign_last pre e.1 e.2
      (fun x hx => (List.pairwise_append.1 hs).2.2 x hx e (List.mem_cons_self _ _))]
    have := ih (pre ++ [(e.1, e.2)]) (by simpa using hs)
      (fun x hx => hk x (List.mem_cons_of_mem _ hx))
    rw [this]
    simp

theorem getLines_labelIdListText : ∀ (l : List PrimaryKeyNode) (recNo : Nat),
    (∀ nd ∈ l, '\n' ∉ (setw2 nd.primaryKey).data ∧ '\n' ∉ (setw2 nd.nextIndex).data) →
    ∃ recs : List (List Char), recs.length = l.length ∧
      (∀ r ∈ recs, '|' ∉ r) ∧
      getLines (labelIdListText recNo l)
        = List.zipWith (fun r nd => r ++ '|' :: ((setw2 nd.primaryKey).data ++
            ',' :: (setw2 nd.nextIndex).data)) recs l := by
  intro l
  induction l with
  | nil => intro _ _; exact ⟨[], rfl, by simp, rfl⟩
  | cons nd t ih =>
    intro recNo h
    obtain ⟨h1, h2⟩ := h nd (List.mem_cons_self _ _)
    obtain ⟨recs, hlen, hclean, hlines⟩ := ih (recNo + 1)
      (fun x hx => h x (List.mem_cons_of_mem _ hx))
    obtain ⟨hb, hn⟩ := setw2_to_string_clean (recNo : Int)
    refine ⟨(setw2 (to_string (recNo : Int))).data :: recs, by simp [hlen], ?_, ?_⟩
    · intro r hr
      rcases List.mem_cons.1 hr with rfl | hr
      · exact hb
      · exact hclean r hr
    · have e1 : labelIdListText recNo (nd :: t)
          = ((setw2 (to_string (recNo : Int))).data ++ '|' :: ((setw2 nd.primaryKey).data ++
              ',' :: (setw2 nd.nextIndex).data)) ++ '\n' :: labelIdListText (recNo + 1) t := by
        simp [labelIdListText]
      have hnl : '\n' ∉ (setw2 (to_string (recNo : Int))).data ++
          '|' :: ((setw2 nd.primaryKey).data ++ ',' :: (setw2 nd.nextIndex).data) := by
        intro hm
        rcases List.mem_append.1 hm with hm | hm
        · exact hn hm
        · rcases List.mem_cons.1 hm with hm | hm
          · exact absurd hm (by decide)
          · rcases List.mem_append.1 hm with hm | hm
            · exact h1 hm
            · rcases List.mem_cons.1 hm with hm | hm
              · exact absurd hm (by decide)
              · exact h2 hm
      rw [e1, getLines_line _ _ hnl, hlines, List.zipWith_cons_cons]

theorem foldl_loadLabelLine : ∀ (l : List PrimaryKeyNode) (recs : List (List Char))
    (st : LabelLoadState), recs.length = l.length → (∀ r ∈ recs, '|' ∉ r) →
    (∀ nd ∈ l, ',' ∉ (setw2 nd.primaryKey).data ∧ '\n' ∉ (setw2 nd.nextIndex).data) →
    ((List.zipWith (fun r nd => r ++ '|' :: ((setw2 nd.primaryKey).data ++
        ',' :: (setw2 nd.nextIndex).data)) recs l).foldl loadLabelLine st).primaryKeyList
      = st.primaryKeyList ++ l.map (fun nd => ⟨setw2 nd.primaryKey, setw2 nd.nextIndex⟩) := by
  intro l
  induction l with
  | nil =>
    intro recs st _ _ _
    simp
  | cons nd t ih =>
    intro recs st hlen hclean h
    cases recs with
    | nil => simp at hlen
    | cons r recs =>
      obtain ⟨h1, h2⟩ := h nd (List.mem_cons_self _ _)
      have hstep : loadLabelLine st (r ++ '|' :: ((setw2 nd.primaryKey).data ++
            ',' :: (setw2 nd.nextIndex).data))
          = ⟨String.mk r, setw2 nd.primaryKey, setw2 nd.nextIndex,
              st.primaryKeyList ++ [⟨setw2 nd.primaryKey, setw2 nd.nextIndex⟩]⟩ := by
        unfold loadLabelLine
        simp only [getlineField_field _ _ _ (hclean r (List.mem_cons_self _ _)),
          getlineUntil_field _ _ _ _ h1, getlineUntil_last _ _ _ h2]
      rw [List.zipWith_cons_cons, List.foldl_cons, hstep,
        ih recs _ (by simpa using hlen) (fun x hx => hclean x (List.mem_cons_of_mem _ hx))
          (fun x hx => h x (List.mem_cons_of_mem _ hx))]
      simp

theorem nodeAt_map (l : List PrimaryKeyNode) (g : PrimaryKeyNode → PrimaryKeyNode) (i : Int) :
    nodeAt (l.map g) i = (nodeAt l i).map g := by
  unfold nodeAt
  split_ifs
  · rfl
  · rw [List.getElem?_map]

theorem collectFrom_map (l : List PrimaryKeyNode) (g : PrimaryKeyNode → PrimaryKeyNode)
    (hg : ∀ nd ∈ l, (g nd).primaryKey = nd.primaryKey ∧ stoi (g nd).nextIndex = stoi nd.nextIndex) :
    ∀ (fuel : Nat) (i : Int), collectFrom (l.map g) fuel i = collectFrom l fuel i := by
  intro fuel
  induction fuel with
  | zero => intro i; rfl
  | succ fuel ih =>
    intro i
    unfold collectFrom
    by_cases hi : i = -1
    · simp only [hi, if_true]
    · simp only [hi, if_false]
      rw [nodeAt_map]
      cases hnd : nodeAt l i with
      | none => rfl
      | some nd =>
        have hmem : nd ∈ l := by
          unfold nodeAt at hnd
          split_ifs at hnd
          exact List.getElem?_mem hnd
        obtain ⟨h1, h2⟩ := hg nd hmem
        simp only [Option.map_some']
        rw [h2]
        cases stoi nd.nextIndex with
        | none => rfl
        | some next =>
          simp only []
          rw [ih next, h1]

/-- The node list that the loader builds from the file of the label list:
the nodes of the index with their next pointers at the width 2. -/
theorem load_labelIdListText (l : List PrimaryKeyNode)
    (hpk : ∀ nd ∈ l, ',' ∉ nd.primaryKey.data ∧ '\n' ∉ nd.primaryKey.data ∧
      2 ≤ nd.primaryKey.length)
    (hnext : ∀ nd ∈ l, IsPointer nd.nextIndex) :
    ((getLines (labelIdListText 0 l)).foldl loadLabelLine ⟨"", "", "", []⟩).primaryKeyList
      = l.map (fun nd => ⟨nd.primaryKey, setw2 nd.nextIndex⟩) := by
  have hsame : ∀ nd ∈ l, setw2 nd.primaryKey = nd.primaryKey :=
    fun nd hnd => setw2_of_long _ (hpk nd hnd).2.2
  obtain ⟨recs, hlen, hclean, hlines⟩ := getLines_labelIdListText l 0 (by
    intro nd hnd
    rw [hsame nd hnd]
    exact ⟨(hpk nd hnd).2.1, (isPointer_setw2 _ (hnext nd hnd)).2.1⟩)
  rw [hlines, foldl_loadLabelLine l recs _ hlen hclean (by
    intro nd hnd
    rw [hsame nd hnd]
    exact ⟨(hpk nd hnd).1, (isPointer_setw2 _ (hnext nd hnd)).2.1⟩)]
  simp only [List.nil_append]
  apply List.map_congr_left
  intro nd hnd
  rw [hsame nd hnd]

end SecondaryIndex

/-- C35 (as amended): the files of the secondary index load to the same
index. For a well-formed index whose map is ordered by key with heads that
are `int` values, whose secondary keys hold no `|` and no line terminator,
whose primary keys hold no `,` and no line terminator and have at least two
characters, and whose next pointers are `##`, `-1` or decimal digits: loading
the two texts that `updateSecondaryIndexAndLabelIdList` writes into the empty
index returns an index with the same map and as many nodes; each node has the
same primary key and a next pointer that `stoi` reads as the same number and
that is `##` or `-1` exactly when it was; every lookup has the same outcome
in both, and the lookup of a key of the map returns, with the same sequence
in both. -/
theorem SecondaryIndex.persisted_index_reloads (s : SecondaryIndex)
    (hw : SecondaryIndex.WellFormed s)
    (hmap : s.secondaryIndexMap.Pairwise (fun a b => strLt a.1 b.1))
    (hkeys : ∀ e ∈ s.secondaryIndexMap,
      CleanField e.1 ∧ -2147483648 ≤ e.2 ∧ e.2 ≤ 2147483647)
    (hpk : ∀ nd ∈ s.primaryKeyList, ',' ∉ nd.primaryKey.data ∧ '\n' ∉ nd.primaryKey.data ∧
      2 ≤ nd.primaryKey.length)
    (hnext : ∀ nd ∈ s.primaryKeyList, SecondaryIndex.IsPointer nd.nextIndex) :
    ∃ s1, SecondaryIndex.loadSecondaryIndexAndLabelIdList
        (SecondaryIndex.updateSecondaryIndexAndLabelIdList s).1
        (SecondaryIndex.updateSecondaryIndexAndLabelIdList s).2 SecondaryIndex.empty = some s1 ∧
      s1.secondaryIndexMap = s.secondaryIndexMap ∧
      s1.primaryKeyList.length = s.primaryKeyList.length ∧
      (∀ (i : Nat) (nd : PrimaryKeyNode), s.primaryKeyList[i]? = some nd →
        ∃ nd1 : PrimaryKeyNode, s1.primaryKeyList[i]? = some nd1 ∧
          nd1.primaryKey = nd.primaryKey ∧ stoi nd1.nextIndex = stoi nd.nextIndex ∧
          (nd1.nextIndex = "##" ↔ nd.nextIndex = "##") ∧
          (nd1.nextIndex = "-1" ↔ nd.nextIndex = "-1")) ∧
      (∀ k, (SecondaryIndex.getPrimaryKeysBySecondaryKey s1 k).map Prod.snd
        = (SecondaryIndex.getPrimaryKeysBySecondaryKey s k).map Prod.snd) ∧
      ∀ k h, SecondaryIndex.mapFind s.secondaryIndexMap k = some h →
        ∃ r, SecondaryIndex.getPrimaryKeysBySecondaryKey s k = some (s, r) ∧
          SecondaryIndex.getPrimaryKeysBySecondaryKey s1 k = some (s1, r) := by
  obtain ⟨ch, hch⟩ := hw
  have hload : SecondaryIndex.loadSecondaryIndexAndLabelIdList
      (SecondaryIndex.updateSecondaryIndexAndLabelIdList s).1
      (SecondaryIndex.updateSecondaryIndexAndLabelIdList s).2 SecondaryIndex.empty
      = some ⟨s.secondaryIndexMap,
          s.primaryKeyList.map (fun nd => ⟨nd.primaryKey, setw2 nd.nextIndex⟩)⟩ := by
    unfold SecondaryIndex.loadSecondaryIndexAndLabelIdList
      SecondaryIndex.updateSecondaryIndexAndLabelIdList
    dsimp only
    rw [SecondaryIndex.getLines_secondaryIndexText _ hkeys]
    have := SecondaryIndex.loadMapLoop_lines s.secondaryIndexMap [] (by simpa using hmap) hkeys
    rw [show SecondaryIndex.empty.secondaryIndexMap = [] from rfl, this]
    simp only [List.nil_append]
    rw [SecondaryIndex.load_labelIdListText _ hpk hnext]
  have hcollect := SecondaryIndex.collectFrom_map s.primaryKeyList
    (fun nd => ⟨nd.primaryKey, setw2 nd.nextIndex⟩) (fun nd hnd =>
      ⟨rfl, (SecondaryIndex.isPointer_setw2 _ (hnext nd hnd)).1⟩)
  refine ⟨_, hload, rfl, by simp, ?_, ?_, ?_⟩
  · intro i nd hnd
    obtain ⟨h1, _, h3, h4⟩ := SecondaryIndex.isPointer_setw2 _ (hnext nd (List.getElem?_mem hnd))
    refine ⟨⟨nd.primaryKey, setw2 nd.nextIndex⟩, ?_, rfl, h1, h3, h4⟩
    rw [List.getElem?_map, hnd]
    rfl
  · intro k
    unfold SecondaryIndex.getPrimaryKeysBySecondaryKey
    dsimp only
    rw [List.length_map, hcollect, Option.map_map, Option.map_map]
    rfl
  · intro k h hk
    have hget := SecondaryIndex.get_spec s ch hch k h hk
    refine ⟨_, hget, ?_⟩
    unfold SecondaryIndex.getPrimaryKeysBySecondaryKey at hget ⊢
    have hmi : SecondaryIndex.mapIndex s.secondaryIndexMap k = (s.secondaryIndexMap, h) := by
      unfold SecondaryIndex.mapIndex
      rw [hk]
    rw [hmi] at hget ⊢
    dsimp only at hget ⊢
    rw [List.length_map, hcollect]
    cases hc : SecondaryIndex.collectFrom s.primaryKeyList (s.primaryKeyList.length + 1) h with
    | none =>
      rw [hc] at hget
      exact absurd hget (by simp)
    | some r =>
      rw [hc] at hget
      simp only [Option.map_some', Option.some.injEq, Prod.mk.injEq] at hget ⊢
      exact ⟨trivial, hget.2⟩

theorem SecondaryIndex.persisted_index_reloads_witness :
    ∃ s1, SecondaryIndex.loadSecondaryIndexAndLabelIdList
        (SecondaryIndex.updateSecondaryIndexAndLabelIdList
          ⟨[("Alice", -1), ("Bob", 1)], [⟨"##", "##"⟩, ⟨"02", "-1"⟩]⟩).1
        (SecondaryIndex.updateSecondaryIndexAndLabelIdList
          ⟨[("Alice", -1), ("Bob", 1)], [⟨"##", "##"⟩, ⟨"02", "-1"⟩]⟩).2
        SecondaryIndex.empty = some s1 ∧
      s1.secondaryIndexMap = [("Alice", -1), ("Bob", 1)] ∧
      s1.primaryKeyList.length = [(⟨"##", "##"⟩ : PrimaryKeyNode), ⟨"02", "-1"⟩].length ∧
      (∀ (i : Nat) (nd : PrimaryKeyNode),
        [(⟨"##", "##"⟩ : PrimaryKeyNode), ⟨"02", "-1"⟩][i]? = some nd →
        ∃ nd1 : PrimaryKeyNode, s1.primaryKeyList[i]? = some nd1 ∧
          nd1.primaryKey = nd.primaryKey ∧ stoi nd1.nextIndex = stoi nd.nextIndex ∧
          (nd1.nextIndex = "##" ↔ nd.nextIndex = "##") ∧
          (nd1.nextIndex = "-1" ↔ nd.nextIndex = "-1")) ∧
      (∀ k, (SecondaryIndex.getPrimaryKeysBySecondaryKey s1 k).map Prod.snd
        = (SecondaryIndex.getPrimaryKeysBySecondaryKey
            ⟨[("Alice", -1), ("Bob", 1)], [⟨"##", "##"⟩, ⟨"02", "-1"⟩]⟩ k).map Prod.snd) ∧
      ∀ k h, SecondaryIndex.mapFind [("Alice", -1), ("Bob", 1)] k = some h →
        ∃ r, SecondaryIndex.getPrimaryKeysBySecondaryKey
            ⟨[("Alice", -1), ("Bob", 1)], [⟨"##", "##"⟩, ⟨"02", "-1"⟩]⟩ k
              = some (⟨[("Alice", -1), ("Bob", 1)], [⟨"##", "##"⟩, ⟨"02", "-1"⟩]⟩, r) ∧
          SecondaryIndex.getPrimaryKeysBySecondaryKey s1 k = some (s1, r) :=
  SecondaryIndex.persisted_index_reloads
    ⟨[("Alice", -1), ("Bob", 1)], [⟨"##", "##"⟩, ⟨"02", "-1"⟩]⟩
    SecondaryIndex.wellFormed_one_doctor (by decide) (by decide) (by decide) (by decide)

/-- C35: a primary key of one character comes back with a `0` in front. The
index that holds `7` under `Jones`, which one addition on the empty index
builds, is written as `Jones|00` and `00|07,-1`; the index loaded from these
texts holds the primary key `07`, and the lookup of `Jones` returns `07`
where it returned `7`. -/
theorem SecondaryIndex.short_primary_key_reloads_padded :
    SecondaryIndex.addPrimaryKeyToSecondaryNode SecondaryIndex.empty "Jones" "7"
      = some ⟨[("Jones", 0)], [⟨"7", "-1"⟩]⟩ ∧
    SecondaryIndex.updateSecondaryIndexAndLabelIdList ⟨[("Jones", 0)], [⟨"7", "-1"⟩]⟩
      = ("Jones|00\n".data, "00|07,-1\n".data) ∧
    SecondaryIndex.loadSecondaryIndexAndLabelIdList "Jones|00\n".data "00|07,-1\n".data
        SecondaryIndex.empty
      = some ⟨[("Jones", 0)], [⟨"07", "-1"⟩]⟩ ∧
    SecondaryIndex.getPrimaryKeysBySecondaryKey ⟨[("Jones", 0)], [⟨"7", "-1"⟩]⟩ "Jones"
      = some (⟨[("Jones", 0)], [⟨"7", "-1"⟩]⟩, ["7"]) ∧
    SecondaryIndex.getPrimaryKeysBySecondaryKey ⟨[("Jones", 0)], [⟨"07", "-1"⟩]⟩ "Jones"
      = some (⟨[("Jones", 0)], [⟨"07", "-1"⟩]⟩, ["07"]) := by
  decide

theorem writeAt_frame (f : List Char) (pos : Nat) (bs : List Char)
    (h : pos + bs.length ≤ f.length) (i : Nat) (hi : i < pos ∨ pos + bs.length ≤ i) :
    (writeAt f pos bs)[i]? = f[i]? := by
  rcases hi with hi | hi
  · exact writeAt_getElem?_lt f pos bs i hi (by omega)
  · rw [writeAt_inside f pos bs h]
    have hl : (f.take pos ++ bs).length = pos + bs.length := by
      simp only [List.length_append, List.length_take]
      omega
    rw [List.getElem?_append_right (by omega), hl, List.getElem?_drop]
    congr 1
    omega

/-- C40: the frame of an update in place. Let the record file hold, behind
the bytes `pre`, a record line with a length field `len` and an id `rid` of
two characters each, and let the slot have the capacity `c`: `stoi(len)` is
`c` and the line has at least `4 + c` bytes. Let the primary index lead the
key `id` to the offset of the line, let the secondary index be well formed,
and let the new size not exceed `c`. Then `updateDoctorName` returns; the
primary index and the free list are unchanged; the new file has the length of
the old one and differs from it at most at the bytes from `offset + 8` up to,
not including, `offset + 4 + c`; these lie inside the line, before its line
terminator, and the first eight bytes of the line (status, length field, id
and their delimiters), the line terminator and the bytes `pre` and `post` of
the other records are as before. -/
theorem DoctorManagementSystem.updateDoctorName_in_place_frame (t : DoctorManagementSystem)
    (id newName : String) (pre post : List Char) (st : Char)
    (len rid name address rest : List Char) (c : Int)
    (hsearch : PrimaryIndex.binarySearchPrimaryIndex t.doctorPrimaryIndex id
      = some (pre.length : Int))
    (hfile : t.doctorsFile
      = some (pre ++ recordLine st len rid name address rest ++ '\n' :: post))
    (hst : st ≠ '|') (hlen : '|' ∉ len) (hrid : '|' ∉ rid) (hname : '|' ∉ name)
    (haddress : '|' ∉ address) (hline : '\n' ∉ recordLine st len rid name address rest)
    (hlen2 : len.length = 2) (hrid2 : rid.length = 2) (hc : stoi (String.mk len) = some c)
    (hcap : c + 4 ≤ ((recordLine st len rid name address rest).length : Int))
    (hfit : (newName.length : Int) + 2 + (address.length : Int) + 4 ≤ c)
    (hw : SecondaryIndex.WellFormed t.doctorSecondaryIndex)
    (hnodes : t.doctorSecondaryIndex.primaryKeyList.length ≤ 2147483647) :
    ∃ (t1 : DoctorManagementSystem) (line1 : List Char),
      DoctorManagementSystem.updateDoctorName t id newName = some t1 ∧
      t1.doctorPrimaryIndex = t.doctorPrimaryIndex ∧
      t1.doctorAvailList = t.doctorAvailList ∧
      t1.doctorsFile = some (pre ++ line1 ++ '\n' :: post) ∧
      line1.length = (recordLine st len rid name address rest).length ∧
      line1.take 8 = st :: '|' :: (len ++ '|' :: (rid ++ ['|'])) ∧
      pre.length + 4 + c.toNat ≤ pre.length + line1.length ∧
      (pre ++ line1 ++ '\n' :: post).length
        = (pre ++ recordLine st len rid name address rest ++ '\n' :: post).length ∧
      ∀ i : Nat, i < pre.length + 8 ∨ pre.length + 4 + c.toNat ≤ i →
        (pre ++ line1 ++ '\n' :: post)[i]?
          = (pre ++ recordLine st len rid name address rest ++ '\n' :: post)[i]? := by
  obtain ⟨ch, hch⟩ := hw
  obtain ⟨s1, hrem, ⟨ch1, hch1⟩, hlen1, _⟩ :=
    SecondaryIndex.remove_lookup t.doctorSecondaryIndex ch hch (String.mk name) id
  obtain ⟨s2, _, hadd, _⟩ := SecondaryIndex.add_spec s1 ch1 hch1 (by omega) newName id
  have hll := recordLine_length st len rid name address rest
  have hridlen : (String.mk rid).length = 2 := hrid2
  have haddrlen : (String.mk address).length = address.length := rfl
  have hbytes : (newName.data ++ '|' :: address ++
      '|' :: List.replicate (c - ((newName.length : Int) + 2 + (address.length : Int) + 4)).toNat
        '-').length = c.toNat - 4 := by
    simp only [List.length_append, List.length_cons, List.length_replicate]
    have : newName.data.length = newName.length := rfl
    omega
  have h8 : 8 + (c.toNat - 4) ≤ (recordLine st len rid name address rest).length := by omega
  have htake : (recordLine st len rid name address rest).take 8
      = st :: '|' :: (len ++ '|' :: (rid ++ ['|'])) := by
    obtain ⟨a, b, rfl⟩ : ∃ a b, len = [a, b] := by
      match len, hlen2 with
      | [a, b], _ => exact ⟨a, b, rfl⟩
    obtain ⟨x, y, rfl⟩ : ∃ x y, rid = [x, y] := by
      match rid, hrid2 with
      | [x, y], _ => exact ⟨x, y, rfl⟩
    rfl
  refine ⟨⟨t.doctorPrimaryIndex, s2, t.doctorAvailList,
    some (pre ++ ((recordLine st len rid name address rest).take 8 ++
      (newName.data ++ '|' :: address ++ '|' :: List.replicate
        (c - ((newName.length : Int) + 2 + (address.length : Int) + 4)).toNat '-') ++
      (recordLine st len rid name address rest).drop (8 + (c.toNat - 4))) ++ '\n' :: post)⟩,
    _, ?_, rfl, rfl, rfl, ?_, ?_, ?_, ?_, ?_⟩
  · unfold DoctorManagementSystem.updateDoctorName
    simp only [hsearch, hfile]
    rw [if_neg (by omega), if_neg (by omega), Int.toNat_natCast,
      readLine_line pre _ post hline, parseRecord_fields st len rid name address rest hst hlen
        hrid hname haddress]
    simp only [hc, hridlen, haddrlen]
    rw [if_pos (by push_cast; omega)]
    simp only [hrem, hadd, lineTerminated_line, if_true]
    congr 3
    have := writeAt_middle pre (recordLine st len rid name address rest) ('\n' :: post) 8
      (newName.data ++ '|' :: address ++ '|' :: List.replicate
        (c - ((newName.length : Int) + 2 + (address.length : Int) + 4)).toNat '-')
      (by rw [hbytes]; exact h8)
    rw [hbytes] at this
    rw [← this]
    congr 2
  · simp only [List.length_append, List.length_take, List.length_drop, hbytes]
    omega
  · rw [List.append_assoc, List.take_append_of_le_length (by simp; omega),
      List.take_take, Nat.min_self, htake]
  · simp only [List.length_append, List.length_take, List.length_drop, hbytes]
    omega
  · simp only [List.length_append, List.length_take, List.length_drop, hbytes,
      List.length_cons]
    omega
  · intro i hi
    have hw := writeAt_middle pre (recordLine st len rid name address rest) ('\n' :: post) 8
      (newName.data ++ '|' :: address ++ '|' :: List.replicate
        (c - ((newName.length : Int) + 2 + (address.length : Int) + 4)).toNat '-')
      (by rw [hbytes]; exact h8)
    rw [hbytes] at hw
    rw [← hw]
    apply writeAt_frame
    · simp only [List.length_append, List.length_cons, hbytes]
      omega
    · rw [hbytes]
      omega

theorem DoctorManagementSystem.updateDoctorName_in_place_frame_witness :
    ∃ (t1 : DoctorManagementSystem) (line1 : List Char),
      DoctorManagementSystem.updateDoctorName
        ⟨[⟨"01", 0⟩, ⟨"02", 20⟩], ⟨[("Alice", 0), ("Bob", 1)], [⟨"01", "-1"⟩, ⟨"02", "-1"⟩]⟩, [],
          some (" |15|01|Alice|Giza|\n".data ++
            recordLine ' ' "13".data "02".data "Bob".data "Giza".data [] ++ '\n' :: [])⟩
        "02" "Bo" = some t1 ∧
      t1.doctorPrimaryIndex = [⟨"01", 0⟩, ⟨"02", 20⟩] ∧
      t1.doctorAvailList = [] ∧
      t1.doctorsFile = some (" |15|01|Alice|Giza|\n".data ++ line1 ++ '\n' :: []) ∧
      line1.length = (recordLine ' ' "13".data "02".data "Bob".data "Giza".data []).length ∧
      line1.take 8 = ' ' :: '|' :: ("13".data ++ '|' :: ("02".data ++ ['|'])) ∧
      " |15|01|Alice|Giza|\n".data.length + 4 + (13 : Int).toNat
        ≤ " |15|01|Alice|Giza|\n".data.length + line1.length ∧
      (" |15|01|Alice|Giza|\n".data ++ line1 ++ '\n' :: []).length
        = (" |15|01|Alice|Giza|\n".data ++
            recordLine ' ' "13".data "02".data "Bob".data "Giza".data [] ++ '\n' :: []).length ∧
      ∀ i : Nat, i < " |15|01|Alice|Giza|\n".data.length + 8 ∨
          " |15|01|Alice|Giza|\n".data.length + 4 + (13 : Int).toNat ≤ i →
        (" |15|01|Alice|Giza|\n".data ++ line1 ++ '\n' :: [])[i]?
          = (" |15|01|Alice|Giza|\n".data ++
              recordLine ' ' "13".data "02".data "Bob".data "Giza".data [] ++ '\n' :: [])[i]? :=
  DoctorManagementSystem.updateDoctorName_in_place_frame
    ⟨[⟨"01", 0⟩, ⟨"02", 20⟩], ⟨[("Alice", 0), ("Bob", 1)], [⟨"01", "-1"⟩, ⟨"02", "-1"⟩]⟩, [],
      some (" |15|01|Alice|Giza|\n".data ++
        recordLine ' ' "13".data "02".data "Bob".data "Giza".data [] ++ '\n' :: [])⟩
    "02" "Bo" " |15|01|Alice|Giza|\n".data [] ' ' "13".data "02".data "Bob".data "Giza".data [] 13
    (by decide) rfl (by decide) (by decide) (by decide) (by decide) (by decide) (by decide)
    (by decide) (by decide) (by decide) (by decide) (by decide)
    SecondaryIndex.wellFormed_two_doctors (by decide)

theorem getNewId_clean (idx : PrimaryIndex) (k : String)
    (h : PrimaryIndex.getNewId idx = some k) : CleanField k := by
  have hz : ∀ v : Int, CleanField ("0" ++ to_string v) := by
    intro v
    obtain ⟨a, b, _⟩ := to_string_clean v
    have e : ("0" ++ to_string v).data = '0' :: (to_string v).data := rfl
    unfold CleanField
    rw [e]
    refine ⟨fun hm => ?_, fun hm => ?_⟩
    · rcases List.mem_cons.1 hm with hm | hm
      · exact absurd hm (by decide)
      · exact a hm
    · rcases List.mem_cons.1 hm with hm | hm
      · exact absurd hm (by decide)
      · exact b hm
  unfold PrimaryIndex.getNewId at h
  split at h
  · injection h with h
    subst h
    decide
  · split at h
    · exact absurd h (by simp)
    · split_ifs at h with h1
      injection h with h
      subst h
      split_ifs
      · exact hz _
      · exact ⟨(to_string_clean _).1, (to_string_clean _).2.1⟩

theorem drop_cons_of_getElem? {α : Type} (l : List α) (i : Nat) (c : α) (h : l[i]? = some c) :
    l.drop i = c :: l.drop (i + 1) := by
  obtain ⟨hi, hc⟩ := List.getElem?_eq_some.1 h
  rw [List.drop_eq_getElem_cons hi, hc]

theorem takeWhile_prefix {α : Type} (p : α → Bool) (a b : List α) (h : ∀ x ∈ a, p x = true) :
    (a ++ b).takeWhile p = a ++ b.takeWhile p := by
  induction a with
  | nil => rfl
  | cons x t ih =>
    rw [List.cons_append, List.takeWhile_cons, h x (List.mem_cons_self _ _)]
    simp only [if_true]
    rw [ih (fun y hy => h y (List.mem_cons_of_mem _ hy)), List.cons_append]

theorem reusedBytes_payload (size : Int) (id second third : String)
    (h : (id.length : Int) + (second.length : Int) + (third.length : Int) + 4 ≤ size) :
    reusedBytes size id second third
      = payload id second third ++
          List.replicate (size - ((payload id second third).length : Int)).toNat '-' := by
  rw [reusedBytes_eq _ _ _ _ h, payload_length]
  unfold payload
  simp only [List.append_assoc, List.cons_append, List.nil_append, List.singleton_append]

/-- C18: in a doctor table whose free list, ascending by size, lies inside
the record file and holds a slot of at least the payload size
`|id| + |name| + |address| + 4` of the new record, `addDoctor` returns and
writes the record into the best-fit slot `node` instead of appending: the
pair of the new id and the offset of the slot is in the primary index, the
status byte at that offset is a blank, the `node.size` bytes from
`offset + 4` on are `|id|name|address|` followed by the padding `-`, every
other byte of the file is as before, the slot is taken out of the free list
and the file keeps its length. When the fields hold no `|` and no line
terminator and the slot has a length field of two characters, the line at
the offset decodes to the status blank, that length field, the new id, the
name and the address. The secondary index is well formed with at most
`2^31 - 1` nodes. -/
theorem DoctorManagementSystem.addDoctor_reuses_best_fit (t : DoctorManagementSystem)
    (doctor : Doctor) (file : List Char) (newId : String)
    (hfile : t.doctorsFile = some file)
    (hid : PrimaryIndex.getNewId t.doctorPrimaryIndex = some newId)
    (hsorted : AvailList.SortedBySize t.doctorAvailList)
    (hslots : ∀ d ∈ t.doctorAvailList,
      0 ≤ d.offset ∧ d.offset + 4 + d.size ≤ (file.length : Int))
    (hsec : SecondaryIndex.WellFormed t.doctorSecondaryIndex)
    (hnodes : t.doctorSecondaryIndex.primaryKeyList.length ≤ 2147483647)
    (hfit : ∃ d ∈ t.doctorAvailList,
      (newId.length : Int) + (doctor.name.length : Int) + (doctor.address.length : Int) + 4
        ≤ d.size) :
    ∃ t1 pos node file1,
      DoctorManagementSystem.addDoctor t doctor
        = some (t1, ⟨newId, doctor.name, doctor.address⟩) ∧
      AvailList.bestFit t.doctorAvailList
        ((newId.length : Int) + (doctor.name.length : Int) + (doctor.address.length : Int) + 4)
        = some pos ∧
      t.doctorAvailList[pos]? = some node ∧
      (newId.length : Int) + (doctor.name.length : Int) + (doctor.address.length : Int) + 4
        ≤ node.size ∧
      (∀ d ∈ t.doctorAvailList,
        (newId.length : Int) + (doctor.name.length : Int) + (doctor.address.length : Int) + 4
          ≤ d.size → node.size ≤ d.size) ∧
      (⟨newId, node.offset⟩ : PrimaryIndexNode) ∈ t1.doctorPrimaryIndex ∧
      t1.doctorsFile = some file1 ∧
      file1[node.offset.toNat]? = some ' ' ∧
      file1.length = file.length ∧
      t1.doctorAvailList = t.doctorAvailList.eraseIdx pos ∧
      (file1.drop (node.offset.toNat + 4)).take node.size.toNat
        = payload newId doctor.name doctor.address ++
            List.replicate
              (node.size - ((payload newId doctor.name doctor.address).length : Int)).toNat
              '-' ∧
      (∀ i : Nat, i ≠ node.offset.toNat →
        i < node.offset.toNat + 4 ∨ node.offset.toNat + 4 + node.size.toNat ≤ i →
        file1[i]? = file[i]?) ∧
      (CleanField doctor.name → CleanField doctor.address → ∀ d1 d2 : Char,
        file[node.offset.toNat + 1]? = some '|' → file[node.offset.toNat + 2]? = some d1 →
        file[node.offset.toNat + 3]? = some d2 → d1 ≠ '|' → d1 ≠ '\n' → d2 ≠ '|' →
        d2 ≠ '\n' →
        parseRecord (readLine file1 node.offset.toNat)
          = ⟨" ", String.mk [d1, d2], newId, doctor.name, doctor.address⟩) := by
  obtain ⟨pos, node, hbest, hnode, hsize, hmin⟩ := AvailList.bestFit_of_fit _ _ hfit
  obtain ⟨v, hv⟩ := getNewId_stoi _ _ hid
  obtain ⟨ch, hch⟩ := hsec
  obtain ⟨sec1, _, hadd, _⟩ := SecondaryIndex.add_spec t.doctorSecondaryIndex ch hch hnodes
    doctor.name newId
  obtain ⟨ho, hin⟩ := hslots node (List.getElem?_mem hnode)
  have hL : (0 : Int) ≤ (newId.length : Int) + (doctor.name.length : Int)
      + (doctor.address.length : Int) := by omega
  have hlt : node.offset.toNat < file.length := by omega
  have hbytes := reusedBytes_length node.size newId doctor.name doctor.address hsize
  have hpay := reusedBytes_payload node.size newId doctor.name doctor.address hsize
  have hset := writeAt_single file node.offset.toNat ' ' hlt
  have hsetlen : (writeAt file node.offset.toNat [' ']).length = file.length := by
    rw [hset, List.length_set]
  have hroom : node.offset.toNat + 4
      + (reusedBytes node.size newId doctor.name doctor.address).length
        ≤ (writeAt file node.offset.toNat [' ']).length := by
    rw [hsetlen, hbytes]
    omega
  have hframe : ∀ i : Nat, i ≠ node.offset.toNat →
      i < node.offset.toNat + 4 ∨ node.offset.toNat + 4 + node.size.toNat ≤ i →
      (writeAt (writeAt file node.offset.toNat [' ']) (node.offset.toNat + 4)
        (reusedBytes node.size newId doctor.name doctor.address))[i]? = file[i]? := by
    intro i hne hi
    rw [writeAt_frame _ _ _ hroom i (by rw [hbytes]; exact hi), hset,
      List.getElem?_set_ne (Ne.symm hne)]
  have hstatus : (writeAt (writeAt file node.offset.toNat [' ']) (node.offset.toNat + 4)
      (reusedBytes node.size newId doctor.name doctor.address))[node.offset.toNat]?
        = some ' ' := by
    rw [writeAt_getElem?_lt _ _ _ _ (by omega) (by rw [hsetlen]; omega), hset,
      List.getElem?_set_self hlt]
  have hdrop : (writeAt (writeAt file node.offset.toNat [' ']) (node.offset.toNat + 4)
      (reusedBytes node.size newId doctor.name doctor.address)).drop (node.offset.toNat + 4)
        = reusedBytes node.size newId doctor.name doctor.address ++
            (writeAt file node.offset.toNat [' ']).drop
              (node.offset.toNat + 4 +
                (reusedBytes node.size newId doctor.name doctor.address).length) := by
    rw [writeAt_inside _ _ _ hroom, List.append_assoc,
      List.drop_append_of_le_length (by rw [List.length_take]; omega),
      List.drop_of_length_le (by rw [List.length_take]; omega), List.nil_append]
  refine ⟨⟨PrimaryIndex.addPrimaryNode t.doctorPrimaryIndex newId node.offset, sec1,
      AvailList.remove t.doctorAvailList (some pos),
      some (writeAt (writeAt file node.offset.toNat [' ']) (node.offset.toNat + 4)
        (reusedBytes node.size newId doctor.name doctor.address))⟩, pos, node, _, ?_, hbest,
    hnode, hsize, hmin hsorted, ?_, rfl, hstatus, ?_, ?_, ?_, hframe, ?_⟩
  · unfold DoctorManagementSystem.addDoctor
    simp only [hid, hfile, hbest, hnode]
    unfold DoctorManagementSystem.recordAdded
    simp only [hv, hadd]
    rw [if_neg (by omega)]
  · exact (PrimaryIndex.sortPrimaryIndex_perm _).symm.subset (by simp)
  · rw [writeAt_length _ _ _ hroom, hsetlen]
  · exact AvailList.remove_eq_eraseIdx _ _
  · rw [hdrop, ← hbytes, List.take_left, hpay]
  · intro hname haddress d1 d2 h1 h2 h3 hd1 hd1n hd2 hd2n
    obtain ⟨hk1, hk2⟩ := getNewId_clean _ _ hid
    have e1 := hframe (node.offset.toNat + 1) (by omega) (Or.inl (by omega))
    have e2 := hframe (node.offset.toNat + 2) (by omega) (Or.inl (by omega))
    have e3 := hframe (node.offset.toNat + 3) (by omega) (Or.inl (by omega))
    rw [h1] at e1
    rw [h2] at e2
    rw [h3] at e3
    have hline : (writeAt (writeAt file node.offset.toNat [' ']) (node.offset.toNat + 4)
        (reusedBytes node.size newId doctor.name doctor.address)).drop node.offset.toNat
          = ' ' :: '|' :: d1 :: d2 ::
              (reusedBytes node.size newId doctor.name doctor.address ++
                (writeAt file node.offset.toNat [' ']).drop
                  (node.offset.toNat + 4 +
                    (reusedBytes node.size newId doctor.name doctor.address).length)) := by
      rw [drop_cons_of_getElem? _ _ _ hstatus, drop_cons_of_getElem? _ _ _ e1,
        drop_cons_of_getElem? _ _ _ e2, drop_cons_of_getElem? _ _ _ e3, hdrop]
    have hrb : '\n' ∉ reusedBytes node.size newId doctor.name doctor.address := by
      rw [hpay]
      unfold payload
      intro hm
      rcases List.mem_append.1 hm with hm | hm
      · rcases List.mem_append.1 hm with hm | hm
        · rcases List.mem_append.1 hm with hm | hm
          · rcases List.mem_append.1 hm with hm | hm
            · rcases List.mem_cons.1 hm with hm | hm
              · exact absurd hm (by decide)
              · exact hk2 hm
            · rcases List.mem_cons.1 hm with hm | hm
              · exact absurd hm (by decide)
              · exact hname.2 hm
          · rcases List.mem_cons.1 hm with hm | hm
            · exact absurd hm (by decide)
            · exact haddress.2 hm
        · rcases List.mem_cons.1 hm with hm | hm
          · exact absurd hm (by decide)
          · exact absurd hm (List.not_mem_nil _)
      · exact absurd (List.eq_of_mem_replicate hm) (by decide)
    have hclean : ∀ x ∈ ' ' :: '|' :: d1 :: d2 ::
        reusedBytes node.size newId doctor.name doctor.address, (x != '\n') = true := by
      intro x hx
      simp only [bne_iff_ne, ne_eq]
      intro e
      subst e
      rcases List.mem_cons.1 hx with hx | hx
      · exact absurd hx (by decide)
      · rcases List.mem_cons.1 hx with hx | hx
        · exact absurd hx (by decide)
        · rcases List.mem_cons.1 hx with hx | hx
          · exact hd1n hx.symm
          · rcases List.mem_cons.1 hx with hx | hx
            · exact hd2n hx.symm
            · exact hrb hx
    unfold readLine
    rw [hline]
    have hsplit : ' ' :: '|' :: d1 :: d2 ::
        (reusedBytes node.size newId doctor.name doctor.address ++
          (writeAt file node.offset.toNat [' ']).drop
            (node.offset.toNat + 4 +
              (reusedBytes node.size newId doctor.name doctor.address).length))
        = (' ' :: '|' :: d1 :: d2 :: reusedBytes node.size newId doctor.name doctor.address)
            ++ (writeAt file node.offset.toNat [' ']).drop
              (node.offset.toNat + 4 +
                (reusedBytes node.size newId doctor.name doctor.address).length) := rfl
    rw [hsplit, takeWhile_prefix _ _ _ hclean, hpay]
    have hrec : ∀ tail : List Char,
        (' ' :: '|' :: d1 :: d2 :: (payload newId doctor.name doctor.address ++
          List.replicate
            (node.size - ((payload newId doctor.name doctor.address).length : Int)).toNat
            '-')) ++ tail
        = recordLine ' ' [d1, d2] newId.data doctor.name.data doctor.address.data
            (List.replicate
              (node.size - ((payload newId doctor.name doctor.address).length : Int)).toNat
              '-' ++ tail) := by
      intro tail
      unfold payload recordLine
      simp only [List.append_assoc, List.cons_append, List.nil_append, List.singleton_append]
    rw [hrec, parseRecord_fields ' ' [d1, d2] newId.data doctor.name.data doctor.address.data _
      (by decide) (by simp [Ne.symm hd1, Ne.symm hd2]) hk1 hname.1 haddress.1]

theorem DoctorManagementSystem.addDoctor_reuses_best_fit_witness :
    (DoctorManagementSystem.doctorsFile
        ⟨[⟨"02", 25⟩], ⟨[("Alice", -1), ("Bob", 1)], [⟨"##", "##"⟩, ⟨"02", "-1"⟩]⟩, [⟨0, 20⟩],
          some "*|20|01|Alice|1 Main St|\n |18|02|Bob|2 Oak Ave|\n".data⟩
      = some "*|20|01|Alice|1 Main St|\n |18|02|Bob|2 Oak Ave|\n".data ∧
      PrimaryIndex.getNewId [⟨"02", 25⟩] = some "03" ∧
      AvailList.SortedBySize [⟨0, 20⟩] ∧
      (∀ d ∈ ([⟨0, 20⟩] : AvailList), 0 ≤ d.offset ∧ d.offset + 4 + d.size
        ≤ (("*|20|01|Alice|1 Main St|\n |18|02|Bob|2 Oak Ave|\n".data).length : Int)) ∧
      (∃ d ∈ ([⟨0, 20⟩] : AvailList),
        (("03" : String).length : Int) + (("Carol" : String).length : Int)
          + (("3 Elm Rd" : String).length : Int) + 4 ≤ d.size)) ∧
    ∃ t1 pos node file1,
      DoctorManagementSystem.addDoctor
          ⟨[⟨"02", 25⟩], ⟨[("Alice", -1), ("Bob", 1)], [⟨"##", "##"⟩, ⟨"02", "-1"⟩]⟩, [⟨0, 20⟩],
            some "*|20|01|Alice|1 Main St|\n |18|02|Bob|2 Oak Ave|\n".data⟩
          ⟨"", "Carol", "3 Elm Rd"⟩
        = some (t1, ⟨"03", "Carol", "3 Elm Rd"⟩) ∧
      AvailList.bestFit [⟨0, 20⟩]
        ((("03" : String).length : Int) + (("Carol" : String).length : Int)
          + (("3 Elm Rd" : String).length : Int) + 4) = some pos ∧
      ([⟨0, 20⟩] : AvailList)[pos]? = some node ∧
      (("03" : String).length : Int) + (("Carol" : String).length : Int)
        + (("3 Elm Rd" : String).length : Int) + 4 ≤ node.size ∧
      (∀ d ∈ ([⟨0, 20⟩] : AvailList),
        (("03" : String).length : Int) + (("Carol" : String).length : Int)
          + (("3 Elm Rd" : String).length : Int) + 4 ≤ d.size → node.size ≤ d.size) ∧
      (⟨"03", node.offset⟩ : PrimaryIndexNode) ∈ t1.doctorPrimaryIndex ∧
      t1.doctorsFile = some file1 ∧
      file1[node.offset.toNat]? = some ' ' ∧
      file1.length = ("*|20|01|Alice|1 Main St|\n |18|02|Bob|2 Oak Ave|\n".data).length ∧
      t1.doctorAvailList = ([⟨0, 20⟩] : AvailList).eraseIdx pos ∧
      (file1.drop (node.offset.toNat + 4)).take node.size.toNat
        = payload "03" "Carol" "3 Elm Rd" ++
            List.replicate (node.size - ((payload "03" "Carol" "3 Elm Rd").length : Int)).toNat
              '-' ∧
      (∀ i : Nat, i ≠ node.offset.toNat →
        i < node.offset.toNat + 4 ∨ node.offset.toNat + 4 + node.size.toNat ≤ i →
        file1[i]? = ("*|20|01|Alice|1 Main St|\n |18|02|Bob|2 Oak Ave|\n".data)[i]?) ∧
      (CleanField "Carol" → CleanField "3 Elm Rd" → ∀ d1 d2 : Char,
        ("*|20|01|Alice|1 Main St|\n |18|02|Bob|2 Oak Ave|\n".data)[node.offset.toNat + 1]?
          = some '|' →
        ("*|20|01|Alice|1 Main St|\n |18|02|Bob|2 Oak Ave|\n".data)[node.offset.toNat + 2]?
          = some d1 →
        ("*|20|01|Alice|1 Main St|\n |18|02|Bob|2 Oak Ave|\n".data)[node.offset.toNat + 3]?
          = some d2 → d1 ≠ '|' → d1 ≠ '\n' → d2 ≠ '|' → d2 ≠ '\n' →
        parseRecord (readLine file1 node.offset.toNat)
          = ⟨" ", String.mk [d1, d2], "03", "Carol", "3 Elm Rd"⟩) :=
  ⟨⟨rfl, by decide, by decide, by decide, by decide⟩,
    DoctorManagementSystem.addDoctor_reuses_best_fit
      ⟨[⟨"02", 25⟩], ⟨[("Alice", -1), ("Bob", 1)], [⟨"##", "##"⟩, ⟨"02", "-1"⟩]⟩, [⟨0, 20⟩],
        some "*|20|01|Alice|1 Main St|\n |18|02|Bob|2 Oak Ave|\n".data⟩
      ⟨"", "Carol", "3 Elm Rd"⟩ "*|20|01|Alice|1 Main St|\n |18|02|Bob|2 Oak Ave|\n".data "03"
      rfl (by decide) (by decide) (by decide) SecondaryIndex.wellFormed_one_doctor
      (by decide) (by decide)⟩
